import Mathlib

/-!
Verification development for the CytomeTreeD3 gating-tree reconstruction and
phenotype-annotation engine (R backend, `plumber` service).

The definitions below are a shallow embedding of the R source:
* `build_node_with_ids`        — matrix strategy (depth-first split-record expansion),
* `build_mark_tree_list`       — keyed strategy (name-keyed descriptor map),
* `build_tree_from_mark_tree_levels` — level-list strategy,
* `build_phenotype_str`, `build_phenotype_key_and_label`, the population-node
  loop and the phenotype-record loop,
* `normalize` — the strategy dispatch of the `/analyze` handler.

Modelling conventions:
* R numeric values are rationals (`ℚ`); R integers are `Int`.
* R's `NA` and `NULL` scalars are `Option.none`.  `x[i]` on an atomic vector is
  1-based; an index `> length(x)` yields `NA` and an index `≤ 0` yields a
  zero-length (or shortened) vector — both non-scalar outcomes are modelled as
  `none` (`rIndexInt` / `rIndexStr`).
* `round(x, 2)` is modelled by `round2`; R rounds half to even while `round2`
  rounds half up — no statement in this file touches a half-way boundary.
* Mutable accumulation through `<<-` closures is threaded as explicit state
  (`TState`, `KState`).  The unbounded recursion of the matrix strategy is
  given a fuel parameter; `none` models non-termination (or an R error).
-/

namespace Cyto

/-- 1-based R-style single-bracket indexing into an integer vector.
`xs[i]` for `i` out of `[1, length xs]` is a non-scalar (`NA` or a zero-length
or shortened vector), modelled as `none`. -/
def rIndexInt (xs : List Int) (i : Int) : Option Int :=
  if 1 ≤ i ∧ i ≤ (xs.length : Int) then xs.get? (i - 1).toNat else none

/-- 1-based R-style single-bracket indexing into a character vector. -/
def rIndexStr (xs : List String) (i : Int) : Option String :=
  if 1 ≤ i ∧ i ≤ (xs.length : Int) then xs.get? (i - 1).toNat else none

/-- Model of R `round(x, 2)` (half-way cases round up here, half-to-even in R;
no value in this development sits on a half-way boundary).  Implemented on the
numerator/denominator representation, `⌊q·100 + 1/2⌋ / 100`, so that concrete
values evaluate by kernel reduction. -/
def round2 (q : ℚ) : ℚ :=
  mkRat (Int.fdiv (200 * q.num + (q.den : Int)) (2 * (q.den : Int))) 100

/-- R numeric comparison `q <= n` against an integer length, decided on the
representation (`den` is positive, so it is cross-multiplication). -/
def ratLeNat (q : ℚ) (n : Nat) : Bool := q.num ≤ (n : Int) * (q.den : Int)

/-- R coercion of a numeric scalar to an index (truncation toward zero). -/
def ratTrunc (q : ℚ) : Int := Int.tdiv q.num (q.den : Int)

/-- Model of R `as.character` on a numeric scalar, used only when a keyed
entry is re-read as a level label; no claim depends on the exact digits. -/
def rNumToString (q : ℚ) : String :=
  if q.den = 1 then toString q.num else toString q

/-- Canonical node of the normalized gating tree (`tree_nodes` entries):
`cells` is set only on leaves of the matrix/level strategies, `threshold`
only on decision nodes of the matrix/keyed strategies. -/
structure CanonicalNode where
  id : Nat
  name : String
  marker : Option String
  cells : Option Int := none
  threshold : Option ℚ := none
deriving Repr, DecidableEq

/-- Canonical link (`tree_links` entries), always internal node → child. -/
structure CanonicalLink where
  source : Nat
  target : Nat
deriving Repr, DecidableEq

/-- One row of a matrix-shaped `mark_tree`:
`[nodeId, markerColumnIndex, threshold, leftChildId, rightChildId]`
(columns beyond the fifth are never read by the source). -/
structure MatRow where
  nodeId : Int
  markerIdx : Int
  threshold : ℚ
  leftId : Int
  rightId : Int
deriving Repr, DecidableEq

/-- The mutable accumulation (`tree_node_id`, `tree_nodes`, `tree_links`)
threaded through the matrix and level builders. -/
structure TState where
  nextId : Nat
  nodes : List CanonicalNode
  links : List CanonicalLink
deriving Repr, DecidableEq

/-- Matrix strategy: depth-first recursive expansion `build_node_with_ids`
from `part_000` lines 290–329.  An id with no matching row is a leaf whose
cell count is `label_counts[idx]`; an id with a row is an internal node with
`markers[r[2]]` (or a `Marker_<i>` placeholder when the index exceeds the
marker count) and `round(r[3], 2)`, recursing into `r[4]` and `r[5]` and
linking left then right.  The source recursion carries no visited set, so it
is modelled with fuel; `none` is non-termination. -/
def build_node_with_ids (mark_tree : List MatRow) (label_counts : List Int)
    (markers : List String) :
    Nat → Int → TState → Option (Nat × TState)
  | 0, _, _ => none
  | fuel + 1, idx, st =>
    let current_id := st.nextId + 1
    match mark_tree.find? (fun r => r.nodeId == idx) with
    | none =>
        let cells_in_pop := rIndexInt label_counts idx
        some (current_id,
          { nextId := current_id,
            nodes := st.nodes ++
              [{ id := current_id, name := "Pop_" ++ toString idx,
                 marker := some ("Pop_" ++ toString idx),
                 cells := cells_in_pop, threshold := none }],
            links := st.links })
    | some r =>
        let marker_name : Option String :=
          if r.markerIdx ≤ (markers.length : Int) then rIndexStr markers r.markerIdx
          else some ("Marker_" ++ toString r.markerIdx)
        let st1 : TState :=
          { nextId := current_id,
            nodes := st.nodes ++
              [{ id := current_id, name := "Node_" ++ toString idx,
                 marker := marker_name, cells := none,
                 threshold := some (round2 r.threshold) }],
            links := st.links }
        match build_node_with_ids mark_tree label_counts markers fuel r.leftId st1 with
        | none => none
        | some (left_id, st2) =>
          match build_node_with_ids mark_tree label_counts markers fuel r.rightId st2 with
          | none => none
          | some (right_id, st3) =>
              some (current_id,
                { st3 with links := st3.links ++
                    [{ source := current_id, target := left_id },
                     { source := current_id, target := right_id }] })

/-! ## Level-list strategy (`build_tree_from_mark_tree_levels`, lines 76–159) -/

/-- `grepl("^[0-9]+$", label)`: a label made only of digits is a leaf. -/
def is_leaf_label (s : String) : Bool := s.length > 0 && s.data.all Char.isDigit

/-- `sub("\\.[0-9]+$", "", label)`: strip one trailing `.<digits>` suffix. -/
def marker_from_label (s : String) : String :=
  let rev := s.data.reverse
  let digs := rev.takeWhile Char.isDigit
  if digs.length > 0 && (rev.drop digs.length).head? == some '.' then
    String.mk ((rev.drop (digs.length + 1)).reverse)
  else s

/-- `as.integer(label)` on an all-digit label. -/
def strDigitsToNat (s : String) : Nat :=
  s.data.foldl (fun a c => 10 * a + (c.toNat - 48)) 0

/-- The `create_node` closure of the level builder: a digit label becomes a
leaf `Pop_<id>` with `label_counts[id]` cells (bounds-checked, `NA`→`none`);
any other label becomes an internal node whose marker is the label with any
trailing `.<digits>` suffix stripped.  Returns the new state, the assigned id
and `is_internal`. -/
def create_node (label_counts : List Int) (st : TState) (label : String) :
    TState × Nat × Bool :=
  let current_id := st.nextId + 1
  if is_leaf_label label then
    let pop_id := strDigitsToNat label
    let cells_in_pop : Option Int :=
      if pop_id ≤ label_counts.length then rIndexInt label_counts (pop_id : Int) else none
    ({ nextId := current_id,
       nodes := st.nodes ++
         [{ id := current_id, name := "Pop_" ++ toString pop_id,
            marker := some ("Pop_" ++ toString pop_id),
            cells := cells_in_pop, threshold := none }],
       links := st.links }, current_id, false)
  else
    ({ nextId := current_id,
       nodes := st.nodes ++
         [{ id := current_id, name := label,
            marker := some (marker_from_label label),
            cells := none, threshold := none }],
       links := st.links }, current_id, true)

/-- Processing of the first level: emit each label as a root-level node and
collect the ids of the internal ones, in order. -/
def first_level_nodes (label_counts : List Int) (st : TState) :
    List String → TState × List Nat
  | [] => (st, [])
  | label :: rest =>
      let (st', id, isInt) := create_node label_counts st label
      let (st'', ids) := first_level_nodes label_counts st' rest
      (st'', if isInt then id :: ids else ids)

/-- One level of the consumption loop: each still-open internal node of the
previous level takes up to two labels (left/right child), each consumed label
becomes a node linked from its parent, and the ids of newly created internal
nodes are collected in creation order.  Consumption stops when the labels or
the parents run out. -/
def consume_level (label_counts : List Int) :
    TState → List Nat → List String → TState × List Nat
  | st, [], _ => (st, [])
  | st, _ :: _, [] => (st, [])
  | st, parent_id :: ps, label :: rest =>
      let (st1, id1, int1) := create_node label_counts st label
      let st1 := { st1 with links := st1.links ++ [{ source := parent_id, target := id1 }] }
      match rest with
      | [] => (st1, if int1 then [id1] else [])
      | label2 :: rest2 =>
          let (st2, id2, int2) := create_node label_counts st1 label2
          let st2 := { st2 with links := st2.links ++ [{ source := parent_id, target := id2 }] }
          let (st3, ids) := consume_level label_counts st2 ps rest2
          (st3, (if int1 then [id1] else []) ++ (if int2 then [id2] else []) ++ ids)

/-- The `for (level_idx in 2:length(...))` loop: stop on an empty level or
when no internal node remains open. -/
def levels_loop (label_counts : List Int) :
    TState → List Nat → List (List String) → TState
  | st, _, [] => st
  | st, parents, labels :: rest =>
      if labels.isEmpty then st
      else
        let (st', nextInternal) := consume_level label_counts st parents labels
        if nextInternal.isEmpty then st'
        else levels_loop label_counts st' nextInternal rest

/-- Level-list strategy, `part_000` lines 76–159.  A single-level list whose
level contains an internal label makes the R loop `2:length(...)` index
`mark_tree_levels[[2]]` out of bounds, an error that aborts the request:
modelled as `none`. -/
def build_tree_from_mark_tree_levels (mark_tree_levels : List (List String))
    (label_counts : List Int) :
    Option (List CanonicalNode × List CanonicalLink) :=
  match mark_tree_levels with
  | [] => some ([], [])
  | l1 :: rest =>
      let (st1, internals) := first_level_nodes label_counts ⟨0, [], []⟩ l1
      if internals.isEmpty then some (st1.nodes, st1.links)
      else
        match rest with
        | [] => none
        | _ => let st2 := levels_loop label_counts st1 internals rest
               some (st2.nodes, st2.links)

/-! ## Keyed strategy (`build_mark_tree_list`, lines 333–408) -/

/-- A field value inside a keyed `mark_tree` entry (an R named-list member):
either a character or a numeric scalar. -/
inductive KVal where
  | str (s : String)
  | num (q : ℚ)
deriving Repr, DecidableEq

/-- A keyed `mark_tree` entry: an R list with (possibly empty) named fields. -/
abbrev KEntry := List (String × KVal)

/-- `entry$field` lookup. -/
def kvalLookup (entry : KEntry) (field : String) : Option KVal :=
  (entry.find? (fun p => p.1 == field)).map (·.2)

/-- Result of `parse_mark_tree_entry`. -/
structure ParsedEntry where
  marker : Option String
  threshold : Option ℚ
deriving Repr, DecidableEq

/-- `parse_mark_tree_entry`, lines 339–363: the marker comes from
`entry$marker`, else `entry$variable`, else the first element; a numeric
marker within `1..length(markers)` is resolved against `markers` (an index
`≤ 0` leaves R's `NA`, modelled as the string "NA"), a numeric beyond the
range is kept as its decimal text.  The threshold comes from `entry$cut`,
else `entry$threshold`, rounded to 2 digits (non-numeric thresholds are
dropped). -/
def parse_mark_tree_entry (markers : List String) (entry : KEntry) : ParsedEntry :=
  let marker_raw : Option KVal :=
    match kvalLookup entry "marker" with
    | some v => some v
    | none =>
        match kvalLookup entry "variable" with
        | some v => some v
        | none => entry.head?.map (·.2)
  let marker_val : Option String :=
    match marker_raw with
    | none => none
    | some (.str s) => some s
    | some (.num q) =>
        if ratLeNat q markers.length then
          match rIndexStr markers (ratTrunc q) with
          | some s => some s
          | none => some "NA"
        else some (rNumToString q)
  let threshold_raw : Option KVal :=
    match kvalLookup entry "cut" with
    | some v => some v
    | none => kvalLookup entry "threshold"
  let threshold_val : Option ℚ :=
    match threshold_raw with
    | some (.num q) => some (round2 q)
    | some (.str _) => none
    | none => none
  { marker := marker_val, threshold := threshold_val }

/-- The mutable state of the keyed builder: the shared node/link accumulation
plus the `visited` set and the `node_name_to_id` table. -/
structure KState where
  nextId : Nat
  nodes : List CanonicalNode
  links : List CanonicalLink
  visited : List String
  name_to_id : List (String × Nat)
deriving Repr, DecidableEq

/-- `mark_tree[[node_name]]` (always present when the name probes succeed;
a missing name behaves as an empty/`NULL` entry). -/
def node_entry (entries : List (String × KEntry)) (node_name : String) : KEntry :=
  ((entries.find? (fun p => p.1 == node_name)).map (fun p => p.2)).getD []

/-- The link emitted toward a freshly created node when it has a parent. -/
def parent_link (parent_id : Option Nat) (current_id : Nat) : List CanonicalLink :=
  match parent_id with
  | some p => [{ source := p, target := current_id }]
  | none => []

/-- Child-name probing: `<child_marker><suffix>` first, then
`<node_name><suffix>`; whichever candidate exists among the keys is used. -/
def probe_child (names : List String) (child_marker node_name suffix : String) :
    Option String :=
  ([child_marker ++ suffix, node_name ++ suffix].filter
    (fun c => names.contains c)).head?

/-- Keyed strategy recursion `build_mark_tree_list`, lines 365–403.  A
revisited name returns its previously assigned id without emitting a node or
a link.  A fresh name is marked visited, emitted (marker defaulting to
`"root"`), linked from its parent if any, and its children are located by
probing `<marker>.0/<marker>.1` then `<name>.0/<name>.1` against the key set.
Fuel models the call stack; `entries.length + 2` always suffices (proved
below). -/
def build_mark_tree_list (entries : List (String × KEntry)) (markers : List String) :
    Nat → String → Option Nat → KState → Option (Nat × KState)
  | 0, _, _, _ => none
  | fuel + 1, node_name, parent_id, st =>
    if st.visited.contains node_name then
      some ((st.name_to_id.lookup node_name).getD 0, st)
    else
      let current_id := st.nextId + 1
      let parsed := parse_mark_tree_entry markers (node_entry entries node_name)
      let st1 : KState :=
        { nextId := current_id,
          nodes := st.nodes ++
            [{ id := current_id, name := node_name,
               marker := some (parsed.marker.getD "root"),
               cells := none, threshold := parsed.threshold }],
          links := st.links ++ parent_link parent_id current_id,
          visited := node_name :: st.visited,
          name_to_id := (node_name, current_id) :: st.name_to_id }
      match parsed.marker with
      | none => some (current_id, st1)
      | some child_marker =>
          let names := entries.map (fun p => p.1)
          let after_left : Option KState :=
            match probe_child names child_marker node_name ".0" with
            | none => some st1
            | some ln =>
                (build_mark_tree_list entries markers fuel ln (some current_id) st1).map
                  (fun p => p.2)
          match after_left with
          | none => none
          | some st2 =>
              match probe_child names child_marker node_name ".1" with
              | none => some (current_id, st2)
              | some rn =>
                  match build_mark_tree_list entries markers fuel rn (some current_id) st2 with
                  | none => none
                  | some p => some (current_id, p.2)

/-! ## Strategy dispatch (`normalize`), `part_000` lines 270–417 -/

/-- The raw `tree$mark_tree` value after R's type probing: a numeric matrix
(≥ 5 columns, represented row-wise), a named list (keyed shape), an unnamed
list of levels, or `NULL`.  The ad-hoc `as.matrix` reshape heuristic for
borderline shapes is outside this model (the spec marks it underspecified). -/
inductive RawTree where
  | null
  | mat (rows : List MatRow)
  | keyed (entries : List (String × KEntry))
  | levels (lv : List (List String))

/-- Matrix strategy wrapper: guarded by `is.matrix && nrow > 0 && ncol >= 5`;
runs `build_node_with_ids(1)` on the shared accumulator. -/
def matrix_strategy (rt : RawTree) (label_counts : List Int) (markers : List String)
    (fuel : Nat) : Option (List CanonicalNode × List CanonicalLink) :=
  match rt with
  | .mat rows =>
      if rows.isEmpty then some ([], [])
      else
        match build_node_with_ids rows label_counts markers fuel 1 ⟨0, [], []⟩ with
        | none => none
        | some (_, st) => some (st.nodes, st.links)
  | _ => some ([], [])

/-- Keyed strategy wrapper: guarded by `is.list && length > 0 && !is.null(names)`;
starts from the key `"root"` when present, else the first key. -/
def keyed_strategy (rt : RawTree) (markers : List String) :
    Option (List CanonicalNode × List CanonicalLink) :=
  match rt with
  | .keyed entries =>
      if entries.isEmpty then some ([], [])
      else
        let names := entries.map (·.1)
        let root_name := if names.contains "root" then "root" else names.headD ""
        match build_mark_tree_list entries markers (entries.length + 2) root_name none
            ⟨0, [], [], [], []⟩ with
        | none => none
        | some (_, st) => some (st.nodes, st.links)
  | _ => some ([], [])

/-- `as.character` applied to a keyed entry value when it is re-read as a
level label by the fallback strategy. -/
def KVal.asRString : KVal → String
  | .str s => s
  | .num q => rNumToString q

/-- `unlist(...)` view of a list-shaped `mark_tree` as a list of levels: for
a keyed structure each entry's values are flattened to character labels. -/
def levelsView : RawTree → List (List String)
  | .keyed entries => entries.map (fun p => p.2.map (fun q => q.2.asRString))
  | .levels lv => lv
  | _ => []

/-- Level-list strategy wrapper: guarded by `is.list && length > 0`. -/
def level_strategy (rt : RawTree) (label_counts : List Int) :
    Option (List CanonicalNode × List CanonicalLink) :=
  match rt with
  | .keyed _ => build_tree_from_mark_tree_levels (levelsView rt) label_counts
  | .levels _ => build_tree_from_mark_tree_levels (levelsView rt) label_counts
  | _ => some ([], [])

/-- The normalizer dispatch of `/analyze`: matrix strategy first; the keyed
strategy only if no node was produced; the level-list fallback only if at
most one node was produced, replacing the result only when it yields strictly
more nodes. -/
def normalize (rt : RawTree) (label_counts : List Int) (markers : List String)
    (fuel : Nat) : Option (List CanonicalNode × List CanonicalLink) :=
  match matrix_strategy rt label_counts markers fuel with
  | none => none
  | some m =>
      match (if m.1.isEmpty then keyed_strategy rt markers else some m) with
      | none => none
      | some k =>
          match (if k.1.length ≤ 1 then level_strategy rt label_counts
                 else some ([], [])) with
          | none => none
          | some l => some (if k.1.length < l.1.length then l else k)

/-! ## Phenotype annotation (`part_000` lines 419–467 and 532–566) -/

/-- One row of `annot$combinations`: the population label, its cell count and
proportion, and the per-marker ternary calls (`none` = `NA`). -/
structure AnnotRow where
  labels : Int
  count : Int
  prop : ℚ
  calls : List (String × Option Int)
deriving Repr, DecidableEq

/-- `row_data[[m]]` on an annotation row (a marker absent from the column
list behaves like `NA`). -/
def getCall (row : AnnotRow) (m : String) : Option Int :=
  ((row.calls.find? (fun p => p.1 == m)).map (·.2)).getD none

/-- `intersect(colnames(annot_combinations), markers)` — the marker columns
actually in use. -/
def markers_in_use (marker_cols markers : List String) : List String :=
  (marker_cols.filter (markers.contains ·)).dedup

/-- `build_phenotype_str`, lines 431–442: `<m>+` for a call of 1, `<m>-` for
0, `NA` placeholders dropped, joined with spaces; empty string when no marker
qualifies. -/
def build_phenotype_str (row_data : AnnotRow) (markers_subset : List String) : String :=
  let phenotype_parts :=
    (markers_subset.map (fun m =>
      match getCall row_data m with
      | none => none
      | some v =>
          if v == 1 then some (m ++ "+")
          else if v == 0 then some (m ++ "-")
          else none)).reduceOption
  if phenotype_parts.length > 0 then String.intercalate " " phenotype_parts else ""

/-- Result of `build_phenotype_key_and_label`. -/
structure PhenotypeKeyLabel where
  key : String
  label : String
deriving Repr, DecidableEq

/-- `build_phenotype_key_and_label`, lines 534–548: `<m>=1` / `<m>=0` tokens,
joined with commas for the key and with spaces for the label. -/
def build_phenotype_key_and_label (row_data : AnnotRow) (markers_subset : List String) :
    PhenotypeKeyLabel :=
  let phenotype_parts :=
    (markers_subset.map (fun m =>
      match getCall row_data m with
      | none => none
      | some v =>
          if v == 1 then some (m ++ "=1")
          else if v == 0 then some (m ++ "=0")
          else none)).reduceOption
  { key := if phenotype_parts.length > 0 then String.intercalate "," phenotype_parts else "",
    label := if phenotype_parts.length > 0 then String.intercalate " " phenotype_parts else "" }

/-- `sort(unique(tree$labels))` for positive population ids. -/
def sort_unique (labels : List Nat) : List Nat :=
  (List.range (labels.foldr max 0 + 1)).filter (fun i => labels.contains i)

/-- `tabulate(tree$labels)`: the dense per-population cell counts, index `i`
(1-based) holding the number of cells assigned population `i`. -/
def tabulate (labels : List Nat) : List Int :=
  (List.range (labels.foldr max 0)).map (fun i => (labels.count (i + 1) : Int))

/-- The body of the per-population loop for one `pop_id`: the node's name is
the phenotype string when the first matching annotation row yields at least
one qualifying marker, else the generic `Pop_<id>`; cells come from
`label_counts[pop_id]`. -/
def population_node (label_counts : List Int) (annot_combinations : List AnnotRow)
    (mkUse : List String) (node_id : Nat) (pop_id : Nat) : CanonicalNode :=
  let cells_in_pop := rIndexInt label_counts (pop_id : Int)
  let phenotype_str :=
    match annot_combinations.find? (fun row => row.labels == (pop_id : Int)) with
    | none => "Pop_" ++ toString pop_id
    | some row =>
        let s := build_phenotype_str row mkUse
        if s.length > 0 then s else "Pop_" ++ toString pop_id
  { id := node_id, name := phenotype_str, marker := some phenotype_str,
    cells := cells_in_pop, threshold := none }

/-- The `for (pop_id in sort(unique(tree$labels)))` loop with its `node_id`
counter. -/
def population_nodes_loop (label_counts : List Int) (annot_combinations : List AnnotRow)
    (mkUse : List String) : Nat → List Nat → List CanonicalNode
  | _, [] => []
  | node_id, pop_id :: rest =>
      population_node label_counts annot_combinations mkUse (node_id + 1) pop_id ::
        population_nodes_loop label_counts annot_combinations mkUse (node_id + 1) rest

/-- The per-population node list, lines 445–467: one node per distinct
population id of the label assignment. -/
def population_nodes (labels : List Nat) (label_counts : List Int)
    (annot_combinations : List AnnotRow) (mkUse : List String) : List CanonicalNode :=
  population_nodes_loop label_counts annot_combinations mkUse 0 (sort_unique labels)

/-- A `phenotypes` entry of the response payload. -/
structure PhenotypeRecord where
  key : String
  label : String
  population : Int
  count : Int
  proportion : ℚ
deriving Repr, DecidableEq

/-- The phenotype-list loop, lines 550–566: one record per annotation row
whose key is non-empty; rows with an empty key are skipped. -/
def phenotypes_list (annot_combinations : List AnnotRow) (mkUse : List String) :
    List PhenotypeRecord :=
  annot_combinations.filterMap (fun row =>
    let info := build_phenotype_key_and_label row mkUse
    if info.key.length > 0 then
      some { key := info.key, label := info.label, population := row.labels,
             count := row.count, proportion := row.prop }
    else none)

/-- The fields of the `/analyze` response payload covered by this model
(`nodes`, `links`, `treeNodes`, `treeLinks`, `phenotypes`; the cell-level
payload and metadata echoes are outside the engine core). -/
structure AnalyzeResult where
  nodes : List CanonicalNode
  links : List CanonicalLink
  treeNodes : List CanonicalNode
  treeLinks : List CanonicalLink
  phenotypes : List PhenotypeRecord
deriving Repr, DecidableEq

/-- Result assembly, lines 568–590 (`links` is always empty in the source:
"No links for now"). -/
def assemble_result (tree : List CanonicalNode × List CanonicalLink)
    (popNodes : List CanonicalNode) (phens : List PhenotypeRecord) : AnalyzeResult :=
  { nodes := popNodes, links := [], treeNodes := tree.1, treeLinks := tree.2,
    phenotypes := phens }

/-! ## Claim C4 — out-of-range leaf ids -/

/-- The leaf cell count of the older `api.R` variant of
`build_node_with_ids` (lines 175–191): `sum(tree$labels == idx)`. -/
def api_leaf_cells (labels : List Int) (idx : Int) : Int := (labels.count idx : Int)


/-! ## Claim C9 — phenotype key/label tokens -/

/-- The qualifying tokens of an annotation row, following the spec's wording:
one `<marker>=1` (call 1) or `<marker>=0` (call 0) token per marker of
`markersInUse`, a missing call contributing nothing. -/
def phenotypeTokens (row : AnnotRow) (mkUse : List String) : List String :=
  mkUse.filterMap (fun m =>
    match getCall row m with
    | none => none
    | some v =>
        if v = 1 then some (m ++ "=1")
        else if v = 0 then some (m ++ "=0")
        else none)

/-- Number of keys not yet visited: the measure that bounds the keyed
recursion. -/
def unvisN (keys visited : List String) : Nat :=
  (keys.dedup.filter (fun k => !(visited.contains k))).length

/-- Invariants of the keyed-builder state: node ids and node names are never
emitted twice, link targets are pairwise distinct (at most one incoming link
per node), links never dangle, every emitted name is in the visited set and
every visited name is a key. -/
structure KInv (keys : List String) (st : KState) : Prop where
  ids_nodup : (st.nodes.map (fun n => n.id)).Nodup
  targets_nodup : (st.links.map (fun l => l.target)).Nodup
  id_le : ∀ n ∈ st.nodes, n.id ≤ st.nextId
  target_le : ∀ l ∈ st.links, l.target ≤ st.nextId
  closed : ∀ l ∈ st.links,
    (∃ n ∈ st.nodes, n.id = l.source) ∧ (∃ n ∈ st.nodes, n.id = l.target)
  names_vis : ∀ nm ∈ st.nodes.map (fun n => n.name), nm ∈ st.visited
  names_nodup : (st.nodes.map (fun n => n.name)).Nodup
  vis_keys : ∀ v ∈ st.visited, v ∈ keys


/-! ## Claim C8 — no dangling links -/

/-- Dangling-free accumulation: every link's source and target is the id of
an emitted node. -/
def TClosed (nodes : List CanonicalNode) (links : List CanonicalLink) : Prop :=
  ∀ l ∈ links, (∃ n ∈ nodes, n.id = l.source) ∧ (∃ n ∈ nodes, n.id = l.target)


/-! ## Claim C10 — matrix recursion: termination iff acyclic references -/

/-- One reference step of the matrix expansion: from id `i` to a child id of
the first row keyed `i` (exactly the ids the depth-first recursion follows). -/
def refStep (rows : List MatRow) (i j : Int) : Prop :=
  ∃ r, rows.find? (fun r => r.nodeId == i) = some r ∧ (j = r.leftId ∨ j = r.rightId)

/-- A reference chain: the ids visited along one depth-first path, the head
being the starting id. -/
inductive Chain (rows : List MatRow) : Int → List Int → Prop where
  | single (i : Int) : Chain rows i [i]
  | cons {i j : Int} {l : List Int} : refStep rows i j → Chain rows j l →
      Chain rows i (i :: l)

/-- The claim's precondition: no depth-first path from external id 1 revisits
an id already on the path. -/
def AcyclicFrom (rows : List MatRow) : Prop :=
  ∀ l, Chain rows 1 l → l.Nodup


/-! ## Claim C1 — the three strategies on equivalent inputs

The spec-side model: an abstract gating tree (`GTree`) and one encoder per
`RawTreeDescription` shape.  `GTree` carries exactly the split information a
gating tree has (marker column index and threshold per internal node,
population id per leaf). -/

/-- Abstract gating tree: the spec's notion of "the same split information".
Marker column indices are 1-based, as cytometree emits them. -/
inductive GTree where
  | leaf (pop : Nat)
  | node (mIdx : Nat) (thr : ℚ) (l r : GTree)
deriving Repr, DecidableEq

def GTree.size : GTree → Nat
  | .leaf _ => 1
  | .node _ _ l r => 1 + l.size + r.size

/-- Number of internal (decision) nodes. -/
def GTree.icount : GTree → Nat
  | .leaf _ => 0
  | .node _ _ l r => 1 + l.icount + r.icount

/-- Number of leaves. -/
def GTree.lcount : GTree → Nat
  | .leaf _ => 1
  | .node _ _ l r => l.lcount + r.lcount

/-- Leaf population ids in depth-first order. -/
def GTree.pops : GTree → List Nat
  | .leaf p => [p]
  | .node _ _ l r => l.pops ++ r.pops

/-- Internal marker column indices in depth-first order. -/
def GTree.imarks : GTree → List Nat
  | .leaf _ => []
  | .node m _ l r => m :: (l.imarks ++ r.imarks)

/-- Internal `(marker index, threshold)` pairs in depth-first order. -/
def GTree.ithrs : GTree → List (Nat × ℚ)
  | .leaf _ => []
  | .node m thr l r => (m, thr) :: (l.ithrs ++ r.ithrs)

def GTree.isNodeB : GTree → Bool
  | .leaf _ => false
  | .node _ _ _ _ => true

def GTree.childrenOf : GTree → List GTree
  | .leaf _ => []
  | .node _ _ l r => [l, r]

def GTree.size_pos (t : GTree) : 1 ≤ t.size := by
  cases t with
  | leaf p => exact le_refl _
  | node m thr l r => rw [GTree.size]; omega

/-- The resolved marker strings of the internal nodes, depth-first: this is
the common value all three strategies agree on when the marker indices are in
range. -/
def GTree.markerStrs (mk : List String) : GTree → List (Option String)
  | .leaf _ => []
  | .node m _ l r =>
      rIndexStr mk (m : Int) :: (GTree.markerStrs mk l ++ GTree.markerStrs mk r)

/-- The `(marker, rounded threshold)` pairs of the internal nodes,
depth-first: the value the matrix and keyed strategies agree on. -/
def GTree.markerThrs (mk : List String) : GTree → List (Option String × Option ℚ)
  | .leaf _ => []
  | .node m thr l r =>
      (rIndexStr mk (m : Int), some (round2 thr)) ::
        (GTree.markerThrs mk l ++ GTree.markerThrs mk r)

/-- The leaf cell counts (looked up in `labelCounts`), depth-first: the value
the matrix and level-list strategies agree on. -/
def GTree.leafCells (lc : List Int) : GTree → List (Option Int)
  | .leaf p => [rIndexInt lc (p : Int)]
  | .node _ _ l r => GTree.leafCells lc l ++ GTree.leafCells lc r


/-! ### Digit strings and path names for the encoders -/

/-- The decimal digit character for `d < 10`. -/
def digitChar (d : Nat) : Char := Char.ofNat (48 + d)

/-- `as.character(n)` for a natural number: its decimal digit string. -/
def natToStr (n : Nat) : String := String.mk ((Nat.digits 10 n).reverse.map digitChar)

/-- The character for one branch direction. -/
def bitChar (b : Bool) : Char := if b then '1' else '0'

/-- Character list of the keyed name of the position `p` (root = `"root"`,
left child appends `".0"`, right child appends `".1"`). -/
def pathChars (p : List Bool) : List Char :=
  'r' :: 'o' :: 'o' :: 't' :: p.flatMap (fun b => ['.', bitChar b])

/-- Keyed node name of a tree position. -/
def pathName (p : List Bool) : String := String.mk (pathChars p)


/-! ### Matrix encoding of a gating tree -/

/-- External id of a subtree in the matrix encoding: an internal node is
addressed by its row id, a leaf by its population id. -/
def GTree.extId : GTree → Int → Int
  | .leaf p, _ => (p : Int)
  | .node _ _ _ _, next => next

/-- One split record per internal node, row ids assigned in preorder starting
at `next`. -/
def toRowsAux : GTree → Int → List MatRow
  | .leaf _, _ => []
  | .node m thr l r, next =>
      ⟨next, (m : Int), thr, l.extId (next + 1), r.extId (next + 1 + (l.icount : Int))⟩ ::
        (toRowsAux l (next + 1) ++ toRowsAux r (next + 1 + (l.icount : Int)))

/-- Matrix encoding: the root split is row 1. -/
def toRows (t : GTree) : List MatRow := toRowsAux t 1

/-- What `build_node_with_ids` emits for the subtree `t` encoded at row id
`next` when expansion reaches it with next canonical id `cid`: tagged nodes
(`true` = internal) in creation order, and the links in creation order. -/
def matOutAux (lc : List Int) (mk : List String) : GTree → Int → Nat →
    List (Bool × CanonicalNode) × List CanonicalLink
  | .leaf p, _, cid =>
      ([(false, { id := cid, name := "Pop_" ++ toString ((p : Int)),
                  marker := some ("Pop_" ++ toString ((p : Int))),
                  cells := rIndexInt lc ((p : Int)), threshold := none })], [])
  | .node m thr l r, next, cid =>
      let L := matOutAux lc mk l (next + 1) (cid + 1)
      let R := matOutAux lc mk r (next + 1 + (l.icount : Int)) (cid + 1 + l.size)
      ((true, { id := cid, name := "Node_" ++ toString next,
                marker := if ((m : Int)) ≤ (mk.length : Int) then rIndexStr mk ((m : Int))
                          else some ("Marker_" ++ toString ((m : Int))),
                cells := none, threshold := some (round2 thr) }) :: (L.1 ++ R.1),
       L.2 ++ R.2 ++ [⟨cid, cid + 1⟩, ⟨cid, cid + 1 + l.size⟩])


/-! ### Observables of a canonical tree output (leaves = nodes that are never
a link source) -/

/-- Does id `i` occur as the source of some link? -/
def isSourceIn (links : List CanonicalLink) (i : Nat) : Bool :=
  links.any (fun lk => lk.source == i)

/-- The leaf nodes of an output: nodes never used as a link source. -/
def leafNodesOf (out : List CanonicalNode × List CanonicalLink) : List CanonicalNode :=
  out.1.filter (fun n => !(isSourceIn out.2 n.id))

/-- The internal nodes of an output: nodes used as a link source. -/
def internalNodesOf (out : List CanonicalNode × List CanonicalLink) : List CanonicalNode :=
  out.1.filter (fun n => isSourceIn out.2 n.id)

/-- Multiset of leaf cell counts. -/
def leafCellsOf (out : List CanonicalNode × List CanonicalLink) : Multiset (Option Int) :=
  ((leafNodesOf out).map (fun n => n.cells) : List (Option Int))

/-- Multiset of internal markers. -/
def internalMarkersOf (out : List CanonicalNode × List CanonicalLink) :
    Multiset (Option String) :=
  ((internalNodesOf out).map (fun n => n.marker) : List (Option String))

/-- Multiset of internal `(marker, threshold)` pairs. -/
def internalPairsOf (out : List CanonicalNode × List CanonicalLink) :
    Multiset (Option String × Option ℚ) :=
  ((internalNodesOf out).map (fun n => (n.marker, n.threshold)) :
    List (Option String × Option ℚ))


/-! ### Keyed encoding of a gating tree -/

/-- The marker string of marker column `m` (1-based). -/
def mstr (mk : List String) (m : Nat) : String := (rIndexStr mk (m : Int)).getD ""

/-- The keyed entry of a subtree: internal nodes carry their marker string and
cut, leaves carry an empty descriptor. -/
def GTree.entryOf (mk : List String) : GTree → KEntry
  | .leaf _ => []
  | .node m thr _ _ => [("marker", KVal.str (mstr mk m)), ("cut", KVal.num thr)]

/-- Name-keyed encoding: one entry per subtree, keyed by its path name, in
preorder. -/
def toKeyed (mk : List String) : GTree → List Bool → List (String × KEntry)
  | .leaf p', p => [(pathName p, GTree.entryOf mk (.leaf p'))]
  | .node m thr l r, p =>
      (pathName p, GTree.entryOf mk (.node m thr l r)) ::
        (toKeyed mk l (p ++ [false]) ++ toKeyed mk r (p ++ [true]))

/-- The key set of the encoding, in preorder. -/
def GTree.keyNames : GTree → List Bool → List String
  | .leaf _, p => [pathName p]
  | .node _ _ l r, p =>
      pathName p :: (l.keyNames (p ++ [false]) ++ r.keyNames (p ++ [true]))

/-- All positions of a tree, in preorder. -/
def GTree.positions : GTree → List (List Bool)
  | .leaf _ => [[]]
  | .node _ _ l r =>
      [] :: ((l.positions.map (fun q => false :: q)) ++ (r.positions.map (fun q => true :: q)))


/-- The visited set accumulated while expanding a subtree (most recent
first). -/
def GTree.keyVis : GTree → List Bool → List String
  | .leaf _, p => [pathName p]
  | .node _ _ l r, p =>
      r.keyVis (p ++ [true]) ++ (l.keyVis (p ++ [false]) ++ [pathName p])

/-- The `node_name_to_id` entries accumulated while expanding a subtree. -/
def GTree.keyIds : GTree → List Bool → Nat → List (String × Nat)
  | .leaf _, p, cid => [(pathName p, cid)]
  | .node _ _ l r, p, cid =>
      r.keyIds (p ++ [true]) (cid + 1 + l.size) ++
        (l.keyIds (p ++ [false]) (cid + 1) ++ [(pathName p, cid)])

/-- What `build_mark_tree_list` emits for the subtree at position `p` with
next canonical id `cid`: tagged nodes (in creation order) and the links to
the children of each emitted node. -/
def keyOutAux (mk : List String) : GTree → List Bool → Nat →
    List (Bool × CanonicalNode) × List CanonicalLink
  | .leaf _, p, cid =>
      ([(false, { id := cid, name := pathName p, marker := some "root",
                  cells := none, threshold := none })], [])
  | .node m thr l r, p, cid =>
      let L := keyOutAux mk l (p ++ [false]) (cid + 1)
      let R := keyOutAux mk r (p ++ [true]) (cid + 1 + l.size)
      ((true, { id := cid, name := pathName p, marker := some (mstr mk m),
                cells := none, threshold := some (round2 thr) }) :: (L.1 ++ R.1),
       (⟨cid, cid + 1⟩ :: L.2) ++ (⟨cid, cid + 1 + l.size⟩ :: R.2))


/-! ### Level-list encoding of a gating tree -/

/-- The level label of a subtree: leaves print their population id, internal
nodes print their marker string. -/
def GTree.label (mk : List String) : GTree → String
  | .leaf p => natToStr p
  | .node m _ _ _ => mstr mk m

def sizes_flatMap_children (fr : List GTree) :
    ((fr.flatMap GTree.childrenOf).map GTree.size).sum + fr.length =
      (fr.map GTree.size).sum := by
  induction fr with
  | nil => rfl
  | cons t fr ih =>
      rw [List.flatMap_cons, List.map_append, List.sum_append, List.map_cons,
        List.sum_cons, List.length_cons]
      cases t with
      | leaf p =>
          show (([] : List GTree).map GTree.size).sum + _ + (fr.length + 1) = _
          rw [show (([] : List GTree).map GTree.size).sum = 0 from rfl]
          rw [show GTree.size (.leaf p) = 1 from rfl]
          omega
      | node m thr l r =>
          show (([l, r] : List GTree).map GTree.size).sum + _ + (fr.length + 1) = _
          rw [show (([l, r] : List GTree).map GTree.size).sum = l.size + r.size by simp]
          rw [show GTree.size (.node m thr l r) = 1 + l.size + r.size from rfl]
          omega

/-- The level-list encoding of a forest: the labels of the current frontier,
then the levels of all their children. -/
def frontierLevels (mk : List String) (fr : List GTree) : List (List String) :=
  if fr.isEmpty then []
  else (fr.map (GTree.label mk)) :: frontierLevels mk (fr.flatMap GTree.childrenOf)
termination_by (fr.map GTree.size).sum
decreasing_by
  have h1 := sizes_flatMap_children fr
  have h3 : 1 ≤ fr.length := by
    cases fr with
    | nil => simp at *
    | cons a l => rw [List.length_cons]; omega
  omega

/-- The canonical node `create_node` emits for the label of child `c`, with
its internal tag. -/
def levChildNode (lc : List Int) (mk : List String) (cid : Nat) : GTree → Bool × CanonicalNode
  | .leaf p =>
      (false, { id := cid, name := "Pop_" ++ toString p,
                marker := some ("Pop_" ++ toString p),
                cells := if p ≤ lc.length then rIndexInt lc (p : Int) else none,
                threshold := none })
  | .node m _ _ _ =>
      (true, { id := cid, name := mstr mk m,
               marker := some (marker_from_label (mstr mk m)),
               cells := none, threshold := none })


/-- One level of the explicit model: each (internal) frontier entry `(pid, t)`
contributes its two children as tagged nodes at sequential ids, two links from
`pid`, and its internal children (paired with their ids) to the next
frontier. -/
def levLevel (lc : List Int) (mk : List String) :
    List (Nat × GTree) → Nat →
    List (Bool × CanonicalNode) × List CanonicalLink × List (Nat × GTree)
  | [], _ => ([], [], [])
  | (pid, t) :: rest, cid =>
      match t with
      | .leaf _ => ([], [], [])
      | .node _ _ l u =>
          let n1 := levChildNode lc mk cid l
          let n2 := levChildNode lc mk (cid + 1) u
          let z := levLevel lc mk rest (cid + 2)
          (n1 :: n2 :: z.1,
           ⟨pid, cid⟩ :: ⟨pid, cid + 1⟩ :: z.2.1,
           ((if l.isNodeB then [(cid, l)] else []) ++
             (if u.isNodeB then [(cid + 1, u)] else [])) ++ z.2.2)


/-- Number of strict descendants of a frontier (nodes still to be created). -/
def levDesc : List (Nat × GTree) → Nat
  | [] => 0
  | (_, t) :: rest => (t.size - 1) + levDesc rest

def plength_le_psum (ps : List (Nat × GTree)) :
    ps.length ≤ (ps.map (fun q => GTree.size q.2)).sum := by
  induction ps with
  | nil => exact le_refl _
  | cons q rest ih =>
      rw [List.length_cons, List.map_cons, List.sum_cons]
      have := GTree.size_pos q.2
      omega

def levLevel_fr_sizes (lc : List Int) (mk : List String) :
    ∀ (ps : List (Nat × GTree)) (cid : Nat),
      (((levLevel lc mk ps cid).2.2).map (fun q => GTree.size q.2)).sum + ps.length ≤
        (ps.map (fun q => GTree.size q.2)).sum := by
  intro ps
  induction ps with
  | nil => intro cid; rw [levLevel]; exact le_refl _
  | cons q rest ih =>
      intro cid
      obtain ⟨pid, t⟩ := q
      cases t with
      | leaf p =>
          rw [levLevel]
          have h := plength_le_psum ((pid, GTree.leaf p) :: rest)
          simpa using h
      | node m thr l u =>
          rw [levLevel]
          dsimp only
          rw [List.map_append, List.sum_append, List.map_append, List.sum_append,
            List.length_cons, List.map_cons, List.sum_cons]
          have hZ := ih (cid + 2)
          have hsl := GTree.size_pos l
          have hsu := GTree.size_pos u
          have hst : GTree.size (.node m thr l u) = 1 + l.size + u.size := rfl
          rw [hst]
          have hpl : ((if l.isNodeB then [(cid, l)] else []).map
              (fun q => GTree.size q.2)).sum ≤ l.size := by
            cases l.isNodeB <;> simp
          have hpu : ((if u.isNodeB then [(cid + 1, u)] else []).map
              (fun q => GTree.size q.2)).sum ≤ u.size := by
            cases u.isNodeB <;> simp
          omega

/-- All levels of the explicit model below a frontier: the tagged nodes and
links this frontier's strict descendants generate, level by level. -/
def levAll (lc : List Int) (mk : List String)
    (ps : List (Nat × GTree)) (cid : Nat) :
    List (Bool × CanonicalNode) × List CanonicalLink :=
  if ps.isEmpty then ([], [])
  else
    let z := levLevel lc mk ps cid
    let w := levAll lc mk z.2.2 (cid + 2 * ps.length)
    (z.1 ++ w.1, z.2.1 ++ w.2)
termination_by (ps.map (fun q => GTree.size q.2)).sum
decreasing_by
  have h1 := levLevel_fr_sizes lc mk ps cid
  have h3 : 1 ≤ ps.length := by
    cases ps with
    | nil => simp at *
    | cons a lrest => rw [List.length_cons]; omega
  omega


/-! ### Level-side observable lemmas -/

def kidPop : GTree → List Nat
  | .leaf p => [p]
  | .node _ _ _ _ => []

def kidMark : GTree → List Nat
  | .leaf _ => []
  | .node m _ _ _ => [m]

/-- Population ids of the leaf children of an internal node. -/
def GTree.leafKids : GTree → List Nat
  | .leaf _ => []
  | .node _ _ l u => kidPop l ++ kidPop u

/-- Marker indices of the internal children of an internal node. -/
def GTree.intKidMarks : GTree → List Nat
  | .leaf _ => []
  | .node _ _ l u => kidMark l ++ kidMark u

/-- Marker indices of the strict descendants. -/
def GTree.cimarks : GTree → List Nat
  | .leaf _ => []
  | .node _ _ l u => l.imarks ++ u.imarks

/-! ## Theorems -/


example :
    build_node_with_ids [⟨1, 1, mkRat 1 2, 2, 3⟩] [1, 5, 7] ["CD3"] 9 1 ⟨0, [], []⟩ =
      some (1,
        { nextId := 3,
          nodes := [⟨1, "Node_1", some "CD3", none, some (mkRat 1 2)⟩,
                    ⟨2, "Pop_2", some "Pop_2", some 5, none⟩,
                    ⟨3, "Pop_3", some "Pop_3", some 7, none⟩],
          links := [⟨1, 2⟩, ⟨1, 3⟩] }) := by decide

example :
    build_tree_from_mark_tree_levels [["CD3"], ["1", "2"]] [3, 9] =
      some ([⟨1, "CD3", some "CD3", none, none⟩,
             ⟨2, "Pop_1", some "Pop_1", some 3, none⟩,
             ⟨3, "Pop_2", some "Pop_2", some 9, none⟩],
            [⟨1, 2⟩, ⟨1, 3⟩]) := by decide

example :
    (build_mark_tree_list
        [("root", [("marker", KVal.str "CD3"), ("cut", KVal.num (mkRat 1 2))]),
         ("CD3.0", []), ("CD3.1", [])] ["CD3"] 5 "root" none ⟨0, [], [], [], []⟩).map
      (fun p => (p.2.nodes, p.2.links)) =
      some ([⟨1, "root", some "CD3", none, some (mkRat 1 2)⟩,
             ⟨2, "CD3.0", some "root", none, none⟩,
             ⟨3, "CD3.1", some "root", none, none⟩],
            [⟨1, 2⟩, ⟨1, 3⟩]) := by decide

/-! ## Claim C2 — Scenario A (matrix shape) -/

/-- C2 (counterexample): on the matrix row `[1, 0, 0.5, 2, 3]` with
`markerNames = ["CD3"]`, the source evaluates `markers[0]` (R is 1-based), a
zero-length character vector, so the root internal node's marker is empty —
not `"CD3"` as the claim states.  The rest of the claimed shape does hold. -/
theorem c2_counterexample :
    normalize (RawTree.mat [⟨1, 0, mkRat 1 2, 2, 3⟩]) [1, 5, 7] ["CD3"] 9 =
      some ([⟨1, "Node_1", none, none, some (mkRat 1 2)⟩,
             ⟨2, "Pop_2", some "Pop_2", some 5, none⟩,
             ⟨3, "Pop_3", some "Pop_3", some 7, none⟩],
            [⟨1, 2⟩, ⟨1, 3⟩]) ∧
    (none : Option String) ≠ some "CD3" := by decide

/-- C2 (amended): with the marker column index written 1-based — the single
row `[1, 1, 0.5, 2, 3]` — `normalize` returns exactly the three claimed
nodes (root internal node with marker "CD3" and threshold 0.5, leaf `Pop_2`
with 5 cells, leaf `Pop_3` with 7 cells) and the two links from the root,
left child first. -/
theorem c2_amended_scenario_a :
    normalize (RawTree.mat [⟨1, 1, mkRat 1 2, 2, 3⟩]) [1, 5, 7] ["CD3"] 9 =
      some ([⟨1, "Node_1", some "CD3", none, some (mkRat 1 2)⟩,
             ⟨2, "Pop_2", some "Pop_2", some 5, none⟩,
             ⟨3, "Pop_3", some "Pop_3", some 7, none⟩],
            [⟨1, 2⟩, ⟨1, 3⟩]) := by decide

/-- C4: at the matrix `[[1, 1, 0.5, 2, 99]]` with `labelCounts = [5, 7]`, the
expansion reaches child id 99, out of the bounds of `labelCounts`.  The
`part_000` normalizer emits the leaf with `cells = NA` (modelled `none`) via
`label_counts[99]` — not the zero count the spec requires — while completing
the reconstruction; the `api.R` variant `sum(tree$labels == idx)` does yield
0 on the same id. -/
theorem c4_out_of_range_leaf_na :
    normalize (RawTree.mat [⟨1, 1, mkRat 1 2, 2, 99⟩]) [5, 7] ["CD3"] 9 =
      some ([⟨1, "Node_1", some "CD3", none, some (mkRat 1 2)⟩,
             ⟨2, "Pop_2", some "Pop_2", some 7, none⟩,
             ⟨3, "Pop_99", some "Pop_99", none, none⟩],
            [⟨1, 2⟩, ⟨1, 3⟩]) ∧
    api_leaf_cells [1, 1, 2] 99 = 0 := by decide

/-! ## Claim C7 — Scenario C (level-list shape) -/

/-- C7: the level-list input `[["CD3"], ["1", "2"]]` with label counts 3 and 9
for populations 1 and 2 normalizes to a root node with marker "CD3" and two
leaf children `Pop_1` (3 cells) and `Pop_2` (9 cells), each linked from the
root. -/
theorem c7_scenario_c :
    normalize (RawTree.levels [["CD3"], ["1", "2"]]) [3, 9] ["CD3"] 9 =
      some ([⟨1, "CD3", some "CD3", none, none⟩,
             ⟨2, "Pop_1", some "Pop_1", some 3, none⟩,
             ⟨3, "Pop_2", some "Pop_2", some 9, none⟩],
            [⟨1, 2⟩, ⟨1, 3⟩]) := by decide

lemma reduceOption_map_eq_filterMap {α β : Type} (l : List α) (f : α → Option β) :
    (l.map f).reduceOption = l.filterMap f := by
  simp [List.reduceOption, List.filterMap_map, Function.comp]

lemma intercalate_nil_eq_empty (s : String) : String.intercalate s [] = "" := rfl

lemma phenotype_parts_eq_tokens (row : AnnotRow) (mkUse : List String) :
    (mkUse.map (fun m =>
      match getCall row m with
      | none => none
      | some v =>
          if v == 1 then some (m ++ "=1")
          else if v == 0 then some (m ++ "=0")
          else none)).reduceOption = phenotypeTokens row mkUse := by
  rw [reduceOption_map_eq_filterMap, phenotypeTokens]
  congr 1
  funext m
  cases getCall row m with
  | none => rfl
  | some v => simp [beq_iff_eq]

/-- C9 (counterexample): for an annotation row calling CD3 positive, the
`PhenotypeRecord` label is `"CD3=1"`, not the `"CD3+"` token the claim
requires (the `+`/`-` rendering is used for the population node names built
by `build_phenotype_str`, not for the record label). -/
theorem c9_counterexample :
    (build_phenotype_key_and_label ⟨1, 3, mkRat 3 10, [("CD3", some 1)]⟩ ["CD3"]).label
        = "CD3=1" ∧
    "CD3=1" ≠ "CD3+" ∧
    build_phenotype_str ⟨1, 3, mkRat 3 10, [("CD3", some 1)]⟩ ["CD3"] = "CD3+" := by
  refine ⟨by decide, by decide, by decide⟩

/-- C9 (amended): for every annotation row and marker list, the record key is
the row's `<marker>=1` / `<marker>=0` tokens joined with commas and the
record label is the same tokens joined with spaces (not `+`/`-` tokens); a
missing call contributes nothing to either string. -/
theorem c9_key_and_label_tokens (row : AnnotRow) (mkUse : List String) :
    (build_phenotype_key_and_label row mkUse).key
        = String.intercalate "," (phenotypeTokens row mkUse) ∧
    (build_phenotype_key_and_label row mkUse).label
        = String.intercalate " " (phenotypeTokens row mkUse) := by
  unfold build_phenotype_key_and_label
  rw [phenotype_parts_eq_tokens]
  rcases h : phenotypeTokens row mkUse with _ | ⟨t, ts⟩
  · exact ⟨rfl, rfl⟩
  · simp


/-! ## Claim C3 — no population dropped (population nodes vs phenotype list) -/

lemma le_foldr_max {labels : List Nat} {pop : Nat} (h : pop ∈ labels) :
    pop ≤ labels.foldr max 0 := by
  induction labels with
  | nil => cases h
  | cons a tl ih =>
      rcases List.mem_cons.mp h with h1 | h2
      · subst h1; exact Nat.le_max_left _ _
      · exact le_trans (ih h2) (Nat.le_max_right _ _)

lemma mem_sort_unique {labels : List Nat} {pop : Nat} (h : pop ∈ labels) :
    pop ∈ sort_unique labels := by
  unfold sort_unique
  refine List.mem_filter.mpr ⟨List.mem_range.mpr ?_, ?_⟩
  · exact Nat.lt_succ_of_le (le_foldr_max h)
  · exact List.elem_iff.mpr h

lemma population_nodes_loop_mem (lc : List Int) (annot : List AnnotRow)
    (mkUse : List String) (pops : List Nat) (pop : Nat) :
    pop ∈ pops → ∀ k, ∃ n ∈ population_nodes_loop lc annot mkUse k pops,
      n = population_node lc annot mkUse n.id pop := by
  induction pops with
  | nil => intro h; cases h
  | cons a tl ih =>
      intro h k
      rcases List.mem_cons.mp h with h1 | h2
      · subst h1
        exact ⟨population_node lc annot mkUse (k + 1) pop,
          List.mem_cons_self _ _, rfl⟩
      · obtain ⟨n, hn, hne⟩ := ih h2 (k + 1)
        exact ⟨n, List.mem_cons_of_mem _ hn, hne⟩

/-- C3 (counterexample): population 4 is present in the label assignment
`[1, 4, 4]` (2 cells) but has no annotation row, and the phenotypes list
contains no record at all for population 4 — the phenotype output does drop
it.  The `Pop_4` fallback with 2 cells appears in the per-population node
list instead. -/
theorem c3_counterexample :
    (phenotypes_list [⟨1, 1, mkRat 1 3, [("CD3", some 1)]⟩] ["CD3"]).all
        (fun r => r.population != 4) = true ∧
    (4 ∈ [1, 4, 4] ∧
     (population_nodes [1, 4, 4] (tabulate [1, 4, 4])
         [⟨1, 1, mkRat 1 3, [("CD3", some 1)]⟩] ["CD3"]).map
        (fun n => (n.name, n.cells)) = [("CD3+", some 1), ("Pop_4", some 2)]) := by
  refine ⟨by decide, by decide, by decide⟩

/-- C3 (amended): no population present in the label assignment is dropped
from the per-population node list: each one is emitted with its cell count
looked up from labelCounts, its name falling back to the generic `Pop_<id>`
both when its annotation row is entirely absent and when the row yields zero
qualifying markers.  The phenotypes list, by contrast, keeps only annotation
rows with a non-empty key, so such populations are absent from it. -/
theorem c3_population_emitted_with_fallback (labels : List Nat) (lc : List Int)
    (annot : List AnnotRow) (mkUse : List String) (pop : Nat) (h : pop ∈ labels) :
    (∃ n ∈ population_nodes labels lc annot mkUse,
      n.cells = rIndexInt lc (pop : Int) ∧
      (annot.find? (fun row => row.labels == (pop : Int)) = none →
        n.name = "Pop_" ++ toString pop) ∧
      (∀ row, annot.find? (fun row' => row'.labels == (pop : Int)) = some row →
        build_phenotype_str row mkUse = "" → n.name = "Pop_" ++ toString pop)) ∧
    (∀ r ∈ phenotypes_list annot mkUse, r.key ≠ "") := by
  constructor
  · obtain ⟨n, hn, hne⟩ :=
      population_nodes_loop_mem lc annot mkUse (sort_unique labels) pop
        (mem_sort_unique h) 0
    refine ⟨n, hn, ?_, ?_, ?_⟩
    · rw [hne]; rfl
    · intro hfind
      rw [hne]
      unfold population_node
      rw [hfind]
    · intro row hfind hstr
      rw [hne]
      unfold population_node
      rw [hfind]
      simp [hstr]
  · intro r hr
    obtain ⟨row, hmem, hrow⟩ := List.mem_filterMap.mp hr
    by_cases hkey : (build_phenotype_key_and_label row mkUse).key.length > 0
    · rw [if_pos hkey] at hrow
      have h' := Option.some.inj hrow
      subst h'
      intro hempty
      have hk : (build_phenotype_key_and_label row mkUse).key = "" := hempty
      rw [hk] at hkey
      exact (by decide : ¬ ("" : String).length > 0) hkey
    · rw [if_neg hkey] at hrow
      exact absurd hrow (by simp)

/-- Witness for `c3_population_emitted_with_fallback` at the Scenario D
instance: population 4 with 2 cells and no annotation row. -/
theorem c3_population_emitted_with_fallback_witness :
    (4 ∈ [1, 4, 4]) ∧
    ((∃ n ∈ population_nodes [1, 4, 4] (tabulate [1, 4, 4])
          [⟨1, 1, mkRat 1 3, [("CD3", some 1)]⟩] ["CD3"],
        n.cells = rIndexInt (tabulate [1, 4, 4]) ((4 : Nat) : Int) ∧
        (([⟨1, 1, mkRat 1 3, [("CD3", some 1)]⟩] : List AnnotRow).find?
            (fun row => row.labels == ((4 : Nat) : Int)) = none →
          n.name = "Pop_" ++ toString (4 : Nat)) ∧
        (∀ row, ([⟨1, 1, mkRat 1 3, [("CD3", some 1)]⟩] : List AnnotRow).find?
            (fun row' => row'.labels == ((4 : Nat) : Int)) = some row →
          build_phenotype_str row ["CD3"] = "" → n.name = "Pop_" ++ toString (4 : Nat))) ∧
     (∀ r ∈ phenotypes_list [⟨1, 1, mkRat 1 3, [("CD3", some 1)]⟩] ["CD3"], r.key ≠ "")) :=
  ⟨by decide,
   c3_population_emitted_with_fallback [1, 4, 4] (tabulate [1, 4, 4])
     [⟨1, 1, mkRat 1 3, [("CD3", some 1)]⟩] ["CD3"] 4 (by decide)⟩


/-! ## Claim C5 — empty tree failure policy -/

/-- C5: when all three reconstruction strategies yield zero nodes, the
normalizer returns the empty tree `{nodes: [], links: []}` (no error), and
the assembled response still carries the phenotypes list, which is non-empty
whenever some annotation row has at least one qualifying marker. -/
theorem c5_empty_tree_keeps_phenotypes (rt : RawTree) (lc : List Int)
    (mk : List String) (fuel : Nat) (labels : List Nat)
    (annot : List AnnotRow) (mkUse : List String)
    (h1 : matrix_strategy rt lc mk fuel = some ([], []))
    (h2 : keyed_strategy rt mk = some ([], []))
    (h3 : level_strategy rt lc = some ([], [])) :
    normalize rt lc mk fuel = some ([], []) ∧
    (assemble_result ([], []) (population_nodes labels lc annot mkUse)
        (phenotypes_list annot mkUse)).phenotypes = phenotypes_list annot mkUse ∧
    ((∃ row ∈ annot, (build_phenotype_key_and_label row mkUse).key ≠ "") →
      phenotypes_list annot mkUse ≠ []) := by
  refine ⟨?_, rfl, ?_⟩
  · unfold normalize
    rw [h1]
    simp only [List.isEmpty_nil, if_true]
    rw [h2]
    simp only [List.length_nil, Nat.zero_le, if_true, if_pos]
    rw [h3]
    simp
  · rintro ⟨row, hmem, hkey⟩
    have hlen : (build_phenotype_key_and_label row mkUse).key.length > 0 := by
      cases hk : (build_phenotype_key_and_label row mkUse).key with
      | mk l =>
          cases l with
          | nil => exact absurd hk hkey
          | cons c cs => simp [String.length, hk]
    intro hnil
    have : ({ key := (build_phenotype_key_and_label row mkUse).key,
              label := (build_phenotype_key_and_label row mkUse).label,
              population := row.labels, count := row.count,
              proportion := row.prop } : PhenotypeRecord) ∈
        phenotypes_list annot mkUse := by
      refine List.mem_filterMap.mpr ⟨row, hmem, ?_⟩
      rw [if_pos hlen]
    rw [hnil] at this
    cases this

/-- Witness for `c5_empty_tree_keeps_phenotypes`: a `NULL` `mark_tree` (all
strategies trivially empty) with one annotation row calling CD3 positive. -/
theorem c5_empty_tree_keeps_phenotypes_witness :
    normalize RawTree.null [] [] 0 = some ([], []) ∧
    phenotypes_list [⟨1, 3, mkRat 3 10, [("CD3", some 1)]⟩] ["CD3"] ≠ [] := by
  have h := c5_empty_tree_keeps_phenotypes RawTree.null [] [] 0 []
    [⟨1, 3, mkRat 3 10, [("CD3", some 1)]⟩] ["CD3"] (by decide) (by decide) (by decide)
  exact ⟨h.1, h.2.2 ⟨⟨1, 3, mkRat 3 10, [("CD3", some 1)]⟩, by decide, by decide⟩⟩


/-! ## Claim C6 — keyed strategy: visited set, termination, single emission -/

lemma head?_mem {α : Type} {l : List α} {a : α} (h : l.head? = some a) : a ∈ l := by
  cases l with
  | nil => cases h
  | cons b t =>
      have hb : b = a := Option.some.inj h
      subst hb
      exact List.mem_cons_self _ _

lemma nodup_snoc {α : Type} [DecidableEq α] {l : List α} {a : α}
    (h : l.Nodup) (ha : a ∉ l) : (l ++ [a]).Nodup := by
  rw [List.nodup_append]
  refine ⟨h, List.nodup_singleton a, ?_⟩
  intro x hx hxa
  rw [List.mem_singleton] at hxa
  subst hxa
  exact ha hx

lemma unvisN_anti (keys : List String) {v v' : List String} (h : ∀ x ∈ v, x ∈ v') :
    unvisN keys v' ≤ unvisN keys v := by
  unfold unvisN
  refine (List.monotone_filter_right _ ?_).length_le
  intro a ha
  rw [Bool.not_eq_true'] at ha ⊢
  cases hc : v.contains a with
  | false => rfl
  | true =>
      have h2 : v'.contains a = true := List.elem_iff.mpr (h a (List.elem_iff.mp hc))
      rw [h2] at ha
      cases ha

lemma unvisN_lt_of_mark {keys v : List String} {name : String}
    (hk : name ∈ keys) (hv : v.contains name = false) :
    unvisN keys (name :: v) < unvisN keys v := by
  unfold unvisN
  have hfun : (fun k => !((name :: v).contains k)) =
      (fun k => !(k == name) && !(v.contains k)) := by
    funext k
    have hshow : (name :: v).contains k = (k == name || v.contains k) := by
      by_cases hkn : k = name
      · subst hkn; simp [List.contains_cons]
      · simp [List.contains_cons, hkn]
    rw [hshow, Bool.not_or]
  rw [hfun, ← List.filter_filter]
  refine List.length_filter_lt_length_iff_exists.mpr ⟨name, ?_, ?_⟩
  · exact List.mem_filter.mpr ⟨List.mem_dedup.mpr hk, by rw [hv]; rfl⟩
  · simp

/-- Pushing one fresh node (with optional parent link) preserves the
invariants. -/
lemma KInv_push (keys : List String) (st : KState) {name : String}
    (mk : Option String) (thr : Option ℚ) (parent : Option Nat)
    (hinv : KInv keys st) (hname : name ∈ keys) (hnin : name ∉ st.visited)
    (hpar : ∀ p, parent = some p → ∃ n ∈ st.nodes, n.id = p) :
    KInv keys
      ⟨st.nextId + 1,
       st.nodes ++ [⟨st.nextId + 1, name, mk, none, thr⟩],
       st.links ++ parent_link parent (st.nextId + 1),
       name :: st.visited,
       (name, st.nextId + 1) :: st.name_to_id⟩ := by
  have hidfresh : (st.nextId + 1) ∉ st.nodes.map (fun n => n.id) := by
    intro hmem
    obtain ⟨n, hn, hid⟩ := List.mem_map.mp hmem
    have := hinv.id_le n hn
    omega
  have htgtfresh : (st.nextId + 1) ∉ st.links.map (fun l => l.target) := by
    intro hmem
    obtain ⟨l, hl, hid⟩ := List.mem_map.mp hmem
    have := hinv.target_le l hl
    omega
  have hnamefresh : name ∉ st.nodes.map (fun n => n.name) := by
    intro hmem
    exact hnin (hinv.names_vis name hmem)
  have hplink : ∀ l ∈ parent_link parent (st.nextId + 1),
      l.target = st.nextId + 1 ∧ ∃ p, parent = some p ∧ l.source = p := by
    intro l hl
    cases parent with
    | none => cases hl
    | some p =>
        rw [show parent_link (some p) (st.nextId + 1) =
          [{ source := p, target := st.nextId + 1 }] from rfl,
          List.mem_singleton] at hl
        subst hl
        exact ⟨rfl, p, rfl, rfl⟩
  refine ⟨?_, ?_, ?_, ?_, ?_, ?_, ?_, ?_⟩
  · rw [List.map_append]
    exact nodup_snoc hinv.ids_nodup hidfresh
  · cases parent with
    | none => simpa [parent_link] using hinv.targets_nodup
    | some p =>
        rw [show parent_link (some p) (st.nextId + 1) =
          [{ source := p, target := st.nextId + 1 }] from rfl, List.map_append]
        exact nodup_snoc hinv.targets_nodup htgtfresh
  · intro n hn
    rcases List.mem_append.mp hn with h1 | h2
    · exact le_trans (hinv.id_le n h1) (Nat.le_succ _)
    · rw [List.mem_singleton] at h2
      subst h2
      exact le_refl _
  · intro l hl
    rcases List.mem_append.mp hl with h1 | h2
    · exact le_trans (hinv.target_le l h1) (Nat.le_succ _)
    · rw [(hplink l h2).1]
  · intro l hl
    rcases List.mem_append.mp hl with h1 | h2
    · obtain ⟨⟨ns, hns, hid⟩, ⟨nt, hnt, hidt⟩⟩ := hinv.closed l h1
      exact ⟨⟨ns, List.mem_append_left _ hns, hid⟩,
        ⟨nt, List.mem_append_left _ hnt, hidt⟩⟩
    · obtain ⟨htgt, p, hp, hsrc⟩ := hplink l h2
      refine ⟨?_, ?_⟩
      · obtain ⟨n, hn, hid⟩ := hpar p hp
        exact ⟨n, List.mem_append_left _ hn, by rw [hid, hsrc]⟩
      · exact ⟨_, List.mem_append_right _ (List.mem_singleton_self _), htgt.symm⟩
  · intro nm hnm
    rw [List.map_append] at hnm
    rcases List.mem_append.mp hnm with h1 | h2
    · exact List.mem_cons_of_mem _ (hinv.names_vis nm h1)
    · rw [List.map_singleton, List.mem_singleton] at h2
      subst h2
      exact List.mem_cons_self _ _
  · rw [List.map_append]
    exact nodup_snoc hinv.names_nodup hnamefresh
  · intro v hv
    rcases List.mem_cons.mp hv with h1 | h2
    · subst h1; exact hname
    · exact hinv.vis_keys v h2


/-- Totality and invariants of `build_mark_tree_list`: whenever the starting
name is a key and the fuel exceeds the number of unvisited keys, the builder
returns, its state invariants are preserved, and the state only grows.  This
holds for every keyed input, including child-naming conventions that form
cycles: the visited set bounds the work. -/
lemma build_mark_tree_list_total (entries : List (String × KEntry)) (markers : List String) :
    ∀ fuel name parent st,
      name ∈ entries.map (fun p => p.1) →
      unvisN (entries.map (fun p => p.1)) st.visited < fuel →
      KInv (entries.map (fun p => p.1)) st →
      (∀ p, parent = some p → ∃ n ∈ st.nodes, n.id = p) →
      ∃ rid st',
        build_mark_tree_list entries markers fuel name parent st = some (rid, st') ∧
        KInv (entries.map (fun p => p.1)) st' ∧
        st.nextId ≤ st'.nextId ∧
        (∀ n ∈ st.nodes, n ∈ st'.nodes) ∧
        (∀ v ∈ st.visited, v ∈ st'.visited) := by
  intro fuel
  induction fuel with
  | zero => intro name parent st _ hlt; omega
  | succ n ih =>
      intro name parent st hname hlt hinv hpar
      by_cases hvis0 : st.visited.contains name = true
      · refine ⟨(st.name_to_id.lookup name).getD 0, st, ?_, hinv, le_refl _,
          fun x hx => hx, fun v hv => hv⟩
        rw [build_mark_tree_list, if_pos hvis0]
      · rw [Bool.not_eq_true] at hvis0
        have hvisneg : ¬ (st.visited.contains name = true) := by
          rw [hvis0]; exact Bool.false_ne_true
        have hnin : name ∉ st.visited := fun hmem =>
          Bool.false_ne_true (hvis0 ▸ List.elem_iff.mpr hmem)
        have hunvis1 : ∀ v1 : List String, v1 = name :: st.visited →
            unvisN (entries.map (fun p => p.1)) v1 < n := by
          intro v1 hv1
          subst hv1
          have h1 := unvisN_lt_of_mark hname hvis0
          omega
        rcases hm : (parse_mark_tree_entry markers (node_entry entries name)).marker
          with _ | cm
        · -- no marker: no children, stop at the fresh node
          have hpush := KInv_push (entries.map (fun p => p.1)) st
            (some ((none : Option String).getD "root"))
            (parse_mark_tree_entry markers (node_entry entries name)).threshold parent
            hinv hname hnin hpar
          refine ⟨st.nextId + 1, _, ?_, hpush, Nat.le_succ _,
            fun x hx => List.mem_append_left _ hx,
            fun v hv => List.mem_cons_of_mem _ hv⟩
          rw [build_mark_tree_list, if_neg hvisneg]
          simp only [hm, Option.getD_none]
        · -- marker present: probe the two children
          have hpush := KInv_push (entries.map (fun p => p.1)) st
            (some ((some cm).getD "root"))
            (parse_mark_tree_entry markers (node_entry entries name)).threshold parent
            hinv hname hnin hpar
          rw [Option.getD_some] at hpush
          set st1 : KState :=
            ⟨st.nextId + 1,
             st.nodes ++ [⟨st.nextId + 1, name, some cm, none,
               (parse_mark_tree_entry markers (node_entry entries name)).threshold⟩],
             st.links ++ parent_link parent (st.nextId + 1),
             name :: st.visited,
             (name, st.nextId + 1) :: st.name_to_id⟩ with hst1
          have hnew1 : (⟨st.nextId + 1, name, some cm, none,
              (parse_mark_tree_entry markers (node_entry entries name)).threshold⟩ :
                CanonicalNode) ∈ st1.nodes :=
            List.mem_append_right _ (List.mem_singleton_self _)
          have hu1 : unvisN (entries.map (fun p => p.1)) st1.visited < n :=
            hunvis1 _ rfl
          rcases hl : probe_child (entries.map (fun p => p.1)) cm name ".0" with _ | ln
          · rcases hr : probe_child (entries.map (fun p => p.1)) cm name ".1" with _ | rn
            · refine ⟨st.nextId + 1, st1, ?_, hpush, Nat.le_succ _,
                fun x hx => List.mem_append_left _ hx,
                fun v hv => List.mem_cons_of_mem _ hv⟩
              rw [build_mark_tree_list, if_neg hvisneg]
              simp only [hm, Option.getD_some, hl, hr]
            · have hrn : rn ∈ entries.map (fun p => p.1) :=
                List.elem_iff.mp (List.mem_filter.mp (head?_mem hr)).2
              obtain ⟨rrid, st3, hb3, hinv3, hnext3, hmono3, hvmono3⟩ :=
                ih rn (some (st.nextId + 1)) st1 hrn hu1 hpush
                  (fun p hp => ⟨_, hnew1, Option.some.inj hp⟩)
              refine ⟨st.nextId + 1, st3, ?_, hinv3,
                le_trans (Nat.le_succ _) hnext3,
                fun x hx => hmono3 x (List.mem_append_left _ hx),
                fun v hv => hvmono3 v (List.mem_cons_of_mem _ hv)⟩
              rw [build_mark_tree_list, if_neg hvisneg]
              simp only [hm, Option.getD_some, hl, hr, hb3]
          · have hln : ln ∈ entries.map (fun p => p.1) :=
              List.elem_iff.mp (List.mem_filter.mp (head?_mem hl)).2
            obtain ⟨lrid, st2, hb2, hinv2, hnext2, hmono2, hvmono2⟩ :=
              ih ln (some (st.nextId + 1)) st1 hln hu1 hpush
                (fun p hp => ⟨_, hnew1, Option.some.inj hp⟩)
            rcases hr : probe_child (entries.map (fun p => p.1)) cm name ".1" with _ | rn
            · refine ⟨st.nextId + 1, st2, ?_, hinv2,
                le_trans (Nat.le_succ _) hnext2,
                fun x hx => hmono2 x (List.mem_append_left _ hx),
                fun v hv => hvmono2 v (List.mem_cons_of_mem _ hv)⟩
              rw [build_mark_tree_list, if_neg hvisneg]
              simp only [hm, Option.getD_some, hl, hb2, Option.map_some', hr]
            · have hrn : rn ∈ entries.map (fun p => p.1) :=
                List.elem_iff.mp (List.mem_filter.mp (head?_mem hr)).2
              have hu2 : unvisN (entries.map (fun p => p.1)) st2.visited < n := by
                have hanti := unvisN_anti (entries.map (fun p => p.1)) hvmono2
                omega
              obtain ⟨rrid, st3, hb3, hinv3, hnext3, hmono3, hvmono3⟩ :=
                ih rn (some (st.nextId + 1)) st2 hrn hu2 hinv2
                  (fun p hp => ⟨_, hmono2 _ hnew1, Option.some.inj hp⟩)
              refine ⟨st.nextId + 1, st3, ?_, hinv3,
                le_trans (Nat.le_succ _) (le_trans hnext2 hnext3),
                fun x hx => hmono3 x (hmono2 x (List.mem_append_left _ hx)),
                fun v hv => hvmono3 v (hvmono2 v (List.mem_cons_of_mem _ hv))⟩
              rw [build_mark_tree_list, if_neg hvisneg]
              simp only [hm, Option.getD_some, hl, hb2, Option.map_some', hr, hb3]


/-- C6: for every non-empty name-keyed input — including naming conventions
that form cycles — the keyed strategy terminates (with fuel
`entries.length + 2`), emits each node id at most once, gives every node at
most one incoming link (link targets are pairwise distinct), and expands at
most one node per distinct key. -/
theorem c6_keyed_single_visit (entries : List (String × KEntry)) (markers : List String)
    (h : entries ≠ []) :
    ∃ out, keyed_strategy (RawTree.keyed entries) markers = some out ∧
      (out.1.map (fun n => n.id)).Nodup ∧
      (out.2.map (fun l => l.target)).Nodup ∧
      out.1.length ≤ (entries.map (fun p => p.1)).dedup.length := by
  cases entries with
  | nil => exact absurd rfl h
  | cons e es =>
      have hroot : (if ((e :: es).map (fun p => p.1)).contains "root" then "root"
          else ((e :: es).map (fun p => p.1)).headD "") ∈ (e :: es).map (fun p => p.1) := by
        by_cases hc : ((e :: es).map (fun p => p.1)).contains "root" = true
        · rw [if_pos hc]; exact List.elem_iff.mp hc
        · rw [if_neg hc]; exact List.mem_cons_self _ _
      have hinv0 : KInv ((e :: es).map (fun p => p.1)) ⟨0, [], [], [], []⟩ :=
        ⟨List.nodup_nil, List.nodup_nil,
         fun n hn => absurd hn (List.not_mem_nil n),
         fun l hl => absurd hl (List.not_mem_nil l),
         fun l hl => absurd hl (List.not_mem_nil l),
         fun nm hnm => absurd hnm (List.not_mem_nil nm),
         List.nodup_nil,
         fun v hv => absurd hv (List.not_mem_nil v)⟩
      have hfuel : unvisN ((e :: es).map (fun p => p.1)) [] <
          (e :: es).length + 2 := by
        have h1 : unvisN ((e :: es).map (fun p => p.1)) [] ≤
            ((e :: es).map (fun p => p.1)).dedup.length := by
          unfold unvisN
          exact (List.filter_sublist _).length_le
        have h2 : ((e :: es).map (fun p => p.1)).dedup.length ≤
            ((e :: es).map (fun p => p.1)).length :=
          ((e :: es).map (fun p => p.1)).dedup_sublist.length_le
        have h3 : ((e :: es).map (fun p => p.1)).length = (e :: es).length :=
          List.length_map _ _
        omega
      obtain ⟨rid, st', hb, hinv', _, _, _⟩ :=
        build_mark_tree_list_total (e :: es) markers ((e :: es).length + 2)
          (if ((e :: es).map (fun p => p.1)).contains "root" then "root"
           else ((e :: es).map (fun p => p.1)).headD "") none ⟨0, [], [], [], []⟩
          hroot hfuel hinv0 (fun p hp => nomatch hp)
      refine ⟨(st'.nodes, st'.links), ?_, hinv'.ids_nodup, hinv'.targets_nodup, ?_⟩
      · simp only [keyed_strategy]
        rw [if_neg (by exact fun hcon => nomatch hcon : ¬ ((e :: es).isEmpty = true))]
        rw [hb]
      · have hsub : ∀ nm ∈ st'.nodes.map (fun n => n.name), nm ∈ (e :: es).map (fun p => p.1) :=
          fun nm hnm => hinv'.vis_keys _ (hinv'.names_vis _ hnm)
        calc st'.nodes.length
            = (st'.nodes.map (fun n => n.name)).length := (List.length_map _ _).symm
          _ = (st'.nodes.map (fun n => n.name)).toFinset.card :=
              (List.toFinset_card_of_nodup hinv'.names_nodup).symm
          _ ≤ ((e :: es).map (fun p => p.1)).toFinset.card := by
              refine Finset.card_le_card ?_
              intro x hx
              rw [List.mem_toFinset] at hx ⊢
              exact hsub x hx
          _ = ((e :: es).map (fun p => p.1)).dedup.length :=
              List.card_toFinset _

/-- Witness for `c6_keyed_single_visit` on a cyclic naming convention: the
entry `"root.0"` carries marker `"root"`, so its own left-child probe
resolves to `"root.0"` itself; the traversal still terminates with two nodes
and one link. -/
theorem c6_keyed_single_visit_witness :
    ∃ out, keyed_strategy
        (RawTree.keyed [("root", [("marker", KVal.str "A")]),
                        ("root.0", [("marker", KVal.str "root")])]) ["CD3"] = some out ∧
      (out.1.map (fun n => n.id)).Nodup ∧
      (out.2.map (fun l => l.target)).Nodup ∧
      out.1.length ≤ (([("root", [("marker", KVal.str "A")]),
                        ("root.0", [("marker", KVal.str "root")])].map
                          (fun p => p.1)).dedup).length :=
  c6_keyed_single_visit _ ["CD3"] (by decide)

lemma TClosed_nil : TClosed [] [] := fun l hl => absurd hl (List.not_mem_nil l)

lemma TClosed_mono {nodes nodes' : List CanonicalNode} {links : List CanonicalLink}
    (h : TClosed nodes links) (hsub : ∀ n ∈ nodes, n ∈ nodes') :
    TClosed nodes' links := by
  intro l hl
  obtain ⟨⟨ns, hns, h1⟩, ⟨nt, hnt, h2⟩⟩ := h l hl
  exact ⟨⟨ns, hsub ns hns, h1⟩, ⟨nt, hsub nt hnt, h2⟩⟩

/-- The matrix builder preserves dangling-freeness, only appends nodes, and
returns the id of an emitted node. -/
lemma build_node_with_ids_closed (rows : List MatRow) (lc : List Int) (mk : List String) :
    ∀ fuel idx st rid st',
      build_node_with_ids rows lc mk fuel idx st = some (rid, st') →
      TClosed st.nodes st.links →
      TClosed st'.nodes st'.links ∧ (∃ n ∈ st'.nodes, n.id = rid) ∧
        (∀ n ∈ st.nodes, n ∈ st'.nodes) := by
  intro fuel
  induction fuel with
  | zero => intro idx st rid st' h; exact absurd h (by rw [build_node_with_ids]; exact fun hc => nomatch hc)
  | succ n ih =>
      intro idx st rid st' h hcl
      rw [build_node_with_ids] at h
      rcases hf : rows.find? (fun r => r.nodeId == idx) with _ | r
      · simp only [hf] at h
        simp only [Option.some.injEq, Prod.mk.injEq] at h
        obtain ⟨hrid, hst⟩ := h
        subst hst
        refine ⟨?_, ?_, fun x hx => List.mem_append_left _ hx⟩
        · exact TClosed_mono hcl (fun x hx => List.mem_append_left _ hx)
        · exact ⟨_, List.mem_append_right _ (List.mem_singleton_self _), hrid⟩
      · simp only [hf] at h
        rcases hbl : build_node_with_ids rows lc mk n r.leftId
            ⟨st.nextId + 1,
             st.nodes ++
               [⟨st.nextId + 1, "Node_" ++ toString idx,
                 (if r.markerIdx ≤ (mk.length : Int) then rIndexStr mk r.markerIdx
                  else some ("Marker_" ++ toString r.markerIdx)), none,
                 some (round2 r.threshold)⟩],
             st.links⟩ with _ | p2
        · simp only [hbl] at h; exact absurd h (fun hc => nomatch hc)
        · simp only [hbl] at h
          obtain ⟨lid, st2⟩ := p2
          rcases hbr : build_node_with_ids rows lc mk n r.rightId st2 with _ | p3
          · simp only [hbr] at h; exact absurd h (fun hc => nomatch hc)
          · simp only [hbr] at h
            obtain ⟨rid2, st3⟩ := p3
            simp only [Option.some.injEq, Prod.mk.injEq] at h
            obtain ⟨hrid, hst⟩ := h
            subst hst
            have hcl1 : TClosed (st.nodes ++
                [⟨st.nextId + 1, "Node_" ++ toString idx,
                  (if r.markerIdx ≤ (mk.length : Int) then rIndexStr mk r.markerIdx
                   else some ("Marker_" ++ toString r.markerIdx)), none,
                  some (round2 r.threshold)⟩]) st.links :=
              TClosed_mono hcl (fun x hx => List.mem_append_left _ hx)
            obtain ⟨hcl2, ⟨nl, hnl, hnlid⟩, hmono2⟩ := ih r.leftId _ lid st2 hbl hcl1
            obtain ⟨hcl3, ⟨nr, hnr, hnrid⟩, hmono3⟩ := ih r.rightId st2 rid2 st3 hbr hcl2
            have hroot : (⟨st.nextId + 1, "Node_" ++ toString idx,
                (if r.markerIdx ≤ (mk.length : Int) then rIndexStr mk r.markerIdx
                 else some ("Marker_" ++ toString r.markerIdx)), none,
                some (round2 r.threshold)⟩ : CanonicalNode) ∈ st3.nodes :=
              hmono3 _ (hmono2 _ (List.mem_append_right _ (List.mem_singleton_self _)))
            refine ⟨?_, ⟨_, hroot, hrid⟩,
              fun x hx => hmono3 x (hmono2 x (List.mem_append_left _ hx))⟩
            intro l hl
            rcases List.mem_append.mp hl with h1 | h2
            · exact hcl3 l h1
            · rcases List.mem_cons.mp h2 with h3 | h4
              · subst h3
                exact ⟨⟨_, hroot, rfl⟩, ⟨nl, hmono3 _ hnl, hnlid⟩⟩
              · rw [List.mem_singleton] at h4
                subst h4
                exact ⟨⟨_, hroot, rfl⟩, ⟨nr, hnr, hnrid⟩⟩


/-- `create_node` appends one node, leaves links unchanged, and returns the
new node's id. -/
lemma create_node_basic (lc : List Int) (st : TState) (label : String) :
    (create_node lc st label).1.links = st.links ∧
    (∀ n ∈ st.nodes, n ∈ (create_node lc st label).1.nodes) ∧
    (∃ n ∈ (create_node lc st label).1.nodes, n.id = (create_node lc st label).2.1) := by
  unfold create_node
  by_cases hl : is_leaf_label label = true
  · rw [if_pos hl]
    exact ⟨rfl, fun n hn => List.mem_append_left _ hn,
      ⟨_, List.mem_append_right _ (List.mem_singleton_self _), rfl⟩⟩
  · rw [if_neg hl]
    exact ⟨rfl, fun n hn => List.mem_append_left _ hn,
      ⟨_, List.mem_append_right _ (List.mem_singleton_self _), rfl⟩⟩

/-- Equation form of `create_node_basic`. -/
lemma create_node_spec (lc : List Int) (st : TState) (label : String)
    {stA : TState} {idA : Nat} {intA : Bool}
    (h : create_node lc st label = (stA, idA, intA)) :
    stA.links = st.links ∧ (∀ n ∈ st.nodes, n ∈ stA.nodes) ∧
      (∃ n ∈ stA.nodes, n.id = idA) := by
  obtain ⟨h1, h2, h3⟩ := create_node_basic lc st label
  rw [h] at h1 h2 h3
  exact ⟨h1, h2, h3⟩

/-- First-level processing preserves dangling-freeness and collects ids of
emitted nodes. -/
lemma first_level_nodes_closed (lc : List Int) :
    ∀ labels st st' ids,
      first_level_nodes lc st labels = (st', ids) →
      TClosed st.nodes st.links →
      TClosed st'.nodes st'.links ∧ (∀ i ∈ ids, ∃ n ∈ st'.nodes, n.id = i) ∧
        (∀ n ∈ st.nodes, n ∈ st'.nodes) := by
  intro labels
  induction labels with
  | nil =>
      intro st st' ids h hcl
      simp only [first_level_nodes, Prod.mk.injEq] at h
      obtain ⟨h1, h2⟩ := h
      subst h1; subst h2
      exact ⟨hcl, fun i hi => absurd hi (List.not_mem_nil i), fun n hn => hn⟩
  | cons label rest ih =>
      intro st st' ids h hcl
      rw [first_level_nodes] at h
      rcases hc1 : create_node lc st label with ⟨stA, idA, intA⟩
      simp only [hc1] at h
      rcases hrec : first_level_nodes lc stA rest with ⟨st2, ids2⟩
      simp only [hrec, Prod.mk.injEq] at h
      obtain ⟨h1, h2⟩ := h
      subst h1
      obtain ⟨hlinks, hmono, hid⟩ := create_node_spec lc st label hc1
      have hclA : TClosed stA.nodes stA.links := by
        rw [hlinks]; exact TClosed_mono hcl hmono
      obtain ⟨hcl2, hids2, hmono2⟩ := ih stA st2 ids2 hrec hclA
      refine ⟨hcl2, ?_, fun n hn => hmono2 n (hmono n hn)⟩
      intro i hi
      rw [← h2] at hi
      cases intA with
      | true =>
          rw [if_pos rfl] at hi
          rcases List.mem_cons.mp hi with h3 | h4
          · subst h3
            obtain ⟨n, hn, hni⟩ := hid
            exact ⟨n, hmono2 n hn, hni⟩
          · exact hids2 i h4
      | false =>
          rw [if_neg (fun hc => nomatch hc)] at hi
          exact hids2 i hi

/-- One consumption level preserves dangling-freeness; the collected next
internal ids are ids of emitted nodes. -/
lemma consume_level_closed (lc : List Int) :
    ∀ parents labels st st' ids,
      consume_level lc st parents labels = (st', ids) →
      TClosed st.nodes st.links →
      (∀ p ∈ parents, ∃ n ∈ st.nodes, n.id = p) →
      TClosed st'.nodes st'.links ∧ (∀ i ∈ ids, ∃ n ∈ st'.nodes, n.id = i) ∧
        (∀ n ∈ st.nodes, n ∈ st'.nodes) := by
  intro parents
  induction parents with
  | nil =>
      intro labels st st' ids h hcl hpar
      rw [consume_level] at h
      simp only [Prod.mk.injEq] at h
      obtain ⟨h1, h2⟩ := h
      subst h1; subst h2
      exact ⟨hcl, fun i hi => absurd hi (List.not_mem_nil i), fun n hn => hn⟩
  | cons parent ps ih =>
      intro labels st st' ids h hcl hpar
      cases labels with
      | nil =>
          rw [consume_level] at h
          simp only [Prod.mk.injEq] at h
          obtain ⟨h1, h2⟩ := h
          subst h1; subst h2
          exact ⟨hcl, fun i hi => absurd hi (List.not_mem_nil i), fun n hn => hn⟩
      | cons label rest =>
          rw [consume_level] at h
          rcases hc1 : create_node lc st label with ⟨stA, idA, intA⟩
          simp only [hc1] at h
          obtain ⟨hlinksA, hmonoA, hidA⟩ := create_node_spec lc st label hc1
          have hclA : TClosed stA.nodes
              (stA.links ++ [{ source := parent, target := idA }]) := by
            intro l hl
            rcases List.mem_append.mp hl with h1 | h2
            · rw [hlinksA] at h1
              exact TClosed_mono hcl hmonoA l h1
            · rw [List.mem_singleton] at h2
              subst h2
              obtain ⟨pn, hpn, hpnid⟩ := hpar parent (List.mem_cons_self _ _)
              obtain ⟨n1, hn1, hn1id⟩ := hidA
              exact ⟨⟨pn, hmonoA pn hpn, hpnid⟩, ⟨n1, hn1, hn1id⟩⟩
          cases rest with
          | nil =>
              simp only [Prod.mk.injEq] at h
              obtain ⟨h1, h2⟩ := h
              subst h1
              refine ⟨hclA, ?_, fun n hn => hmonoA n hn⟩
              intro i hi
              rw [← h2] at hi
              cases intA with
              | true =>
                  rw [if_pos rfl, List.mem_singleton] at hi
                  subst hi
                  exact hidA
              | false =>
                  rw [if_neg (fun hc => nomatch hc)] at hi
                  exact absurd hi (List.not_mem_nil i)
          | cons label2 rest2 =>
              rcases hc2 : create_node lc
                  { stA with links := stA.links ++ [{ source := parent, target := idA }] }
                  label2 with ⟨stB, idB, intB⟩
              simp only [hc2] at h
              obtain ⟨hlinksB, hmonoB, hidB⟩ := create_node_spec lc _ label2 hc2
              have hclB : TClosed stB.nodes
                  (stB.links ++ [{ source := parent, target := idB }]) := by
                intro l hl
                rcases List.mem_append.mp hl with h1 | h2
                · rw [hlinksB] at h1
                  exact TClosed_mono hclA (fun n hn => hmonoB n hn) l h1
                · rw [List.mem_singleton] at h2
                  subst h2
                  obtain ⟨pn, hpn, hpnid⟩ := hpar parent (List.mem_cons_self _ _)
                  obtain ⟨n2, hn2, hn2id⟩ := hidB
                  exact ⟨⟨pn, hmonoB pn (hmonoA pn hpn), hpnid⟩, ⟨n2, hn2, hn2id⟩⟩
              rcases hc3 : consume_level lc
                  { stB with links := stB.links ++ [{ source := parent, target := idB }] }
                  ps rest2 with ⟨stC, idsC⟩
              simp only [hc3, Prod.mk.injEq] at h
              obtain ⟨h1, h2⟩ := h
              subst h1
              obtain ⟨hclC, hidsC, hmonoC⟩ := ih rest2
                  { stB with links := stB.links ++ [{ source := parent, target := idB }] }
                  stC idsC hc3 hclB
                  (fun p hp => by
                    obtain ⟨n, hn, hni⟩ := hpar p (List.mem_cons_of_mem _ hp)
                    exact ⟨n, hmonoB n (hmonoA n hn), hni⟩)
              refine ⟨hclC, ?_, fun n hn => hmonoC n (hmonoB n (hmonoA n hn))⟩
              intro i hi
              rw [← h2] at hi
              rcases List.mem_append.mp hi with h3 | h4
              · rcases List.mem_append.mp h3 with h5 | h6
                · cases intA with
                  | true =>
                      rw [if_pos rfl, List.mem_singleton] at h5
                      subst h5
                      obtain ⟨n, hn, hni⟩ := hidA
                      exact ⟨n, hmonoC n (hmonoB n hn), hni⟩
                  | false =>
                      rw [if_neg (fun hc => nomatch hc)] at h5
                      exact absurd h5 (List.not_mem_nil i)
                · cases intB with
                  | true =>
                      rw [if_pos rfl, List.mem_singleton] at h6
                      subst h6
                      obtain ⟨n, hn, hni⟩ := hidB
                      exact ⟨n, hmonoC n hn, hni⟩
                  | false =>
                      rw [if_neg (fun hc => nomatch hc)] at h6
                      exact absurd h6 (List.not_mem_nil i)
              · exact hidsC i h4


/-- The level loop preserves dangling-freeness. -/
lemma levels_loop_closed (lc : List Int) :
    ∀ levels parents st,
      TClosed st.nodes st.links →
      (∀ p ∈ parents, ∃ n ∈ st.nodes, n.id = p) →
      TClosed (levels_loop lc st parents levels).nodes
        (levels_loop lc st parents levels).links ∧
      (∀ n ∈ st.nodes, n ∈ (levels_loop lc st parents levels).nodes) := by
  intro levels
  induction levels with
  | nil => intro parents st hcl _; exact ⟨hcl, fun n hn => hn⟩
  | cons labels rest ih =>
      intro parents st hcl hpar
      rw [levels_loop]
      by_cases hemp : labels.isEmpty = true
      · rw [if_pos hemp]
        exact ⟨hcl, fun n hn => hn⟩
      · rw [if_neg hemp]
        rcases hc : consume_level lc st parents labels with ⟨st1, ids1⟩
        obtain ⟨hcl1, hids1, hmono1⟩ := consume_level_closed lc parents labels st st1 ids1 hc hcl hpar
        simp only []
        by_cases hemp2 : ids1.isEmpty = true
        · rw [if_pos hemp2]
          exact ⟨hcl1, fun n hn => hmono1 n hn⟩
        · rw [if_neg hemp2]
          obtain ⟨hcl2, hmono2⟩ := ih ids1 st1 hcl1 hids1
          exact ⟨hcl2, fun n hn => hmono2 n (hmono1 n hn)⟩

/-- The level-list strategy never returns dangling links. -/
lemma build_tree_from_mark_tree_levels_closed (levels : List (List String))
    (lc : List Int) (out : List CanonicalNode × List CanonicalLink)
    (h : build_tree_from_mark_tree_levels levels lc = some out) :
    TClosed out.1 out.2 := by
  cases levels with
  | nil =>
      simp only [build_tree_from_mark_tree_levels, Option.some.injEq] at h
      subst h
      exact TClosed_nil
  | cons l1 rest =>
      rw [build_tree_from_mark_tree_levels] at h
      rcases hf : first_level_nodes lc ⟨0, [], []⟩ l1 with ⟨st1, internals⟩
      simp only [hf] at h
      obtain ⟨hcl1, hids1, _⟩ :=
        first_level_nodes_closed lc l1 ⟨0, [], []⟩ st1 internals hf TClosed_nil
      by_cases hemp : internals.isEmpty = true
      · rw [if_pos hemp] at h
        obtain h1 := Option.some.inj h
        subst h1
        exact hcl1
      · rw [if_neg hemp] at h
        cases rest with
        | nil => exact absurd h (fun hc => nomatch hc)
        | cons l2 rest2 =>
            obtain ⟨hcl2, _⟩ :=
              levels_loop_closed lc (l2 :: rest2) internals st1 hcl1 hids1
            obtain h1 := Option.some.inj h
            subst h1
            exact hcl2

/-- The matrix strategy never returns dangling links. -/
lemma matrix_strategy_closed (rt : RawTree) (lc : List Int) (mk : List String)
    (fuel : Nat) (out : List CanonicalNode × List CanonicalLink)
    (h : matrix_strategy rt lc mk fuel = some out) : TClosed out.1 out.2 := by
  rcases rt with _ | rows | entries | lv
  · obtain h1 := Option.some.inj h; subst h1; exact TClosed_nil
  · rw [matrix_strategy] at h
    by_cases hemp : rows.isEmpty = true
    · rw [if_pos hemp] at h
      obtain h1 := Option.some.inj h; subst h1; exact TClosed_nil
    · rw [if_neg hemp] at h
      rcases hb : build_node_with_ids rows lc mk fuel 1 ⟨0, [], []⟩ with _ | p
      · rw [hb] at h; exact absurd h (fun hc => nomatch hc)
      · rw [hb] at h
        obtain ⟨rid, st'⟩ := p
        obtain ⟨hcl, _, _⟩ :=
          build_node_with_ids_closed rows lc mk fuel 1 ⟨0, [], []⟩ rid st' hb TClosed_nil
        obtain h1 := Option.some.inj h; subst h1
        exact hcl
  · obtain h1 := Option.some.inj h; subst h1; exact TClosed_nil
  · obtain h1 := Option.some.inj h; subst h1; exact TClosed_nil

/-- The keyed strategy never returns dangling links. -/
lemma keyed_strategy_closed (rt : RawTree) (mk : List String)
    (out : List CanonicalNode × List CanonicalLink)
    (h : keyed_strategy rt mk = some out) : TClosed out.1 out.2 := by
  rcases rt with _ | rows | entries | lv
  · obtain h1 := Option.some.inj h; subst h1; exact TClosed_nil
  · obtain h1 := Option.some.inj h; subst h1; exact TClosed_nil
  · cases entries with
    | nil =>
        have hval : keyed_strategy (RawTree.keyed []) mk = some ([], []) := rfl
        rw [hval] at h
        obtain h1 := Option.some.inj h; subst h1; exact TClosed_nil
    | cons e es =>
        have hroot : (if ((e :: es).map (fun p => p.1)).contains "root" then "root"
            else ((e :: es).map (fun p => p.1)).headD "") ∈ (e :: es).map (fun p => p.1) := by
          by_cases hc : ((e :: es).map (fun p => p.1)).contains "root" = true
          · rw [if_pos hc]; exact List.elem_iff.mp hc
          · rw [if_neg hc]; exact List.mem_cons_self _ _
        have hinv0 : KInv ((e :: es).map (fun p => p.1)) ⟨0, [], [], [], []⟩ :=
          ⟨List.nodup_nil, List.nodup_nil,
           fun n hn => absurd hn (List.not_mem_nil n),
           fun l hl => absurd hl (List.not_mem_nil l),
           fun l hl => absurd hl (List.not_mem_nil l),
           fun nm hnm => absurd hnm (List.not_mem_nil nm),
           List.nodup_nil,
           fun v hv => absurd hv (List.not_mem_nil v)⟩
        have hfuel : unvisN ((e :: es).map (fun p => p.1)) [] < (e :: es).length + 2 := by
          have h1 : unvisN ((e :: es).map (fun p => p.1)) [] ≤
              ((e :: es).map (fun p => p.1)).dedup.length := by
            unfold unvisN
            exact (List.filter_sublist _).length_le
          have h2 : ((e :: es).map (fun p => p.1)).dedup.length ≤
              ((e :: es).map (fun p => p.1)).length :=
            ((e :: es).map (fun p => p.1)).dedup_sublist.length_le
          have h3 : ((e :: es).map (fun p => p.1)).length = (e :: es).length :=
            List.length_map _ _
          omega
        obtain ⟨rid, st', hb, hinv', _, _, _⟩ :=
          build_mark_tree_list_total (e :: es) mk ((e :: es).length + 2)
            (if ((e :: es).map (fun p => p.1)).contains "root" then "root"
             else ((e :: es).map (fun p => p.1)).headD "") none ⟨0, [], [], [], []⟩
            hroot hfuel hinv0 (fun p hp => nomatch hp)
        have hks2 : keyed_strategy (RawTree.keyed (e :: es)) mk =
            some (st'.nodes, st'.links) := by
          simp only [keyed_strategy]
          rw [if_neg (fun hcon => nomatch hcon : ¬ ((e :: es).isEmpty = true))]
          rw [hb]
        have hout := (h.symm.trans hks2)
        obtain h1 := Option.some.inj hout
        rw [h1]
        exact hinv'.closed
  · obtain h1 := Option.some.inj h; subst h1; exact TClosed_nil

/-- The level-list strategy wrapper never returns dangling links. -/
lemma level_strategy_closed (rt : RawTree) (lc : List Int)
    (out : List CanonicalNode × List CanonicalLink)
    (h : level_strategy rt lc = some out) : TClosed out.1 out.2 := by
  rcases rt with _ | rows | entries | lv
  · obtain h1 := Option.some.inj h; subst h1; exact TClosed_nil
  · obtain h1 := Option.some.inj h; subst h1; exact TClosed_nil
  · exact build_tree_from_mark_tree_levels_closed _ lc out h
  · exact build_tree_from_mark_tree_levels_closed _ lc out h

/-- C8: for every input accepted by any of the three reconstruction
strategies, every id occurring as the source or target of a returned link is
the id of some node in the returned node list — the normalizer's output
never contains a dangling link. -/
theorem c8_no_dangling_links (rt : RawTree) (lc : List Int) (mk : List String)
    (fuel : Nat) (out : List CanonicalNode × List CanonicalLink)
    (h : normalize rt lc mk fuel = some out) :
    ∀ l ∈ out.2, (∃ n ∈ out.1, n.id = l.source) ∧ (∃ n ∈ out.1, n.id = l.target) := by
  rw [normalize] at h
  rcases hms : matrix_strategy rt lc mk fuel with _ | m
  · rw [hms] at h; exact absurd h (fun hc => nomatch hc)
  · simp only [hms] at h
    have hmcl : TClosed m.1 m.2 := matrix_strategy_closed rt lc mk fuel m hms
    rcases hks : (if m.1.isEmpty then keyed_strategy rt mk else some m) with _ | k
    · simp only [hks] at h
      exact absurd h (fun hc => nomatch hc)
    · simp only [hks] at h
      have hkcl : TClosed k.1 k.2 := by
        by_cases hemp : m.1.isEmpty = true
        · rw [if_pos hemp] at hks
          exact keyed_strategy_closed rt mk k hks
        · rw [if_neg hemp] at hks
          obtain h1 := Option.some.inj hks; subst h1
          exact hmcl
      rcases hls : (if k.1.length ≤ 1 then level_strategy rt lc
          else some ([], [])) with _ | l0
      · simp only [hls] at h
        exact absurd h (fun hc => nomatch hc)
      · simp only [hls] at h
        have hlcl : TClosed l0.1 l0.2 := by
          by_cases hle : k.1.length ≤ 1
          · rw [if_pos hle] at hls
            exact level_strategy_closed rt lc l0 hls
          · rw [if_neg hle] at hls
            obtain h1 := Option.some.inj hls; subst h1
            exact TClosed_nil
        obtain h1 := Option.some.inj h
        subst h1
        by_cases hcmp : k.1.length < l0.1.length
        · rw [if_pos hcmp]
          exact hlcl
        · rw [if_neg hcmp]
          exact hkcl

/-- Witness for `c8_no_dangling_links` at the Scenario A matrix input and its
root-to-left-leaf link. -/
theorem c8_no_dangling_links_witness :
    (∃ n ∈ [(⟨1, "Node_1", some "CD3", none, some (mkRat 1 2)⟩ : CanonicalNode),
            ⟨2, "Pop_2", some "Pop_2", some 5, none⟩,
            ⟨3, "Pop_3", some "Pop_3", some 7, none⟩],
      n.id = (⟨1, 2⟩ : CanonicalLink).source) ∧
    (∃ n ∈ [(⟨1, "Node_1", some "CD3", none, some (mkRat 1 2)⟩ : CanonicalNode),
            ⟨2, "Pop_2", some "Pop_2", some 5, none⟩,
            ⟨3, "Pop_3", some "Pop_3", some 7, none⟩],
      n.id = (⟨1, 2⟩ : CanonicalLink).target) :=
  c8_no_dangling_links (RawTree.mat [⟨1, 1, mkRat 1 2, 2, 3⟩]) [1, 5, 7] ["CD3"] 9
    ([⟨1, "Node_1", some "CD3", none, some (mkRat 1 2)⟩,
      ⟨2, "Pop_2", some "Pop_2", some 5, none⟩,
      ⟨3, "Pop_3", some "Pop_3", some 7, none⟩],
     [⟨1, 2⟩, ⟨1, 3⟩]) (by decide) ⟨1, 2⟩ (by decide)

lemma chain_ne_nil {rows : List MatRow} {i : Int} {l : List Int}
    (h : Chain rows i l) : l ≠ [] := by
  cases h with
  | single => exact fun hc => nomatch hc
  | cons _ _ => exact fun hc => nomatch hc

lemma chain_head {rows : List MatRow} {i : Int} {l : List Int}
    (h : Chain rows i l) : l.head? = some i := by
  cases h with
  | single => rfl
  | cons _ _ => rfl

/-- If some reference chain is longer than the fuel, the matrix builder runs
out of fuel (the depth-first recursion follows every chain). -/
lemma build_none_of_long_chain (rows : List MatRow) (lc : List Int) (mk : List String) :
    ∀ fuel idx l st, Chain rows idx l → fuel < l.length →
      build_node_with_ids rows lc mk fuel idx st = none := by
  intro fuel
  induction fuel with
  | zero => intro idx l st _ _; rw [build_node_with_ids]
  | succ n ih =>
      intro idx l st hch hlen
      cases hch with
      | single => simp at hlen
      | @cons _ j l' hstep hch' =>
          obtain ⟨r, hfind, hj⟩ := hstep
          have hlen' : n < l'.length := by
            simp only [List.length_cons] at hlen
            omega
          rw [build_node_with_ids]
          simp only [hfind]
          rcases hj with hjl | hjr
          · subst hjl
            rw [ih r.leftId l'
              { nextId := st.nextId + 1,
                nodes := st.nodes ++
                  [{ id := st.nextId + 1, name := "Node_" ++ toString idx,
                     marker := if r.markerIdx ≤ (mk.length : Int) then rIndexStr mk r.markerIdx
                       else some ("Marker_" ++ toString r.markerIdx),
                     cells := none, threshold := some (round2 r.threshold) }],
                links := st.links } hch' hlen']
          · subst hjr
            rcases hbl : build_node_with_ids rows lc mk n r.leftId
                ⟨st.nextId + 1,
                 st.nodes ++
                   [⟨st.nextId + 1, "Node_" ++ toString idx,
                     (if r.markerIdx ≤ (mk.length : Int) then rIndexStr mk r.markerIdx
                      else some ("Marker_" ++ toString r.markerIdx)), none,
                     some (round2 r.threshold)⟩],
                 st.links⟩ with _ | p
            · simp only [hbl]
            · obtain ⟨lid, st2⟩ := p
              simp only [hbl]
              rw [ih r.rightId l' ((lid, st2) : Nat × TState).2 hch' hlen']


/-- If every chain from `idx` fits within the fuel, the builder returns. -/
lemma build_some_of_short_chains (rows : List MatRow) (lc : List Int) (mk : List String) :
    ∀ fuel idx st, (∀ l, Chain rows idx l → l.length ≤ fuel) →
      (build_node_with_ids rows lc mk fuel idx st).isSome = true := by
  intro fuel
  induction fuel with
  | zero =>
      intro idx st h
      have := h [idx] (Chain.single idx)
      simp at this
  | succ n ih =>
      intro idx st h
      rw [build_node_with_ids]
      rcases hf : rows.find? (fun r => r.nodeId == idx) with _ | r
      · simp only [hf, Option.isSome_some]
      · simp only [hf]
        have hleft : ∀ l, Chain rows r.leftId l → l.length ≤ n := by
          intro l hl
          have := h (idx :: l) (Chain.cons ⟨r, hf, Or.inl rfl⟩ hl)
          simp only [List.length_cons] at this
          omega
        have hright : ∀ l, Chain rows r.rightId l → l.length ≤ n := by
          intro l hl
          have := h (idx :: l) (Chain.cons ⟨r, hf, Or.inr rfl⟩ hl)
          simp only [List.length_cons] at this
          omega
        rcases hbl : build_node_with_ids rows lc mk n r.leftId
            { nextId := st.nextId + 1,
              nodes := st.nodes ++
                [{ id := st.nextId + 1, name := "Node_" ++ toString idx,
                   marker := if r.markerIdx ≤ (mk.length : Int) then rIndexStr mk r.markerIdx
                     else some ("Marker_" ++ toString r.markerIdx),
                   cells := none, threshold := some (round2 r.threshold) }],
              links := st.links } with _ | p
        · have := ih r.leftId
            { nextId := st.nextId + 1,
              nodes := st.nodes ++
                [{ id := st.nextId + 1, name := "Node_" ++ toString idx,
                   marker := if r.markerIdx ≤ (mk.length : Int) then rIndexStr mk r.markerIdx
                     else some ("Marker_" ++ toString r.markerIdx),
                   cells := none, threshold := some (round2 r.threshold) }],
              links := st.links } hleft
          rw [hbl] at this
          exact absurd this (by simp)
        · obtain ⟨lid, st2⟩ := p
          simp only [hbl]
          rcases hbr : build_node_with_ids rows lc mk n r.rightId st2 with _ | p3
          · have := ih r.rightId st2 hright
            rw [hbr] at this
            exact absurd this (by simp)
          · obtain ⟨rid2, st3⟩ := p3
            simp only [hbr, Option.isSome_some]

/-- Every non-final element of a chain is a matched row id. -/
lemma chain_dropLast_matched {rows : List MatRow} :
    ∀ {i : Int} {l : List Int}, Chain rows i l →
      ∀ x ∈ l.dropLast, ∃ r ∈ rows, r.nodeId = x := by
  intro i l h
  induction h with
  | single j => intro x hx; simp at hx
  | @cons i j l' hstep hch ih =>
      intro x hx
      have hne : l' ≠ [] := chain_ne_nil hch
      have hdl : (i :: l').dropLast = i :: l'.dropLast := by
        cases l' with
        | nil => exact absurd rfl hne
        | cons b t => rfl
      rw [hdl] at hx
      rcases List.mem_cons.mp hx with h1 | h2
      · subst h1
        obtain ⟨r, hfind, _⟩ := hstep
        refine ⟨r, List.mem_of_find?_eq_some hfind, ?_⟩
        have := List.find?_some hfind
        exact beq_iff_eq.mp this
      · exact ih x h2

/-- Under the acyclicity precondition every chain from 1 is bounded by the
number of rows plus one. -/
lemma chain_length_le_of_acyclic {rows : List MatRow} (hac : AcyclicFrom rows) :
    ∀ l, Chain rows 1 l → l.length ≤ rows.length + 1 := by
  intro l hch
  have hnd : l.Nodup := hac l hch
  have hndd : l.dropLast.Nodup := hnd.sublist (List.dropLast_sublist l)
  have hsub : ∀ x ∈ l.dropLast, x ∈ rows.map (fun r => r.nodeId) := by
    intro x hx
    obtain ⟨r, hr, hid⟩ := chain_dropLast_matched hch x hx
    exact List.mem_map.mpr ⟨r, hr, hid⟩
  have h1 : l.dropLast.length ≤ rows.length := by
    calc l.dropLast.length
        = l.dropLast.toFinset.card := (List.toFinset_card_of_nodup hndd).symm
      _ ≤ (rows.map (fun r => r.nodeId)).toFinset.card := by
          refine Finset.card_le_card ?_
          intro x hx
          rw [List.mem_toFinset] at hx ⊢
          exact hsub x hx
      _ ≤ (rows.map (fun r => r.nodeId)).length := List.toFinset_card_le _
      _ = rows.length := List.length_map _ _
  have h2 : l.dropLast.length = l.length - 1 := List.length_dropLast l
  have h3 : l ≠ [] := chain_ne_nil hch
  have h4 : 1 ≤ l.length := List.length_pos.mpr h3
  omega


/-- A chain restarted at any of its elements is a chain (suffixes of chains
are chains). -/
lemma chain_suffix {rows : List MatRow} :
    ∀ {i : Int} {l : List Int}, Chain rows i l →
      ∀ (l₁ : List Int) (x : Int) (l₂ : List Int), l = l₁ ++ x :: l₂ →
      Chain rows x (x :: l₂) := by
  intro i l h
  induction h with
  | single j =>
      intro l₁ x l₂ heq
      cases l₁ with
      | nil =>
          rw [List.nil_append] at heq
          injection heq with h1 h2
          subst h1; rw [← h2]
          exact Chain.single j
      | cons b t =>
          rw [List.cons_append] at heq
          injection heq with h1 h2
          exact absurd h2.symm (List.append_ne_nil_of_right_ne_nil t (fun hc => nomatch hc))
  | @cons i j l' hstep hch ih =>
      intro l₁ x l₂ heq
      cases l₁ with
      | nil =>
          rw [List.nil_append] at heq
          injection heq with h1 h2
          subst h1
          rw [← h2]
          exact Chain.cons hstep hch
      | cons b t =>
          rw [List.cons_append] at heq
          injection heq with h1 h2
          exact ih t x l₂ h2

/-- Nonempty prefixes of chains are chains. -/
lemma chain_take {rows : List MatRow} :
    ∀ {i : Int} {l : List Int}, Chain rows i l → ∀ k, Chain rows i (l.take (k + 1)) := by
  intro i l h
  induction h with
  | single j => intro k; rw [List.take_succ_cons, List.take_nil]; exact Chain.single j
  | @cons i j l' hstep hch ih =>
      intro k
      cases k with
      | zero =>
          rw [List.take_succ_cons, List.take_zero]
          exact Chain.single i
      | succ k' =>
          rw [List.take_succ_cons]
          exact Chain.cons hstep (ih k')

/-- A chain ending at `x` extends by any chain starting at `x`. -/
lemma chain_glue {rows : List MatRow} :
    ∀ {i x : Int} {l₁ l₂ : List Int},
      Chain rows i l₁ → l₁.getLast? = some x → Chain rows x (x :: l₂) →
      Chain rows i (l₁ ++ l₂) := by
  intro i x l₁ l₂ h
  induction h with
  | single j =>
      intro hlast hx
      have : j = x := by
        simp only [List.getLast?_singleton, Option.some.injEq] at hlast
        exact hlast
      subst this
      exact hx
  | @cons i j l' hstep hch ih =>
      intro hlast hx
      have hne : l' ≠ [] := chain_ne_nil hch
      have hlast' : l'.getLast? = some x := by
        cases l' with
        | nil => exact absurd rfl hne
        | cons b t => rw [List.getLast?_cons_cons] at hlast; exact hlast
      exact Chain.cons hstep (ih hlast' hx)

lemma not_nodup_split {l : List Int} (h : ¬ l.Nodup) :
    ∃ l₁ x l₂ l₃, l = l₁ ++ x :: (l₂ ++ x :: l₃) := by
  induction l with
  | nil => exact absurd List.nodup_nil h
  | cons a t ih =>
      by_cases ha : a ∈ t
      · obtain ⟨s, u, hsu⟩ := List.mem_iff_append.mp ha
        exact ⟨[], a, s, u, by rw [hsu]; rfl⟩
      · have hnt : ¬ t.Nodup := by
          intro hnd
          exact h (List.nodup_cons.mpr ⟨ha, hnd⟩)
        obtain ⟨l₁, x, l₂, l₃, hl⟩ := ih hnt
        exact ⟨a :: l₁, x, l₂, l₃, by rw [hl]; rfl⟩

/-- A reachable cycle pumps into arbitrarily long chains. -/
lemma chain_pump {rows : List MatRow} {x : Int} {v w : List Int}
    (hD : Chain rows x (x :: (v ++ x :: w))) :
    ∀ k, ∃ m, Chain rows x m ∧ m.getLast? = some x ∧ k ≤ m.length := by
  have hcyc : Chain rows x (x :: (v ++ [x])) := by
    have h1 := chain_take hD (v.length + 1)
    have h2 : (x :: (v ++ x :: w)).take (v.length + 1 + 1) = x :: (v ++ [x]) := by
      rw [List.take_succ_cons]
      congr 1
      rw [List.take_append 1]
      rfl
    rw [h2] at h1
    exact h1
  have hlastcyc : (x :: (v ++ [x])).getLast? = some x := by
    rw [show x :: (v ++ [x]) = (x :: v) ++ [x] by rw [List.cons_append]]
    exact List.getLast?_concat _
  intro k
  induction k with
  | zero =>
      exact ⟨x :: (v ++ [x]), hcyc, hlastcyc, Nat.zero_le _⟩
  | succ k' ih =>
      obtain ⟨m, hm, hlast, hk⟩ := ih
      refine ⟨m ++ (v ++ [x]), chain_glue hm hlast hcyc, ?_, ?_⟩
      · rw [show m ++ (v ++ [x]) = (m ++ v) ++ [x] by rw [List.append_assoc]]
        exact List.getLast?_concat _
      · rw [List.length_append, List.length_append, List.length_singleton]
        omega

/-- A cyclic reference path starting from 1 makes the depth-first recursion
exhaust any fuel. -/
lemma build_none_of_cyclic (rows : List MatRow) (lc : List Int) (mk : List String)
    (hnac : ¬ AcyclicFrom rows) :
    ∀ fuel st, build_node_with_ids rows lc mk fuel 1 st = none := by
  intro fuel st
  rw [AcyclicFrom] at hnac
  push_neg at hnac
  obtain ⟨l, hch, hnd⟩ := hnac
  obtain ⟨l₁, x, l₂, l₃, hl⟩ := not_nodup_split hnd
  subst hl
  have hD : Chain rows x (x :: (l₂ ++ x :: l₃)) := chain_suffix hch l₁ x (l₂ ++ x :: l₃) rfl
  have hP : Chain rows 1 (l₁ ++ [x]) := by
    have h1 := chain_take hch l₁.length
    have h2 : (l₁ ++ x :: (l₂ ++ x :: l₃)).take (l₁.length + 1) = l₁ ++ [x] := by
      rw [List.take_append 1]
      rfl
    rw [h2] at h1
    exact h1
  have hPlast : (l₁ ++ [x]).getLast? = some x := List.getLast?_concat _
  obtain ⟨m, hm, hmlast, hmlen⟩ := chain_pump hD (fuel + 2)
  have hmhead := chain_head hm
  cases m with
  | nil => cases hmhead
  | cons y t =>
      have hy : y = x := by
        rw [List.head?_cons] at hmhead
        exact Option.some.inj hmhead
      rw [hy] at hm
      have hglued : Chain rows 1 ((l₁ ++ [x]) ++ t) := chain_glue hP hPlast hm
      refine build_none_of_long_chain rows lc mk fuel 1 ((l₁ ++ [x]) ++ t) st hglued ?_
      rw [List.length_append, List.length_append, List.length_singleton]
      simp only [List.length_cons] at hmlen
      omega


/-- C10: the matrix strategy's depth-first expansion carries no visited set —
starting from external id 1 it terminates for some fuel exactly when no
reference path from 1 revisits an id already on the path (`AcyclicFrom`),
and on the concrete matrix `[[1, 1, 0.5, 1, 2]]`, whose row lists itself as
its own left child, it exhausts every fuel (the recursion does not
terminate). -/
theorem c10_matrix_termination_iff :
    (∀ (rows : List MatRow) (lc : List Int) (mk : List String),
      (∃ fuel, (build_node_with_ids rows lc mk fuel 1 ⟨0, [], []⟩).isSome = true) ↔
        AcyclicFrom rows) ∧
    (∀ fuel st, build_node_with_ids [⟨1, 1, mkRat 1 2, 1, 2⟩] [5, 7] ["CD3"]
        fuel 1 st = none) := by
  constructor
  · intro rows lc mk
    constructor
    · rintro ⟨fuel, hs⟩
      by_contra hnac
      rw [build_none_of_cyclic rows lc mk hnac fuel _] at hs
      exact absurd hs (by simp)
    · intro hac
      refine ⟨rows.length + 2, build_some_of_short_chains rows lc mk (rows.length + 2)
        1 ⟨0, [], []⟩ ?_⟩
      intro l hl
      have := chain_length_le_of_acyclic hac l hl
      omega
  · have hnac : ¬ AcyclicFrom [⟨1, 1, mkRat 1 2, 1, 2⟩] := by
      intro hac
      have hch : Chain [⟨1, 1, mkRat 1 2, 1, 2⟩] 1 [1, 1] :=
        Chain.cons ⟨⟨1, 1, mkRat 1 2, 1, 2⟩, by decide, Or.inl rfl⟩ (Chain.single 1)
      have hnd := hac [1, 1] hch
      simp at hnd
    exact fun fuel st => build_none_of_cyclic _ _ _ hnac fuel st

/-- Witness for `c10_matrix_termination_iff`: an input with no rows is
acyclic (its only chain from 1 is `[1]`), so the builder terminates; the
self-referencing row diverges at fuel 5. -/
theorem c10_matrix_termination_iff_witness :
    (∃ fuel, (build_node_with_ids [] [] [] fuel 1 ⟨0, [], []⟩).isSome = true) ∧
    build_node_with_ids [⟨1, 1, mkRat 1 2, 1, 2⟩] [5, 7] ["CD3"] 5 1 ⟨0, [], []⟩ = none := by
  refine ⟨(c10_matrix_termination_iff.1 [] [] []).mpr ?_,
    c10_matrix_termination_iff.2 5 ⟨0, [], []⟩⟩
  intro l hch
  cases hch with
  | single => decide
  | cons hstep hch' =>
      obtain ⟨r, hfind, _⟩ := hstep
      exact absurd hfind (fun hc => nomatch hc)

lemma GTree.lcount_add_icount (t : GTree) : t.lcount + t.icount = t.size := by
  induction t with
  | leaf p => rfl
  | node m thr l r ihl ihr =>
      rw [GTree.lcount, GTree.icount, GTree.size]
      omega

lemma digitChar_toNat (d : Nat) (hd : d < 10) : (digitChar d).toNat = 48 + d := by
  interval_cases d <;> decide

lemma digitChar_isDigit (d : Nat) (hd : d < 10) : (digitChar d).isDigit = true := by
  interval_cases d <;> decide

lemma foldl_rev_ofDigits (L : List Nat) :
    L.reverse.foldl (fun a d => 10 * a + d) 0 = Nat.ofDigits 10 L := by
  induction L with
  | nil => simp [Nat.ofDigits_nil]
  | cons d L ih =>
      rw [List.reverse_cons, List.foldl_append, ih, Nat.ofDigits_cons]
      simp
      omega

lemma strDigitsToNat_natToStr (n : Nat) : strDigitsToNat (natToStr n) = n := by
  have hlt : ∀ d ∈ (Nat.digits 10 n).reverse, d < 10 := by
    intro d hd
    exact Nat.digits_lt_base (by norm_num) (List.mem_reverse.mp hd)
  show ((Nat.digits 10 n).reverse.map digitChar).foldl
      (fun a c => 10 * a + (c.toNat - 48)) 0 = n
  rw [List.foldl_map]
  have hcong : (Nat.digits 10 n).reverse.foldl
      (fun a d => 10 * a + ((digitChar d).toNat - 48)) 0 =
      (Nat.digits 10 n).reverse.foldl (fun a d => 10 * a + d) 0 := by
    apply List.foldl_ext
    intro a d hd
    rw [digitChar_toNat d (hlt d hd)]
    omega
  rw [hcong, foldl_rev_ofDigits, Nat.ofDigits_digits]

lemma is_leaf_label_natToStr (n : Nat) (hn : 1 ≤ n) : is_leaf_label (natToStr n) = true := by
  have hne : Nat.digits 10 n ≠ [] := by
    rw [Nat.digits_ne_nil_iff_ne_zero]
    omega
  rw [is_leaf_label]
  rw [Bool.and_eq_true]
  constructor
  · show decide (0 < (natToStr n).length) = true
    rw [decide_eq_true_eq]
    show 0 < ((Nat.digits 10 n).reverse.map digitChar).length
    rw [List.length_map, List.length_reverse]
    exact List.length_pos.mpr hne
  · rw [List.all_eq_true]
    intro c hc
    have hc' : c ∈ (Nat.digits 10 n).reverse.map digitChar := hc
    obtain ⟨d, hd, rfl⟩ := List.mem_map.mp hc'
    exact digitChar_isDigit d (Nat.digits_lt_base (by norm_num) (List.mem_reverse.mp hd))

lemma pathName_nil : pathName [] = "root" := by decide

lemma pathName_snoc (p : List Bool) (b : Bool) :
    pathName (p ++ [b]) = pathName p ++ String.mk ['.', bitChar b] := by
  show String.mk (pathChars (p ++ [b])) = String.mk (pathChars p ++ ['.', bitChar b])
  rw [pathChars, pathChars]
  simp [List.flatMap_append]

lemma flatBits_inj : ∀ p q : List Bool,
    p.flatMap (fun b => ['.', bitChar b]) = q.flatMap (fun b => ['.', bitChar b]) → p = q := by
  intro p
  induction p with
  | nil =>
      intro q h
      cases q with
      | nil => rfl
      | cons b q => exact absurd h.symm (by simp)
  | cons a p ih =>
      intro q h
      cases q with
      | nil => exact absurd h (by simp)
      | cons b q =>
          simp only [List.flatMap_cons, List.cons_append, List.nil_append,
            List.cons.injEq] at h
          obtain ⟨-, hbit, htail⟩ := h
          have hab : a = b := by
            cases a <;> cases b <;> first | rfl | exact absurd hbit (by decide)
          rw [hab, ih q htail]

lemma pathName_inj : ∀ p q : List Bool, pathName p = pathName q → p = q := by
  intro p q h
  have h' : pathChars p = pathChars q := by
    have := congrArg String.data h
    simpa [pathName] using this
  rw [pathChars, pathChars] at h'
  simp only [List.cons.injEq] at h'
  exact flatBits_inj p q h'.2.2.2.2

lemma toRowsAux_nodeId_bounds (t : GTree) :
    ∀ (next : Int), ∀ r ∈ toRowsAux t next,
      next ≤ r.nodeId ∧ r.nodeId < next + (t.icount : Int) := by
  induction t with
  | leaf p => intro next r hr; exact absurd hr (by simp [toRowsAux])
  | node m thr l r ihl ihr =>
      intro next x hx
      rw [toRowsAux] at hx
      rcases List.mem_cons.mp hx with h0 | hrest
      · subst h0
        show next ≤ next ∧ next < next + ((GTree.node m thr l r).icount : Int)
        rw [GTree.icount]
        constructor
        · exact le_refl _
        · push_cast
          omega
      · rw [GTree.icount]
        rcases List.mem_append.mp hrest with hl | hr
        · have := ihl (next + 1) x hl
          push_cast at this ⊢
          omega
        · have := ihr (next + 1 + (l.icount : Int)) x hr
          push_cast at this ⊢
          omega

lemma toRowsAux_nodeId_nodup (t : GTree) :
    ∀ (next : Int), ((toRowsAux t next).map (fun r => r.nodeId)).Nodup := by
  induction t with
  | leaf p => intro next; simp [toRowsAux]
  | node m thr l r ihl ihr =>
      intro next
      rw [toRowsAux]
      rw [List.map_cons, List.map_append, List.nodup_cons]
      constructor
      · intro hmem
        rcases List.mem_append.mp hmem with h | h
        · obtain ⟨x, hx, hid⟩ := List.mem_map.mp h
          dsimp only at hid
          have := toRowsAux_nodeId_bounds l (next + 1) x hx
          omega
        · obtain ⟨x, hx, hid⟩ := List.mem_map.mp h
          dsimp only at hid
          have := toRowsAux_nodeId_bounds r (next + 1 + (l.icount : Int)) x hx
          omega
      · rw [List.nodup_append]
        refine ⟨ihl _, ihr _, ?_⟩
        intro a ha hb
        obtain ⟨x, hx, hxa⟩ := List.mem_map.mp ha
        obtain ⟨y, hy, hyb⟩ := List.mem_map.mp hb
        have h1 := toRowsAux_nodeId_bounds l (next + 1) x hx
        have h2 := toRowsAux_nodeId_bounds r (next + 1 + (l.icount : Int)) y hy
        omega

lemma find?_key_eq_some {α : Type} {β : Type} [BEq β] [LawfulBEq β] (key : α → β) :
    ∀ (l : List α), ((l.map key).Nodup) → ∀ x ∈ l,
      l.find? (fun y => key y == key x) = some x := by
  intro l
  induction l with
  | nil => intro _ x hx; exact absurd hx (List.not_mem_nil x)
  | cons h t ih =>
      intro hnd x hx
      rw [List.map_cons, List.nodup_cons] at hnd
      rcases List.mem_cons.mp hx with rfl | hxt
      · rw [List.find?_cons_of_pos]
        simp
      · rw [List.find?_cons_of_neg]
        · exact ih hnd.2 x hxt
        · have hne : key h ≠ key x := by
            intro he
            exact hnd.1 (he ▸ List.mem_map_of_mem key hxt)
          simp [hne]


/-- Matrix characterization: on the matrix encoding of `t`, depth-first
expansion emits exactly the nodes and links of `matOutAux`, appended to the
accumulator, and consumes `t.size` canonical ids. -/
lemma build_toRows (lc : List Int) (mk : List String) (rows : List MatRow) :
    ∀ (t : GTree) (next : Int) (fuel : Nat) (st : TState),
      t.size ≤ fuel →
      (∀ r ∈ toRowsAux t next, rows.find? (fun x => x.nodeId == r.nodeId) = some r) →
      (∀ p ∈ t.pops, rows.find? (fun x => x.nodeId == ((p : Nat) : Int)) = none) →
      build_node_with_ids rows lc mk fuel (t.extId next) st =
        some (st.nextId + 1,
          { nextId := st.nextId + t.size,
            nodes := st.nodes ++ (matOutAux lc mk t next (st.nextId + 1)).1.map (fun q => q.2),
            links := st.links ++ (matOutAux lc mk t next (st.nextId + 1)).2 }) := by
  intro t
  induction t with
  | leaf p =>
      intro next fuel st hfuel hfind hleaf
      have hs : GTree.size (.leaf p) = 1 := rfl
      rw [hs] at hfuel
      cases fuel with
      | zero => omega
      | succ f =>
          rw [build_node_with_ids]
          have hx : GTree.extId (.leaf p) next = ((p : Nat) : Int) := rfl
          rw [hx]
          have h0 : rows.find? (fun x => x.nodeId == ((p : Nat) : Int)) = none :=
            hleaf p (by rw [GTree.pops]; exact List.mem_singleton_self _)
          simp only [h0]
          simp [matOutAux, GTree.size]
  | node m thr l r ihl ihr =>
      intro next fuel st hfuel hfind hleaf
      have hs : GTree.size (.node m thr l r) = 1 + l.size + r.size := rfl
      rw [hs] at hfuel
      cases fuel with
      | zero => omega
      | succ f =>
          rw [build_node_with_ids]
          have hx : GTree.extId (.node m thr l r) next = next := rfl
          rw [hx]
          have h0 : rows.find? (fun x => x.nodeId == next) =
              some ⟨next, (m : Int), thr, l.extId (next + 1),
                r.extId (next + 1 + (l.icount : Int))⟩ :=
            hfind _ (by rw [toRowsAux]; exact List.mem_cons_self _ _)
          simp only [h0]
          have hL := ihl (next + 1) f
            ⟨st.nextId + 1,
             st.nodes ++
               [⟨st.nextId + 1, "Node_" ++ toString next,
                 (if (m : Int) ≤ (mk.length : Int) then rIndexStr mk (m : Int)
                  else some ("Marker_" ++ toString ((m : Int)))), none,
                 some (round2 thr)⟩],
             st.links⟩
            (by omega)
            (fun x hx => hfind x (by
              rw [toRowsAux]
              exact List.mem_cons_of_mem _ (List.mem_append_left _ hx)))
            (fun p hp => hleaf p (by
              rw [GTree.pops]
              exact List.mem_append_left _ hp))
          have hR := ihr (next + 1 + (l.icount : Int)) f
            ⟨st.nextId + 1 + l.size,
             (st.nodes ++
               [⟨st.nextId + 1, "Node_" ++ toString next,
                 (if (m : Int) ≤ (mk.length : Int) then rIndexStr mk (m : Int)
                  else some ("Marker_" ++ toString ((m : Int)))), none,
                 some (round2 thr)⟩]) ++
               (matOutAux lc mk l (next + 1) (st.nextId + 1 + 1)).1.map (fun q => q.2),
             st.links ++ (matOutAux lc mk l (next + 1) (st.nextId + 1 + 1)).2⟩
            (by omega)
            (fun x hx => hfind x (by
              rw [toRowsAux]
              exact List.mem_cons_of_mem _ (List.mem_append_right _ hx)))
            (fun p hp => hleaf p (by
              rw [GTree.pops]
              exact List.mem_append_right _ hp))
          dsimp only at hL hR
          simp only [hL]
          have ha1 : st.nextId + 1 + l.size + 1 = st.nextId + 1 + 1 + l.size := by omega
          rw [ha1] at hR
          simp only [hR]
          simp only [matOutAux, Option.some.injEq, Prod.mk.injEq, TState.mk.injEq,
            List.map_cons, List.map_append, List.append_assoc, List.cons_append,
            List.singleton_append]
          refine ⟨trivial, by rw [hs]; omega, by simp, trivial⟩

lemma range'_glue (s m n : Nat) :
    List.range' s m ++ List.range' (s + m) n = List.range' s (m + n) := by
  have h := List.range'_append s m n 1
  rw [one_mul] at h
  rw [Nat.add_comm n m] at h
  exact h

/-- The tag/source correlation turns the link-based leaf/internal split into
the tag-based one. -/
lemma filter_by_tag (links : List CanonicalLink) :
    ∀ tagged : List (Bool × CanonicalNode),
      (∀ q ∈ tagged, isSourceIn links q.2.id = q.1) →
      (tagged.map (fun q => q.2)).filter (fun n => isSourceIn links n.id) =
          (tagged.filter (fun q => q.1)).map (fun q => q.2) ∧
        (tagged.map (fun q => q.2)).filter (fun n => !(isSourceIn links n.id)) =
          (tagged.filter (fun q => !q.1)).map (fun q => q.2) := by
  intro tagged
  induction tagged with
  | nil => intro _; exact ⟨rfl, rfl⟩
  | cons q rest ih =>
      intro hcorr
      have hq : isSourceIn links q.2.id = q.1 := hcorr q (List.mem_cons_self _ _)
      have ihr := ih (fun x hx => hcorr x (List.mem_cons_of_mem _ hx))
      cases hb : q.1 with
      | true =>
          rw [hb] at hq
          constructor
          · rw [List.map_cons, List.filter_cons, List.filter_cons, hq, hb]
            simp [ihr.1]
          · rw [List.map_cons, List.filter_cons, List.filter_cons, hq, hb]
            simp [ihr.2]
      | false =>
          rw [hb] at hq
          constructor
          · rw [List.map_cons, List.filter_cons, List.filter_cons, hq, hb]
            simp [ihr.1]
          · rw [List.map_cons, List.filter_cons, List.filter_cons, hq, hb]
            simp [ihr.2]

/-! ### Matrix-side observable lemmas -/

lemma matOutAux_ids (lc : List Int) (mk : List String) (t : GTree) :
    ∀ (next : Int) (cid : Nat),
      (matOutAux lc mk t next cid).1.map (fun q => q.2.id) = List.range' cid t.size := by
  induction t with
  | leaf p => intro next cid; simp [matOutAux, GTree.size, List.range'_one]
  | node m thr l r ihl ihr =>
      intro next cid
      show (matOutAux lc mk (.node m thr l r) next cid).1.map (fun q => q.2.id) =
        List.range' cid ((GTree.node m thr l r).size)
      rw [matOutAux]
      rw [List.map_cons, List.map_append, ihl, ihr]
      dsimp only
      rw [GTree.size]
      have h1 : List.range' (cid + 1) l.size ++ List.range' (cid + 1 + l.size) r.size =
          List.range' (cid + 1) (l.size + r.size) := range'_glue _ _ _
      rw [h1]
      have h2 : 1 + l.size + r.size = Nat.succ (l.size + r.size) := by omega
      rw [h2, List.range'_succ]

lemma matOutAux_source_iff (lc : List Int) (mk : List String) (t : GTree) :
    ∀ (next : Int) (cid : Nat) (i : Nat),
      isSourceIn (matOutAux lc mk t next cid).2 i = true ↔
        i ∈ ((matOutAux lc mk t next cid).1.filter (fun q => q.1)).map (fun q => q.2.id) := by
  induction t with
  | leaf p => intro next cid i; simp [matOutAux, isSourceIn]
  | node m thr l r ihl ihr =>
      intro next cid i
      rw [matOutAux]
      dsimp only
      simp only [isSourceIn] at ihl ihr ⊢
      simp only [List.any_append, List.filter_cons, List.filter_append, Bool.or_eq_true,
        List.any_cons, List.any_nil, beq_iff_eq, Bool.or_false,
        List.map_cons, List.map_append, List.mem_cons, List.mem_append, if_true]
      rw [ihl, ihr]
      constructor
      · rintro ((h | h) | h | h)
        · exact Or.inr (Or.inl h)
        · exact Or.inr (Or.inr h)
        · exact Or.inl h.symm
        · exact Or.inl h.symm
      · rintro (h | h | h)
        · exact Or.inr (Or.inl h.symm)
        · exact Or.inl (Or.inl h)
        · exact Or.inl (Or.inr h)

lemma matOutAux_false_cells (lc : List Int) (mk : List String) (t : GTree) :
    ∀ (next : Int) (cid : Nat),
      ((matOutAux lc mk t next cid).1.filter (fun q => !q.1)).map (fun q => q.2.cells) =
        t.leafCells lc := by
  induction t with
  | leaf p => intro next cid; simp [matOutAux, GTree.leafCells]
  | node m thr l r ihl ihr =>
      intro next cid
      rw [matOutAux]
      dsimp only
      rw [List.filter_cons]
      simp only [List.filter_append]
      simp [ihl, ihr, GTree.leafCells]

lemma matOutAux_true_pairs (lc : List Int) (mk : List String) (t : GTree) :
    ∀ (next : Int) (cid : Nat),
      (∀ m' ∈ t.imarks, 1 ≤ m' ∧ m' ≤ mk.length) →
      ((matOutAux lc mk t next cid).1.filter (fun q => q.1)).map
          (fun q => (q.2.marker, q.2.threshold)) = t.markerThrs mk := by
  induction t with
  | leaf p => intro next cid _; simp [matOutAux, GTree.markerThrs]
  | node m thr l r ihl ihr =>
      intro next cid hm
      have hmm : 1 ≤ m ∧ m ≤ mk.length := hm m (by rw [GTree.imarks]; exact List.mem_cons_self _ _)
      rw [matOutAux]
      dsimp only
      rw [List.filter_cons]
      simp only [List.filter_append]
      have hif : (if ((m : Int)) ≤ (mk.length : Int) then rIndexStr mk ((m : Int))
          else some ("Marker_" ++ toString ((m : Int)))) = rIndexStr mk ((m : Int)) := by
        rw [if_pos]
        exact_mod_cast hmm.2
      have hL := ihl (next + 1) (cid + 1) (fun x hx => hm x (by
            rw [GTree.imarks]
            exact List.mem_cons_of_mem _ (List.mem_append_left _ hx)))
      have hR := ihr (next + 1 + (l.icount : Int)) (cid + 1 + l.size) (fun x hx => hm x (by
            rw [GTree.imarks]
            exact List.mem_cons_of_mem _ (List.mem_append_right _ hx)))
      simp [hL, hR, GTree.markerThrs, hif]
      intro hlt
      exact absurd hmm.2 (by omega)


lemma GTree.leafCells_length (lc : List Int) (t : GTree) :
    (t.leafCells lc).length = t.lcount := by
  induction t with
  | leaf p => rfl
  | node m thr l r ihl ihr =>
      rw [GTree.leafCells, GTree.lcount, List.length_append, ihl, ihr]

lemma GTree.markerThrs_map_fst (mk : List String) (t : GTree) :
    (t.markerThrs mk).map Prod.fst = t.markerStrs mk := by
  induction t with
  | leaf p => rfl
  | node m thr l r ihl ihr =>
      rw [GTree.markerThrs, GTree.markerStrs, List.map_cons, List.map_append, ihl, ihr]

/-- If ids are distinct and the link sources are exactly the ids of the
`true`-tagged nodes, then the tag of every node matches whether it is a link
source. -/
lemma tag_correlation (links : List CanonicalLink) (tagged : List (Bool × CanonicalNode))
    (hnd : (tagged.map (fun q => q.2.id)).Nodup)
    (hiff : ∀ i, isSourceIn links i = true ↔
      i ∈ (tagged.filter (fun q => q.1)).map (fun q => q.2.id)) :
    ∀ q ∈ tagged, isSourceIn links q.2.id = q.1 := by
  intro q hq
  cases hb : q.1 with
  | true =>
      rw [hiff]
      exact List.mem_map_of_mem _ (List.mem_filter.mpr ⟨hq, by rw [hb]⟩)
  | false =>
      cases hsb : isSourceIn links q.2.id with
      | false => rfl
      | true =>
          exfalso
          obtain ⟨q', hq', hid⟩ := List.mem_map.mp ((hiff _).mp hsb)
          have hq'f := List.mem_filter.mp hq'
          have heq := List.inj_on_of_nodup_map hnd hq'f.1 hq hid
          rw [heq, hb] at hq'f
          exact Bool.false_ne_true hq'f.2

/-- Full matrix run: the strategy on the matrix encoding succeeds and returns
exactly `matOutAux`'s nodes and links. -/
lemma matrix_strategy_run (lc : List Int) (mk : List String) (t : GTree)
    (ht : t.isNodeB = true)
    (hpops : ∀ p ∈ t.pops, t.icount < p) :
    matrix_strategy (.mat (toRows t)) lc mk (t.size + 1) =
      some ((matOutAux lc mk t 1 1).1.map (fun q => q.2), (matOutAux lc mk t 1 1).2) := by
  have hfind : ∀ r ∈ toRowsAux t 1,
      (toRows t).find? (fun x => x.nodeId == r.nodeId) = some r := by
    intro r hr
    have h := find?_key_eq_some (fun x => x.nodeId) (toRows t)
      (toRowsAux_nodeId_nodup t 1) r hr
    exact h
  have hleaf : ∀ p ∈ t.pops,
      (toRows t).find? (fun x => x.nodeId == ((p : Nat) : Int)) = none := by
    intro p hp
    rw [List.find?_eq_none]
    intro x hx
    have hb := toRowsAux_nodeId_bounds t 1 x hx
    have hcnt := hpops p hp
    simp only [beq_iff_eq]
    intro hcontra
    rw [hcontra] at hb
    have : ((p : Nat) : Int) < 1 + (t.icount : Int) := hb.2
    push_cast at this
    omega
  have hchar := build_toRows lc mk (toRows t) t 1 (t.size + 1) ⟨0, [], []⟩
    (by omega) hfind hleaf
  cases t with
  | leaf p => exact absurd ht (by rw [GTree.isNodeB]; exact Bool.false_ne_true)
  | node m thr l r =>
      have hext : GTree.extId (.node m thr l r) 1 = 1 := rfl
      rw [hext] at hchar
      have hemp : (toRows (.node m thr l r)).isEmpty = false := by
        rw [toRows, toRowsAux]
        rfl
      simp only [matrix_strategy, hemp, Bool.false_eq_true, if_false]
      rw [hchar]
      simp


/-- Observables of the matrix strategy on the matrix encoding. -/
lemma matrix_strategy_obs (lc : List Int) (mk : List String) (t : GTree)
    (ht : t.isNodeB = true)
    (hpops : ∀ p ∈ t.pops, t.icount < p)
    (hm : ∀ m' ∈ t.imarks, 1 ≤ m' ∧ m' ≤ mk.length) :
    ∃ out, matrix_strategy (.mat (toRows t)) lc mk (t.size + 1) = some out ∧
      out.1.length = t.size ∧
      (leafNodesOf out).length = t.lcount ∧
      leafCellsOf out = (t.leafCells lc : Multiset (Option Int)) ∧
      internalMarkersOf out = (t.markerStrs mk : Multiset (Option String)) ∧
      internalPairsOf out = (t.markerThrs mk : Multiset (Option String × Option ℚ)) := by
  refine ⟨((matOutAux lc mk t 1 1).1.map (fun q => q.2), (matOutAux lc mk t 1 1).2),
    matrix_strategy_run lc mk t ht hpops, ?_, ?_, ?_, ?_, ?_⟩
  · show ((matOutAux lc mk t 1 1).1.map (fun q => q.2)).length = t.size
    rw [List.length_map]
    have := matOutAux_ids lc mk t 1 1
    have hlen := congrArg List.length this
    rw [List.length_map, List.length_range'] at hlen
    exact hlen
  all_goals
    have hnd : ((matOutAux lc mk t 1 1).1.map (fun q => q.2.id)).Nodup := by
      rw [matOutAux_ids lc mk t 1 1]
      exact List.nodup_range' _ _
    have hcorr := tag_correlation (matOutAux lc mk t 1 1).2 (matOutAux lc mk t 1 1).1
      hnd (matOutAux_source_iff lc mk t 1 1)
    have hft := filter_by_tag (matOutAux lc mk t 1 1).2 (matOutAux lc mk t 1 1).1 hcorr
  · show (leafNodesOf _).length = t.lcount
    rw [leafNodesOf]
    dsimp only
    rw [hft.2, List.length_map]
    have h3 := congrArg List.length (matOutAux_false_cells lc mk t 1 1)
    rw [List.length_map, GTree.leafCells_length] at h3
    exact h3
  · show leafCellsOf _ = _
    rw [leafCellsOf, leafNodesOf]
    dsimp only
    rw [hft.2, List.map_map]
    have h3 : ((matOutAux lc mk t 1 1).1.filter (fun q => !q.1)).map
        ((fun n => n.cells) ∘ (fun q => q.2)) =
        ((matOutAux lc mk t 1 1).1.filter (fun q => !q.1)).map (fun q => q.2.cells) := rfl
    rw [h3, matOutAux_false_cells]
  · show internalMarkersOf _ = _
    rw [internalMarkersOf, internalNodesOf]
    dsimp only
    rw [hft.1, List.map_map]
    have h3 : ((matOutAux lc mk t 1 1).1.filter (fun q => q.1)).map
        ((fun n => n.marker) ∘ (fun q => q.2)) =
        (((matOutAux lc mk t 1 1).1.filter (fun q => q.1)).map
          (fun q => (q.2.marker, q.2.threshold))).map Prod.fst := by
      rw [List.map_map]
      rfl
    rw [h3, matOutAux_true_pairs lc mk t 1 1 hm, GTree.markerThrs_map_fst]
  · show internalPairsOf _ = _
    rw [internalPairsOf, internalNodesOf]
    dsimp only
    rw [hft.1, List.map_map]
    have h3 : ((matOutAux lc mk t 1 1).1.filter (fun q => q.1)).map
        ((fun n => (n.marker, n.threshold)) ∘ (fun q => q.2)) =
        ((matOutAux lc mk t 1 1).1.filter (fun q => q.1)).map
          (fun q => (q.2.marker, q.2.threshold)) := rfl
    rw [h3, matOutAux_true_pairs lc mk t 1 1 hm]

lemma toKeyed_map_fst (mk : List String) (t : GTree) :
    ∀ p, (toKeyed mk t p).map (fun e => e.1) = t.keyNames p := by
  induction t with
  | leaf p' => intro p; rfl
  | node m thr l r ihl ihr =>
      intro p
      rw [toKeyed, GTree.keyNames, List.map_cons, List.map_append, ihl, ihr]

lemma keyNames_eq_positions (t : GTree) :
    ∀ p, t.keyNames p = t.positions.map (fun q => pathName (p ++ q)) := by
  induction t with
  | leaf p' => intro p; simp [GTree.keyNames, GTree.positions]
  | node m thr l r ihl ihr =>
      intro p
      rw [GTree.keyNames, GTree.positions, List.map_cons, List.map_append, ihl, ihr]
      congr 1
      · rw [List.append_nil]
      congr 1
      · rw [List.map_map]
        apply List.map_congr_left
        intro q hq
        show pathName ((p ++ [false]) ++ q) = pathName (p ++ (false :: q))
        rw [List.append_assoc, List.singleton_append]
      · rw [List.map_map]
        apply List.map_congr_left
        intro q hq
        show pathName ((p ++ [true]) ++ q) = pathName (p ++ (true :: q))
        rw [List.append_assoc, List.singleton_append]

lemma positions_nodup (t : GTree) : t.positions.Nodup := by
  induction t with
  | leaf p => simp [GTree.positions]
  | node m thr l r ihl ihr =>
      rw [GTree.positions, List.nodup_cons]
      constructor
      · intro hmem
        rcases List.mem_append.mp hmem with h | h <;>
          · obtain ⟨q, hq, hbad⟩ := List.mem_map.mp h
            exact List.cons_ne_nil _ _ hbad
      · rw [List.nodup_append]
        refine ⟨?_, ?_, ?_⟩
        · exact ihl.map (fun a b hab => by simpa using hab)
        · exact ihr.map (fun a b hab => by simpa using hab)
        · intro a ha hb
          obtain ⟨q1, hq1, hbad1⟩ := List.mem_map.mp ha
          obtain ⟨q2, hq2, hbad2⟩ := List.mem_map.mp hb
          rw [← hbad1] at hbad2
          simp at hbad2

lemma keyNames_nodup (t : GTree) (p : List Bool) : (t.keyNames p).Nodup := by
  rw [keyNames_eq_positions]
  refine (positions_nodup t).map ?_
  intro a b hab
  have := pathName_inj _ _ hab
  exact List.append_cancel_left this

lemma keyVis_mem (t : GTree) : ∀ (p : List Bool) (s : String),
    s ∈ t.keyVis p ↔ s ∈ t.keyNames p := by
  induction t with
  | leaf p' => intro p s; rfl
  | node m thr l r ihl ihr =>
      intro p s
      rw [GTree.keyVis, GTree.keyNames]
      simp only [List.mem_append, List.mem_cons, List.mem_singleton, ihl, ihr]
      tauto

lemma parse_internal_entry (mk : List String) (s : String) (q : ℚ) :
    parse_mark_tree_entry mk [("marker", KVal.str s), ("cut", KVal.num q)] =
      { marker := some s, threshold := some (round2 q) } := rfl

lemma parse_empty_entry (mk : List String) :
    parse_mark_tree_entry mk [] = { marker := none, threshold := none } := rfl

lemma probe_child_hit (names : List String) (cm nm sfx : String)
    (h1 : names.contains (cm ++ sfx) = false)
    (h2 : names.contains (nm ++ sfx) = true) :
    probe_child names cm nm sfx = some (nm ++ sfx) := by
  rw [probe_child]
  rw [List.filter_cons, List.filter_cons, h1, h2]
  rfl

lemma pathName_left (p : List Bool) : pathName p ++ ".0" = pathName (p ++ [false]) := by
  rw [pathName_snoc]
  have : String.mk ['.', bitChar false] = ".0" := by decide
  rw [this]

lemma pathName_right (p : List Bool) : pathName p ++ ".1" = pathName (p ++ [true]) := by
  rw [pathName_snoc]
  have : String.mk ['.', bitChar true] = ".1" := by decide
  rw [this]

lemma toKeyed_head_mem (mk : List String) (t : GTree) (p : List Bool) :
    (pathName p, t.entryOf mk) ∈ toKeyed mk t p := by
  cases t with
  | leaf p' => exact List.mem_singleton_self _
  | node m thr l r => exact List.mem_cons_self _ _


lemma contains_false_of_not_mem {α : Type} [BEq α] [LawfulBEq α] (l : List α) (a : α)
    (h : a ∉ l) : l.contains a = false := by
  cases hc : l.contains a with
  | false => rfl
  | true => exact absurd (List.elem_iff.mp hc) h

/-- Keyed characterization: on the keyed encoding of `t`, the recursion
starting at position `p` emits exactly the nodes and links of `keyOutAux`,
appended to the accumulator, and consumes `t.size` canonical ids. -/
lemma build_toKeyed (mk : List String) (entries : List (String × KEntry))
    (names : List String) (hnames : names = entries.map (fun e => e.1)) :
    ∀ (t : GTree) (p : List Bool) (fuel : Nat) (par : Option Nat) (st : KState),
      t.size ≤ fuel →
      (∀ q ∈ toKeyed mk t p, entries.find? (fun e => e.1 == q.1) = some q) →
      (∀ m' ∈ t.imarks, names.contains (mstr mk m' ++ ".0") = false ∧
        names.contains (mstr mk m' ++ ".1") = false) →
      (∀ s ∈ t.keyNames p, s ∉ st.visited) →
      build_mark_tree_list entries mk fuel (pathName p) par st =
        some (st.nextId + 1,
          { nextId := st.nextId + t.size,
            nodes := st.nodes ++ (keyOutAux mk t p (st.nextId + 1)).1.map (fun q => q.2),
            links := st.links ++ parent_link par (st.nextId + 1) ++
              (keyOutAux mk t p (st.nextId + 1)).2,
            visited := t.keyVis p ++ st.visited,
            name_to_id := t.keyIds p (st.nextId + 1) ++ st.name_to_id }) := by
  intro t
  induction t with
  | leaf p' =>
      intro p fuel par st hfuel hent hnc hvis
      cases fuel with
      | zero => exact absurd hfuel (by rw [GTree.size]; omega)
      | succ f =>
          rw [build_mark_tree_list]
          have hvc : st.visited.contains (pathName p) = false :=
            contains_false_of_not_mem _ _
              (hvis _ (by rw [GTree.keyNames]; exact List.mem_singleton_self _))
          simp only [hvc, Bool.false_eq_true, if_false]
          have hfind0 : entries.find? (fun e => e.1 == pathName p) =
              some (pathName p, GTree.entryOf mk (.leaf p')) :=
            hent _ (toKeyed_head_mem mk (.leaf p') p)
          have hne : node_entry entries (pathName p) = GTree.entryOf mk (.leaf p') := by
            rw [node_entry, hfind0]
            rfl
          rw [hne]
          have hent' : GTree.entryOf mk (.leaf p') = ([] : KEntry) := rfl
          rw [hent', parse_empty_entry]
          simp [keyOutAux, GTree.keyVis, GTree.keyIds, GTree.size, parent_link]
  | node m thr l r ihl ihr =>
      intro p fuel par st hfuel hent hnc hvis
      cases fuel with
      | zero => exact absurd hfuel (by rw [GTree.size]; omega)
      | succ f =>
          have hnd := keyNames_nodup (.node m thr l r) p
          rw [GTree.keyNames, List.nodup_cons, List.nodup_append] at hnd
          obtain ⟨hroot_nin, hndl, hndr, hdisj⟩ := hnd
          rw [build_mark_tree_list]
          have hvc : st.visited.contains (pathName p) = false :=
            contains_false_of_not_mem _ _
              (hvis _ (by rw [GTree.keyNames]; exact List.mem_cons_self _ _))
          simp only [hvc, Bool.false_eq_true, if_false]
          have hfind0 : entries.find? (fun e => e.1 == pathName p) =
              some (pathName p, GTree.entryOf mk (.node m thr l r)) :=
            hent _ (toKeyed_head_mem mk (.node m thr l r) p)
          have hne : node_entry entries (pathName p) =
              GTree.entryOf mk (.node m thr l r) := by
            rw [node_entry, hfind0]
            rfl
          rw [hne]
          have hent' : GTree.entryOf mk (.node m thr l r) =
              [("marker", KVal.str (mstr mk m)), ("cut", KVal.num thr)] := rfl
          rw [hent', parse_internal_entry]
          have hmm : m ∈ (GTree.node m thr l r).imarks := by
            rw [GTree.imarks]
            exact List.mem_cons_self _ _
          have hlmem : pathName (p ++ [false]) ∈ names := by
            have hf := hent _ (List.mem_cons_of_mem _
              (List.mem_append_left _ (toKeyed_head_mem mk l (p ++ [false]))))
            have hq := List.mem_of_find?_eq_some hf
            rw [hnames]
            exact List.mem_map_of_mem _ hq
          have hrmem : pathName (p ++ [true]) ∈ names := by
            have hf := hent _ (List.mem_cons_of_mem _
              (List.mem_append_right _ (toKeyed_head_mem mk r (p ++ [true]))))
            have hq := List.mem_of_find?_eq_some hf
            rw [hnames]
            exact List.mem_map_of_mem _ hq
          have hprobeL : probe_child (entries.map (fun e => e.1)) (mstr mk m)
              (pathName p) ".0" = some (pathName (p ++ [false])) := by
            rw [← hnames]
            rw [probe_child_hit names _ _ _ (hnc m hmm).1
              (by rw [pathName_left]; exact List.elem_iff.mpr hlmem)]
            rw [pathName_left]
          have hprobeR : probe_child (entries.map (fun e => e.1)) (mstr mk m)
              (pathName p) ".1" = some (pathName (p ++ [true])) := by
            rw [← hnames]
            rw [probe_child_hit names _ _ _ (hnc m hmm).2
              (by rw [pathName_right]; exact List.elem_iff.mpr hrmem)]
            rw [pathName_right]
          simp only [hprobeL, hprobeR]
          have hL := ihl (p ++ [false]) f (some (st.nextId + 1))
            ⟨st.nextId + 1,
             st.nodes ++
               [⟨st.nextId + 1, pathName p, some (mstr mk m), none, some (round2 thr)⟩],
             st.links ++ parent_link par (st.nextId + 1),
             pathName p :: st.visited,
             (pathName p, st.nextId + 1) :: st.name_to_id⟩
            (by rw [GTree.size] at hfuel; omega)
            (fun q hq => hent q (List.mem_cons_of_mem _ (List.mem_append_left _ hq)))
            (fun m' hm' => hnc m' (by
              rw [GTree.imarks]
              exact List.mem_cons_of_mem _ (List.mem_append_left _ hm')))
            (by
              intro s hs
              rw [List.mem_cons]
              rintro (rfl | hmem)
              · exact hroot_nin (List.mem_append_left _ hs)
              · exact hvis s (by
                  rw [GTree.keyNames]
                  exact List.mem_cons_of_mem _ (List.mem_append_left _ hs)) hmem)
          simp only [Option.getD_some]
          dsimp only at hL
          simp only [hL, Option.map_some']
          have hR := ihr (p ++ [true]) f (some (st.nextId + 1))
            ⟨st.nextId + 1 + l.size,
             (st.nodes ++
               [⟨st.nextId + 1, pathName p, some (mstr mk m), none, some (round2 thr)⟩]) ++
               (keyOutAux mk l (p ++ [false]) (st.nextId + 1 + 1)).1.map (fun q => q.2),
             (st.links ++ parent_link par (st.nextId + 1)) ++
               parent_link (some (st.nextId + 1)) (st.nextId + 1 + 1) ++
               (keyOutAux mk l (p ++ [false]) (st.nextId + 1 + 1)).2,
             l.keyVis (p ++ [false]) ++ (pathName p :: st.visited),
             l.keyIds (p ++ [false]) (st.nextId + 1 + 1) ++
               ((pathName p, st.nextId + 1) :: st.name_to_id)⟩
            (by rw [GTree.size] at hfuel; omega)
            (fun q hq => hent q (List.mem_cons_of_mem _ (List.mem_append_right _ hq)))
            (fun m' hm' => hnc m' (by
              rw [GTree.imarks]
              exact List.mem_cons_of_mem _ (List.mem_append_right _ hm')))
            (by
              intro s hs
              rw [List.mem_append, List.mem_cons]
              rintro (hmem | rfl | hmem)
              · exact hdisj ((keyVis_mem l _ s).mp hmem) hs
              · exact hroot_nin (List.mem_append_right _ hs)
              · exact hvis s (by
                  rw [GTree.keyNames]
                  exact List.mem_cons_of_mem _ (List.mem_append_right _ hs)) hmem)
          dsimp only at hR
          have ha1 : st.nextId + 1 + l.size + 1 = st.nextId + 1 + 1 + l.size := by omega
          rw [ha1] at hR
          simp only [hR]
          rw [keyOutAux]
          simp only [Option.some.injEq, Prod.mk.injEq, KState.mk.injEq, GTree.size,
            GTree.keyVis, GTree.keyIds, List.map_cons, List.map_append,
            List.append_assoc, List.cons_append, List.singleton_append, parent_link]
          refine ⟨trivial, by omega, by simp, by simp, by simp, by simp⟩


lemma rIndexStr_eq_mstr (mk : List String) (m : Nat) (h1 : 1 ≤ m) (h2 : m ≤ mk.length) :
    rIndexStr mk (m : Int) = some (mstr mk m) := by
  have hcond : (1 : Int) ≤ (m : Int) ∧ (m : Int) ≤ (mk.length : Int) := by
    constructor <;> [exact_mod_cast h1; exact_mod_cast h2]
  have hidx : (((m : Int)) - 1).toNat = m - 1 := by omega
  have hlt : m - 1 < mk.length := by omega
  have hget : mk.get? (m - 1) = some (mk.get ⟨m - 1, hlt⟩) := List.get?_eq_get hlt
  rw [mstr, rIndexStr, if_pos hcond, hidx, hget]
  rfl

lemma toKeyed_length (mk : List String) (t : GTree) :
    ∀ p, (toKeyed mk t p).length = t.size := by
  induction t with
  | leaf p' => intro p; rfl
  | node m thr l r ihl ihr =>
      intro p
      rw [toKeyed, List.length_cons, List.length_append, ihl, ihr, GTree.size]
      omega

/-! ### Keyed-side observable lemmas -/

lemma keyOutAux_ids (mk : List String) (t : GTree) :
    ∀ (p : List Bool) (cid : Nat),
      (keyOutAux mk t p cid).1.map (fun q => q.2.id) = List.range' cid t.size := by
  induction t with
  | leaf p' => intro p cid; simp [keyOutAux, GTree.size, List.range'_one]
  | node m thr l r ihl ihr =>
      intro p cid
      show (keyOutAux mk (.node m thr l r) p cid).1.map (fun q => q.2.id) =
        List.range' cid ((GTree.node m thr l r).size)
      rw [keyOutAux]
      rw [List.map_cons, List.map_append, ihl, ihr]
      dsimp only
      rw [GTree.size]
      have h1 : List.range' (cid + 1) l.size ++ List.range' (cid + 1 + l.size) r.size =
          List.range' (cid + 1) (l.size + r.size) := range'_glue _ _ _
      rw [h1]
      have h2 : 1 + l.size + r.size = Nat.succ (l.size + r.size) := by omega
      rw [h2, List.range'_succ]

lemma keyOutAux_source_iff (mk : List String) (t : GTree) :
    ∀ (p : List Bool) (cid : Nat) (i : Nat),
      isSourceIn (keyOutAux mk t p cid).2 i = true ↔
        i ∈ ((keyOutAux mk t p cid).1.filter (fun q => q.1)).map (fun q => q.2.id) := by
  induction t with
  | leaf p' => intro p cid i; simp [keyOutAux, isSourceIn]
  | node m thr l r ihl ihr =>
      intro p cid i
      rw [keyOutAux]
      dsimp only
      simp only [isSourceIn] at ihl ihr ⊢
      simp only [List.any_append, List.filter_cons, List.filter_append, Bool.or_eq_true,
        List.any_cons, beq_iff_eq, List.map_cons, List.map_append, List.mem_cons,
        List.mem_append, if_true]
      rw [ihl, ihr]
      constructor
      · rintro ((h | h) | h | h)
        · exact Or.inl h.symm
        · exact Or.inr (Or.inl h)
        · exact Or.inl h.symm
        · exact Or.inr (Or.inr h)
      · rintro (h | h | h)
        · exact Or.inl (Or.inl h.symm)
        · exact Or.inl (Or.inr h)
        · exact Or.inr (Or.inr h)

lemma keyOutAux_false_cells (mk : List String) (t : GTree) :
    ∀ (p : List Bool) (cid : Nat),
      ((keyOutAux mk t p cid).1.filter (fun q => !q.1)).map (fun q => q.2.cells) =
        List.replicate t.lcount (none : Option Int) := by
  induction t with
  | leaf p' => intro p cid; simp [keyOutAux, GTree.lcount]
  | node m thr l r ihl ihr =>
      intro p cid
      rw [keyOutAux]
      dsimp only
      rw [List.filter_cons]
      simp only [List.filter_append]
      simp [ihl, ihr, GTree.lcount]

lemma keyOutAux_true_pairs (mk : List String) (t : GTree) :
    ∀ (p : List Bool) (cid : Nat),
      (∀ m' ∈ t.imarks, 1 ≤ m' ∧ m' ≤ mk.length) →
      ((keyOutAux mk t p cid).1.filter (fun q => q.1)).map
          (fun q => (q.2.marker, q.2.threshold)) = t.markerThrs mk := by
  induction t with
  | leaf p' => intro p cid _; simp [keyOutAux, GTree.markerThrs]
  | node m thr l r ihl ihr =>
      intro p cid hm
      have hmm : 1 ≤ m ∧ m ≤ mk.length := hm m (by rw [GTree.imarks]; exact List.mem_cons_self _ _)
      rw [keyOutAux]
      dsimp only
      rw [List.filter_cons]
      simp only [List.filter_append]
      have hL := ihl (p ++ [false]) (cid + 1) (fun x hx => hm x (by
            rw [GTree.imarks]
            exact List.mem_cons_of_mem _ (List.mem_append_left _ hx)))
      have hR := ihr (p ++ [true]) (cid + 1 + l.size) (fun x hx => hm x (by
            rw [GTree.imarks]
            exact List.mem_cons_of_mem _ (List.mem_append_right _ hx)))
      simp [hL, hR, GTree.markerThrs, rIndexStr_eq_mstr mk m hmm.1 hmm.2]


/-- Full keyed run: the strategy on the keyed encoding succeeds and returns
exactly `keyOutAux`'s nodes and links. -/
lemma keyed_strategy_run (mk : List String) (t : GTree)
    (hnc : ∀ m' ∈ t.imarks,
      (t.keyNames []).contains (mstr mk m' ++ ".0") = false ∧
      (t.keyNames []).contains (mstr mk m' ++ ".1") = false) :
    keyed_strategy (.keyed (toKeyed mk t [])) mk =
      some ((keyOutAux mk t [] 1).1.map (fun q => q.2), (keyOutAux mk t [] 1).2) := by
  have hmapfst := toKeyed_map_fst mk t []
  have hnodup : ((toKeyed mk t []).map (fun e => e.1)).Nodup := by
    rw [hmapfst]
    exact keyNames_nodup t []
  have hent : ∀ q ∈ toKeyed mk t [],
      (toKeyed mk t []).find? (fun e => e.1 == q.1) = some q := by
    intro q hq
    have h := find?_key_eq_some (fun e => e.1) (toKeyed mk t []) hnodup q hq
    exact h
  have hnc' : ∀ m' ∈ t.imarks,
      ((toKeyed mk t []).map (fun e => e.1)).contains (mstr mk m' ++ ".0") = false ∧
      ((toKeyed mk t []).map (fun e => e.1)).contains (mstr mk m' ++ ".1") = false := by
    rw [hmapfst]
    exact hnc
  have hchar := build_toKeyed mk (toKeyed mk t []) ((toKeyed mk t []).map (fun e => e.1))
    rfl t [] (t.size + 2) none ⟨0, [], [], [], []⟩
    (by omega) hent hnc' (by intro s _ hmem; exact absurd hmem (List.not_mem_nil s))
  have hroot_mem : "root" ∈ (toKeyed mk t []).map (fun e => e.1) := by
    rw [hmapfst, ← pathName_nil]
    cases t with
    | leaf p' => exact List.mem_singleton_self _
    | node m thr l r => exact List.mem_cons_self _ _
  have hcontains : ((toKeyed mk t []).map (fun e => e.1)).contains "root" = true :=
    List.elem_iff.mpr hroot_mem
  have hemp : (toKeyed mk t []).isEmpty = false := by
    cases t <;> rfl
  have hlen : (toKeyed mk t []).length = t.size := toKeyed_length mk t []
  rw [pathName_nil] at hchar
  dsimp only at hchar
  rw [keyed_strategy]
  simp only [hemp, Bool.false_eq_true, if_false, hcontains, if_true]
  rw [hlen, hchar]
  simp [parent_link]


/-- Observables of the keyed strategy on the keyed encoding: same leaf count
and internal pairs as the matrix strategy, but every leaf `cells` is `none`. -/
lemma keyed_strategy_obs (mk : List String) (t : GTree)
    (hm : ∀ m' ∈ t.imarks, 1 ≤ m' ∧ m' ≤ mk.length)
    (hnc : ∀ m' ∈ t.imarks,
      (t.keyNames []).contains (mstr mk m' ++ ".0") = false ∧
      (t.keyNames []).contains (mstr mk m' ++ ".1") = false) :
    ∃ out, keyed_strategy (.keyed (toKeyed mk t [])) mk = some out ∧
      out.1.length = t.size ∧
      (leafNodesOf out).length = t.lcount ∧
      leafCellsOf out = Multiset.replicate t.lcount (none : Option Int) ∧
      internalMarkersOf out = (t.markerStrs mk : Multiset (Option String)) ∧
      internalPairsOf out = (t.markerThrs mk : Multiset (Option String × Option ℚ)) := by
  refine ⟨((keyOutAux mk t [] 1).1.map (fun q => q.2), (keyOutAux mk t [] 1).2),
    keyed_strategy_run mk t hnc, ?_, ?_, ?_, ?_, ?_⟩
  · show ((keyOutAux mk t [] 1).1.map (fun q => q.2)).length = t.size
    rw [List.length_map]
    have hlen := congrArg List.length (keyOutAux_ids mk t [] 1)
    rw [List.length_map, List.length_range'] at hlen
    exact hlen
  all_goals
    have hnd : ((keyOutAux mk t [] 1).1.map (fun q => q.2.id)).Nodup := by
      rw [keyOutAux_ids mk t [] 1]
      exact List.nodup_range' _ _
    have hcorr := tag_correlation (keyOutAux mk t [] 1).2 (keyOutAux mk t [] 1).1
      hnd (keyOutAux_source_iff mk t [] 1)
    have hft := filter_by_tag (keyOutAux mk t [] 1).2 (keyOutAux mk t [] 1).1 hcorr
  · show (leafNodesOf _).length = t.lcount
    rw [leafNodesOf]
    dsimp only
    rw [hft.2, List.length_map]
    have h3 := congrArg List.length (keyOutAux_false_cells mk t [] 1)
    rw [List.length_map, List.length_replicate] at h3
    exact h3
  · show leafCellsOf _ = _
    rw [leafCellsOf, leafNodesOf]
    dsimp only
    rw [hft.2, List.map_map]
    have h3 : ((keyOutAux mk t [] 1).1.filter (fun q => !q.1)).map
        ((fun n => n.cells) ∘ (fun q => q.2)) =
        ((keyOutAux mk t [] 1).1.filter (fun q => !q.1)).map (fun q => q.2.cells) := rfl
    rw [h3, keyOutAux_false_cells]
    exact (Multiset.coe_replicate _ _).symm ▸ rfl
  · show internalMarkersOf _ = _
    rw [internalMarkersOf, internalNodesOf]
    dsimp only
    rw [hft.1, List.map_map]
    have h3 : ((keyOutAux mk t [] 1).1.filter (fun q => q.1)).map
        ((fun n => n.marker) ∘ (fun q => q.2)) =
        (((keyOutAux mk t [] 1).1.filter (fun q => q.1)).map
          (fun q => (q.2.marker, q.2.threshold))).map Prod.fst := by
      rw [List.map_map]
      rfl
    rw [h3, keyOutAux_true_pairs mk t [] 1 hm, GTree.markerThrs_map_fst]
  · show internalPairsOf _ = _
    rw [internalPairsOf, internalNodesOf]
    dsimp only
    rw [hft.1, List.map_map]
    have h3 : ((keyOutAux mk t [] 1).1.filter (fun q => q.1)).map
        ((fun n => (n.marker, n.threshold)) ∘ (fun q => q.2)) =
        ((keyOutAux mk t [] 1).1.filter (fun q => q.1)).map
          (fun q => (q.2.marker, q.2.threshold)) := rfl
    rw [h3, keyOutAux_true_pairs mk t [] 1 hm]

lemma length_le_sizes_sum (fr : List GTree) :
    fr.length ≤ (fr.map GTree.size).sum := by
  induction fr with
  | nil => exact le_refl _
  | cons t fr ih =>
      rw [List.length_cons, List.map_cons, List.sum_cons]
      have := GTree.size_pos t
      omega

lemma create_node_digit (lc : List Int) (st : TState) (p : Nat) (hp : 1 ≤ p) :
    create_node lc st (natToStr p) =
      ({ nextId := st.nextId + 1,
         nodes := st.nodes ++
           [{ id := st.nextId + 1, name := "Pop_" ++ toString p,
              marker := some ("Pop_" ++ toString p),
              cells := if p ≤ lc.length then rIndexInt lc (p : Int) else none,
              threshold := none }],
         links := st.links }, st.nextId + 1, false) := by
  rw [create_node]
  simp only [is_leaf_label_natToStr p hp, if_true, strDigitsToNat_natToStr]

lemma create_node_internal (lc : List Int) (st : TState) (s : String)
    (hs : is_leaf_label s = false) :
    create_node lc st s =
      ({ nextId := st.nextId + 1,
         nodes := st.nodes ++
           [{ id := st.nextId + 1, name := s, marker := some (marker_from_label s),
              cells := none, threshold := none }],
         links := st.links }, st.nextId + 1, true) := by
  rw [create_node]
  simp only [hs, Bool.false_eq_true, if_false]

/-- Uniform version: `create_node` on the label of a child `c`. -/
lemma create_node_child (lc : List Int) (mk : List String) (st : TState) (c : GTree)
    (hp : ∀ p' ∈ c.pops, 1 ≤ p')
    (hlab : ∀ m' ∈ c.imarks, is_leaf_label (mstr mk m') = false) :
    create_node lc st (GTree.label mk c) =
      ({ nextId := st.nextId + 1,
         nodes := st.nodes ++ [(levChildNode lc mk (st.nextId + 1) c).2],
         links := st.links }, st.nextId + 1, c.isNodeB) := by
  cases c with
  | leaf p =>
      have h := create_node_digit lc st p (hp p (List.mem_singleton_self _))
      rw [GTree.label, h]
      rfl
  | node m thr l r =>
      have h := create_node_internal lc st (mstr mk m)
        (hlab m (List.mem_cons_self _ _))
      rw [GTree.label, h]
      rfl

/-- `consume_level` on the labels of the frontier's children computes exactly
`levLevel`. -/
lemma consume_level_run (lc : List Int) (mk : List String) :
    ∀ (ps : List (Nat × GTree)) (st : TState),
      (∀ q ∈ ps, q.2.isNodeB = true) →
      (∀ q ∈ ps, (∀ p' ∈ q.2.pops, 1 ≤ p') ∧
        (∀ m' ∈ q.2.imarks, is_leaf_label (mstr mk m') = false)) →
      consume_level lc st (ps.map (fun q => q.1))
          ((ps.flatMap (fun q => GTree.childrenOf q.2)).map (GTree.label mk)) =
        ({ nextId := st.nextId + 2 * ps.length,
           nodes := st.nodes ++ (levLevel lc mk ps (st.nextId + 1)).1.map (fun q => q.2),
           links := st.links ++ (levLevel lc mk ps (st.nextId + 1)).2.1 },
         (levLevel lc mk ps (st.nextId + 1)).2.2.map (fun q => q.1)) := by
  intro ps
  induction ps with
  | nil =>
      intro st _ _
      rw [List.map_nil, List.flatMap_nil, List.map_nil, consume_level, levLevel]
      simp
  | cons q rest ih =>
      intro st hint hyp
      obtain ⟨pid, t⟩ := q
      have hq := hint _ (List.mem_cons_self _ _)
      cases t with
      | leaf p' => exact absurd hq (by rw [GTree.isNodeB]; exact Bool.false_ne_true)
      | node m thr l u =>
          rw [List.map_cons]
          rw [show ((((pid, GTree.node m thr l u) :: rest).flatMap
              (fun q => GTree.childrenOf q.2)).map (GTree.label mk)) =
            GTree.label mk l :: GTree.label mk u ::
              ((rest.flatMap (fun q => GTree.childrenOf q.2)).map (GTree.label mk)) by
            rw [List.flatMap_cons]
            rfl]
          rw [consume_level]
          have hps := hyp _ (List.mem_cons_self _ _)
          have hpl : ∀ p' ∈ l.pops, 1 ≤ p' := fun p' hp' => hps.1 p' (by
            show p' ∈ (GTree.node m thr l u).pops
            rw [GTree.pops]
            exact List.mem_append_left _ hp')
          have hpu : ∀ p' ∈ u.pops, 1 ≤ p' := fun p' hp' => hps.1 p' (by
            show p' ∈ (GTree.node m thr l u).pops
            rw [GTree.pops]
            exact List.mem_append_right _ hp')
          have hll : ∀ m' ∈ l.imarks, is_leaf_label (mstr mk m') = false :=
            fun m' hm' => hps.2 m' (by
              show m' ∈ (GTree.node m thr l u).imarks
              rw [GTree.imarks]
              exact List.mem_cons_of_mem _ (List.mem_append_left _ hm'))
          have hlu : ∀ m' ∈ u.imarks, is_leaf_label (mstr mk m') = false :=
            fun m' hm' => hps.2 m' (by
              show m' ∈ (GTree.node m thr l u).imarks
              rw [GTree.imarks]
              exact List.mem_cons_of_mem _ (List.mem_append_right _ hm'))
          rw [create_node_child lc mk st l hpl hll]
          dsimp only
          rw [create_node_child lc mk _ u hpu hlu]
          dsimp only
          have hihr := ih
            { nextId := st.nextId + 1 + 1,
              nodes := (st.nodes ++ [(levChildNode lc mk (st.nextId + 1) l).2]) ++
                [(levChildNode lc mk (st.nextId + 1 + 1) u).2],
              links := (st.links ++ [⟨pid, st.nextId + 1⟩]) ++ [⟨pid, st.nextId + 1 + 1⟩] }
            (fun x hx => hint x (List.mem_cons_of_mem _ hx))
            (fun x hx => hyp x (List.mem_cons_of_mem _ hx))
          dsimp only at hihr
          rw [hihr]
          rw [levLevel]
          dsimp only
          simp only [Prod.mk.injEq, TState.mk.injEq]
          refine ⟨⟨by rw [List.length_cons]; omega, ?_, ?_⟩, ?_⟩
          · have ha : st.nextId + 1 + 1 + 1 = st.nextId + 1 + 2 := by omega
            rw [ha]
            simp
          · have ha : st.nextId + 1 + 1 + 1 = st.nextId + 1 + 2 := by omega
            rw [ha]
            simp
          · have ha : st.nextId + 1 + 1 + 1 = st.nextId + 1 + 2 := by omega
            rw [ha]
            simp only [List.map_append, List.map_cons]
            cases hbl : l.isNodeB <;> cases hbu : u.isNodeB <;> simp

lemma levDesc_append (a b : List (Nat × GTree)) :
    levDesc (a ++ b) = levDesc a + levDesc b := by
  induction a with
  | nil => simp [levDesc]
  | cons q rest ih =>
      obtain ⟨x, t⟩ := q
      rw [List.cons_append, levDesc, levDesc, ih]
      omega

lemma levLevel_fr_internal (lc : List Int) (mk : List String) :
    ∀ (ps : List (Nat × GTree)) (cid : Nat),
      ∀ q' ∈ (levLevel lc mk ps cid).2.2, q'.2.isNodeB = true := by
  intro ps
  induction ps with
  | nil => intro cid q' hq'; rw [levLevel] at hq'; exact absurd hq' (List.not_mem_nil _)
  | cons q rest ih =>
      intro cid q' hq'
      obtain ⟨pid, t⟩ := q
      cases t with
      | leaf p => rw [levLevel] at hq'; exact absurd hq' (List.not_mem_nil _)
      | node m thr l u =>
          rw [levLevel] at hq'
          dsimp only at hq'
          rcases List.mem_append.mp hq' with h | h
          · rcases List.mem_append.mp h with h' | h'
            · cases hbl : l.isNodeB with
              | true =>
                  rw [hbl] at h'
                  simp only [if_true] at h'
                  rw [List.mem_singleton.mp h']
                  exact hbl
              | false => rw [hbl] at h'; simp at h'
            · cases hbu : u.isNodeB with
              | true =>
                  rw [hbu] at h'
                  simp only [if_true] at h'
                  rw [List.mem_singleton.mp h']
                  exact hbu
              | false => rw [hbu] at h'; simp at h'
          · exact ih (cid + 2) q' h

lemma levLevel_fr_trees (lc : List Int) (mk : List String) :
    ∀ (ps : List (Nat × GTree)) (cid : Nat),
      (∀ q ∈ ps, q.2.isNodeB = true) →
      (levLevel lc mk ps cid).2.2.map (fun q => q.2) =
        (ps.flatMap (fun q => GTree.childrenOf q.2)).filter GTree.isNodeB := by
  intro ps
  induction ps with
  | nil => intro cid _; rfl
  | cons q rest ih =>
      intro cid hint
      obtain ⟨pid, t⟩ := q
      have hq := hint _ (List.mem_cons_self _ _)
      cases t with
      | leaf p => exact absurd hq (by rw [GTree.isNodeB]; exact Bool.false_ne_true)
      | node m thr l u =>
          rw [levLevel, List.flatMap_cons]
          dsimp only
          rw [show GTree.childrenOf (.node m thr l u) = [l, u] from rfl]
          rw [List.map_append, List.map_append,
            ih (cid + 2) (fun x hx => hint x (List.mem_cons_of_mem _ hx))]
          rw [List.filter_append]
          congr 1
          cases hbl : l.isNodeB <;> cases hbu : u.isNodeB <;>
            simp [List.filter_cons, hbl, hbu]


lemma flatMap_children_filter : ∀ (fr : List GTree),
    (fr.filter GTree.isNodeB).flatMap GTree.childrenOf = fr.flatMap GTree.childrenOf := by
  intro fr
  induction fr with
  | nil => rfl
  | cons t rest ih =>
      rw [List.flatMap_cons, List.filter_cons]
      cases t with
      | leaf p =>
          rw [show GTree.isNodeB (.leaf p) = false from rfl]
          simp only [Bool.false_eq_true, if_false]
          rw [ih]
          rw [show GTree.childrenOf (.leaf p) = [] from rfl, List.nil_append]
      | node m thr l u =>
          rw [show GTree.isNodeB (.node m thr l u) = true from rfl]
          simp only [if_true]
          rw [List.flatMap_cons, ih]

lemma levDesc_step (lc : List Int) (mk : List String) :
    ∀ (ps : List (Nat × GTree)) (cid : Nat),
      (∀ q ∈ ps, q.2.isNodeB = true) →
      levDesc ps = 2 * ps.length + levDesc (levLevel lc mk ps cid).2.2 := by
  intro ps
  induction ps with
  | nil => intro cid _; rw [levLevel]; rfl
  | cons q rest ih =>
      intro cid hint
      obtain ⟨pid, t⟩ := q
      have hq := hint _ (List.mem_cons_self _ _)
      cases t with
      | leaf p => exact absurd hq (by rw [GTree.isNodeB]; exact Bool.false_ne_true)
      | node m thr l u =>
          rw [levLevel]
          dsimp only
          rw [levDesc, levDesc_append, levDesc_append]
          rw [ih (cid + 2) (fun x hx => hint x (List.mem_cons_of_mem _ hx))]
          rw [List.length_cons]
          have hsl := GTree.size_pos l
          have hsu := GTree.size_pos u
          have hst : GTree.size (.node m thr l u) = 1 + l.size + u.size := rfl
          rw [hst]
          have hdl : levDesc (if l.isNodeB then [(cid, l)] else []) +
              (if l.isNodeB then 0 else l.size - 1) = l.size - 1 := by
            cases hbl : l.isNodeB with
            | true => simp [levDesc]
            | false =>
                cases l with
                | leaf p' => simp [levDesc, GTree.size]
                | node m' thr' l' u' => rw [GTree.isNodeB] at hbl; exact absurd hbl (by simp)
          have hdu : levDesc (if u.isNodeB then [(cid + 1, u)] else []) +
              (if u.isNodeB then 0 else u.size - 1) = u.size - 1 := by
            cases hbu : u.isNodeB with
            | true => simp [levDesc]
            | false =>
                cases u with
                | leaf p' => simp [levDesc, GTree.size]
                | node m' thr' l' u' => rw [GTree.isNodeB] at hbu; exact absurd hbu (by simp)
          have hl0 : (if l.isNodeB then 0 else l.size - 1) = 0 := by
            cases hbl : l.isNodeB with
            | true => rfl
            | false =>
                cases l with
                | leaf p' => simp [GTree.size]
                | node m' thr' l' u' => rw [GTree.isNodeB] at hbl; exact absurd hbl (by simp)
          have hu0 : (if u.isNodeB then 0 else u.size - 1) = 0 := by
            cases hbu : u.isNodeB with
            | true => rfl
            | false =>
                cases u with
                | leaf p' => simp [GTree.size]
                | node m' thr' l' u' => rw [GTree.isNodeB] at hbu; exact absurd hbu (by simp)
          rw [hl0] at hdl
          rw [hu0] at hdu
          omega

lemma childrenOf_pops (t c : GTree) (hc : c ∈ t.childrenOf) :
    ∀ x ∈ c.pops, x ∈ t.pops := by
  cases t with
  | leaf p => exact absurd hc (List.not_mem_nil _)
  | node m thr l u =>
      intro x hx
      rw [show GTree.childrenOf (.node m thr l u) = [l, u] from rfl] at hc
      rw [show GTree.pops (.node m thr l u) = l.pops ++ u.pops from rfl]
      rcases List.mem_cons.mp hc with rfl | hc'
      · exact List.mem_append_left _ hx
      · rw [List.mem_singleton.mp hc'] at hx
        exact List.mem_append_right _ hx

lemma childrenOf_imarks (t c : GTree) (hc : c ∈ t.childrenOf) :
    ∀ x ∈ c.imarks, x ∈ t.imarks := by
  cases t with
  | leaf p => exact absurd hc (List.not_mem_nil _)
  | node m thr l u =>
      intro x hx
      rw [show GTree.childrenOf (.node m thr l u) = [l, u] from rfl] at hc
      rw [show GTree.imarks (.node m thr l u) = m :: (l.imarks ++ u.imarks) from rfl]
      rcases List.mem_cons.mp hc with rfl | hc'
      · exact List.mem_cons_of_mem _ (List.mem_append_left _ hx)
      · rw [List.mem_singleton.mp hc'] at hx
        exact List.mem_cons_of_mem _ (List.mem_append_right _ hx)


/-- The level loop on the level-list encoding computes exactly `levAll`. -/
lemma levels_loop_run (lc : List Int) (mk : List String) :
    ∀ (n : Nat) (ps : List (Nat × GTree)) (st : TState),
      (ps.map (fun q => GTree.size q.2)).sum ≤ n →
      ps ≠ [] →
      (∀ q ∈ ps, q.2.isNodeB = true) →
      (∀ q ∈ ps, (∀ p' ∈ q.2.pops, 1 ≤ p') ∧
        (∀ m' ∈ q.2.imarks, is_leaf_label (mstr mk m') = false)) →
      levels_loop lc st (ps.map (fun q => q.1))
          (frontierLevels mk (ps.flatMap (fun q => GTree.childrenOf q.2))) =
        { nextId := st.nextId + levDesc ps,
          nodes := st.nodes ++ (levAll lc mk ps (st.nextId + 1)).1.map (fun q => q.2),
          links := st.links ++ (levAll lc mk ps (st.nextId + 1)).2 } := by
  intro n
  induction n with
  | zero =>
      intro ps st hn hne hint hyp
      exfalso
      have h1 := plength_le_psum ps
      have h2 : 1 ≤ ps.length := List.length_pos.mpr hne
      omega
  | succ n ih =>
      intro ps st hn hne hint hyp
      obtain ⟨q, rest, rfl⟩ : ∃ q rest, ps = q :: rest := by
        cases ps with
        | nil => exact absurd rfl hne
        | cons a b => exact ⟨a, b, rfl⟩
      obtain ⟨pid, t⟩ := q
      have hq := hint _ (List.mem_cons_self _ _)
      cases t with
      | leaf p0 => exact absurd hq (by rw [GTree.isNodeB]; exact Bool.false_ne_true)
      | node m thr l u =>
          have hfr : ((pid, GTree.node m thr l u) :: rest).flatMap
              (fun q => GTree.childrenOf q.2) =
              l :: u :: rest.flatMap (fun q => GTree.childrenOf q.2) := by
            rw [List.flatMap_cons]
            rfl
          rw [hfr, frontierLevels]
          rw [show (l :: u :: rest.flatMap (fun q => GTree.childrenOf q.2)).isEmpty =
            false from rfl]
          simp only [Bool.false_eq_true, if_false]
          rw [levels_loop]
          rw [show ((l :: u :: rest.flatMap (fun q => GTree.childrenOf q.2)).map
            (GTree.label mk)).isEmpty = false from rfl]
          simp only [Bool.false_eq_true, if_false]
          have hcons := consume_level_run lc mk ((pid, GTree.node m thr l u) :: rest)
            st hint hyp
          rw [hfr] at hcons
          simp only [hcons]
          have hAll : levAll lc mk ((pid, GTree.node m thr l u) :: rest) (st.nextId + 1) =
              ((levLevel lc mk ((pid, GTree.node m thr l u) :: rest) (st.nextId + 1)).1 ++
                 (levAll lc mk
                   (levLevel lc mk ((pid, GTree.node m thr l u) :: rest) (st.nextId + 1)).2.2
                   (st.nextId + 1 + 2 * ((pid, GTree.node m thr l u) :: rest).length)).1,
               (levLevel lc mk ((pid, GTree.node m thr l u) :: rest) (st.nextId + 1)).2.1 ++
                 (levAll lc mk
                   (levLevel lc mk ((pid, GTree.node m thr l u) :: rest) (st.nextId + 1)).2.2
                   (st.nextId + 1 + 2 * ((pid, GTree.node m thr l u) :: rest).length)).2) := by
            rw [levAll]
            rfl
          have hdesc := levDesc_step lc mk ((pid, GTree.node m thr l u) :: rest)
            (st.nextId + 1) hint
          rcases hfr' : (levLevel lc mk ((pid, GTree.node m thr l u) :: rest)
              (st.nextId + 1)).2.2 with _ | ⟨q', fr'rest⟩
          · simp only [hfr', List.map_nil, List.isEmpty_nil, if_true]
            rw [hfr'] at hAll hdesc
            have hnilAll : levAll lc mk []
                (st.nextId + 1 + 2 * ((pid, GTree.node m thr l u) :: rest).length) =
                ([], []) := by
              rw [levAll]
              rfl
            rw [hnilAll] at hAll
            rw [hAll]
            simp only [TState.mk.injEq]
            refine ⟨by rw [hdesc]; simp [levDesc], by simp, by simp⟩
          · rw [show ((q' :: fr'rest).map (fun q => q.1)).isEmpty = false from rfl]
            simp only [Bool.false_eq_true, if_false]
            rw [← hfr']
            have hne' : (levLevel lc mk ((pid, GTree.node m thr l u) :: rest)
                (st.nextId + 1)).2.2 ≠ [] := by
              rw [hfr']
              exact List.cons_ne_nil _ _
            have hint' : ∀ x ∈ (levLevel lc mk ((pid, GTree.node m thr l u) :: rest)
                (st.nextId + 1)).2.2, x.2.isNodeB = true :=
              levLevel_fr_internal lc mk _ _
            have htrees := levLevel_fr_trees lc mk
              ((pid, GTree.node m thr l u) :: rest) (st.nextId + 1) hint
            have heq : ((levLevel lc mk ((pid, GTree.node m thr l u) :: rest)
                (st.nextId + 1)).2.2).flatMap (fun q => GTree.childrenOf q.2) =
                (l :: u :: rest.flatMap (fun q => GTree.childrenOf q.2)).flatMap
                  GTree.childrenOf := by
              have h1 : ((levLevel lc mk ((pid, GTree.node m thr l u) :: rest)
                  (st.nextId + 1)).2.2).flatMap (fun q => GTree.childrenOf q.2) =
                  (((levLevel lc mk ((pid, GTree.node m thr l u) :: rest)
                    (st.nextId + 1)).2.2).map (fun q => q.2)).flatMap GTree.childrenOf := by
                rw [List.flatMap_map]
              rw [h1, htrees, flatMap_children_filter, hfr]
            rw [← heq]
            have hsz : (((levLevel lc mk ((pid, GTree.node m thr l u) :: rest)
                (st.nextId + 1)).2.2).map (fun q => GTree.size q.2)).sum ≤ n := by
              have h1 := levLevel_fr_sizes lc mk
                ((pid, GTree.node m thr l u) :: rest) (st.nextId + 1)
              rw [List.length_cons] at h1
              have h2 : (List.map (fun q => GTree.size q.2)
                  ((pid, GTree.node m thr l u) :: rest)).sum =
                  GTree.size (.node m thr l u) +
                  (List.map (fun q => GTree.size q.2) rest).sum := by
                rw [List.map_cons, List.sum_cons]
              have hs3 : 1 ≤ GTree.size (.node m thr l u) := GTree.size_pos _
              omega
            have hhyp' : ∀ x ∈ (levLevel lc mk ((pid, GTree.node m thr l u) :: rest)
                (st.nextId + 1)).2.2, (∀ p' ∈ x.2.pops, 1 ≤ p') ∧
                (∀ m' ∈ x.2.imarks, is_leaf_label (mstr mk m') = false) := by
              intro x hx
              have hx2 : x.2 ∈ ((levLevel lc mk ((pid, GTree.node m thr l u) :: rest)
                  (st.nextId + 1)).2.2).map (fun q => q.2) := List.mem_map_of_mem _ hx
              rw [htrees] at hx2
              have hx3 := (List.mem_filter.mp hx2).1
              obtain ⟨par, hpar, hchild⟩ := List.mem_flatMap.mp hx3
              have hpp := hyp par hpar
              exact ⟨fun p' hp' => hpp.1 p' (childrenOf_pops _ _ hchild p' hp'),
                fun m' hm' => hpp.2 m' (childrenOf_imarks _ _ hchild m' hm')⟩
            have hrec := ih ((levLevel lc mk ((pid, GTree.node m thr l u) :: rest)
                (st.nextId + 1)).2.2)
              { nextId := st.nextId +
                  2 * ((pid, GTree.node m thr l u) :: rest).length,
                nodes := st.nodes ++
                  ((levLevel lc mk ((pid, GTree.node m thr l u) :: rest)
                    (st.nextId + 1)).1.map (fun q => q.2)),
                links := st.links ++
                  (levLevel lc mk ((pid, GTree.node m thr l u) :: rest)
                    (st.nextId + 1)).2.1 }
              hsz hne' hint' hhyp'
            dsimp only at hrec
            rw [hrec]
            have hc1 : st.nextId + 2 * ((pid, GTree.node m thr l u) :: rest).length + 1 =
                st.nextId + 1 + 2 * ((pid, GTree.node m thr l u) :: rest).length := by
              omega
            rw [hc1, hAll]
            simp only [TState.mk.injEq]
            refine ⟨by rw [hdesc]; omega, by simp, by simp⟩


/-- Full level-list run: the strategy on the level encoding succeeds and
returns the root node followed by `levAll`'s nodes. -/
lemma level_strategy_run (lc : List Int) (mk : List String) (m : Nat) (thr : ℚ)
    (l u : GTree)
    (hp : ∀ p' ∈ (GTree.node m thr l u).pops, 1 ≤ p')
    (hlab : ∀ m' ∈ (GTree.node m thr l u).imarks, is_leaf_label (mstr mk m') = false) :
    level_strategy (.levels (frontierLevels mk [GTree.node m thr l u])) lc =
      some ((levChildNode lc mk 1 (GTree.node m thr l u)).2 ::
              (levAll lc mk [(1, GTree.node m thr l u)] 2).1.map (fun q => q.2),
            (levAll lc mk [(1, GTree.node m thr l u)] 2).2) := by
  have hfl : first_level_nodes lc ⟨0, [], []⟩ [GTree.label mk (.node m thr l u)] =
      ({ nextId := 1, nodes := [(levChildNode lc mk 1 (GTree.node m thr l u)).2],
         links := [] }, [1]) := by
    rw [first_level_nodes]
    rw [create_node_child lc mk ⟨0, [], []⟩ (.node m thr l u) hp hlab]
    dsimp only
    rw [first_level_nodes]
    rfl
  have hloop := levels_loop_run lc mk
    (([(1, GTree.node m thr l u)].map (fun q => GTree.size q.2)).sum)
    [(1, GTree.node m thr l u)]
    { nextId := 1, nodes := [(levChildNode lc mk 1 (GTree.node m thr l u)).2],
      links := [] }
    (le_refl _) (List.cons_ne_nil _ _)
    (by
      intro q hq
      rw [List.mem_singleton.mp hq]
      rfl)
    (by
      intro q hq
      rw [List.mem_singleton.mp hq]
      exact ⟨hp, hlab⟩)
  dsimp only at hloop
  rw [frontierLevels]
  rw [show ([GTree.node m thr l u] : List GTree).isEmpty = false from rfl]
  simp only [Bool.false_eq_true, if_false]
  rw [level_strategy]
  rw [show levelsView (.levels (([GTree.node m thr l u].map (GTree.label mk)) ::
      frontierLevels mk ([GTree.node m thr l u].flatMap GTree.childrenOf))) =
    (([GTree.node m thr l u].map (GTree.label mk)) ::
      frontierLevels mk ([GTree.node m thr l u].flatMap GTree.childrenOf)) from rfl]
  rw [build_tree_from_mark_tree_levels]
  rw [show ([GTree.node m thr l u].map (GTree.label mk)) =
    [GTree.label mk (.node m thr l u)] from rfl]
  rw [hfl]
  dsimp only
  rw [show (([1] : List Nat).isEmpty) = false from rfl]
  simp only [Bool.false_eq_true, if_false]
  have hch : ([GTree.node m thr l u] : List GTree).flatMap GTree.childrenOf =
      l :: u :: ([] : List GTree) := by
    rw [List.flatMap_cons]
    rfl
  rw [hch, frontierLevels]
  rw [show ((l :: u :: ([] : List GTree)).isEmpty) = false from rfl]
  simp only [Bool.false_eq_true, if_false]
  have hflat : ([(1, GTree.node m thr l u)] : List (Nat × GTree)).flatMap
      (fun q => GTree.childrenOf q.2) = l :: u :: ([] : List GTree) := by
    rw [List.flatMap_cons]
    rfl
  rw [hflat, frontierLevels] at hloop
  rw [show ((l :: u :: ([] : List GTree)).isEmpty) = false from rfl] at hloop
  simp only [Bool.false_eq_true, if_false] at hloop
  rw [show ([(1, GTree.node m thr l u)] : List (Nat × GTree)).map (fun q => q.1) =
    [1] from rfl] at hloop
  rw [hloop]
  simp

lemma GTree.pops_length (t : GTree) : t.pops.length = t.lcount := by
  induction t with
  | leaf p => rfl
  | node m thr l u ihl ihu =>
      rw [GTree.pops, GTree.lcount, List.length_append, ihl, ihu]

lemma levLevel_ids (lc : List Int) (mk : List String) :
    ∀ (ps : List (Nat × GTree)) (cid : Nat),
      (∀ q ∈ ps, q.2.isNodeB = true) →
      (levLevel lc mk ps cid).1.map (fun q => q.2.id) =
        List.range' cid (2 * ps.length) := by
  intro ps
  induction ps with
  | nil => intro cid _; rw [levLevel]; rfl
  | cons q rest ih =>
      intro cid hint
      obtain ⟨pid, t⟩ := q
      have hq := hint _ (List.mem_cons_self _ _)
      cases t with
      | leaf p => exact absurd hq (by rw [GTree.isNodeB]; exact Bool.false_ne_true)
      | node m thr l u =>
          rw [levLevel]
          dsimp only
          rw [List.map_cons, List.map_cons,
            ih (cid + 2) (fun x hx => hint x (List.mem_cons_of_mem _ hx))]
          have hid1 : (levChildNode lc mk cid l).2.id = cid := by
            cases l <;> rfl
          have hid2 : (levChildNode lc mk (cid + 1) u).2.id = cid + 1 := by
            cases u <;> rfl
          rw [hid1, hid2, List.length_cons]
          have h2 : 2 * (rest.length + 1) = Nat.succ (Nat.succ (2 * rest.length)) := by
            omega
          rw [h2, List.range'_succ, List.range'_succ]

lemma levLevel_source (lc : List Int) (mk : List String) :
    ∀ (ps : List (Nat × GTree)) (cid : Nat) (i : Nat),
      (∀ q ∈ ps, q.2.isNodeB = true) →
      (isSourceIn (levLevel lc mk ps cid).2.1 i = true ↔
        i ∈ ps.map (fun q => q.1)) := by
  intro ps
  induction ps with
  | nil => intro cid i _; rw [levLevel]; simp [isSourceIn]
  | cons q rest ih =>
      intro cid i hint
      obtain ⟨pid, t⟩ := q
      have hq := hint _ (List.mem_cons_self _ _)
      cases t with
      | leaf p => exact absurd hq (by rw [GTree.isNodeB]; exact Bool.false_ne_true)
      | node m thr l u =>
          rw [levLevel]
          dsimp only
          rw [isSourceIn]
          simp only [List.any_cons, Bool.or_eq_true, beq_iff_eq]
          rw [show (levLevel lc mk rest (cid + 2)).2.1.any (fun lk => lk.source == i) =
            isSourceIn (levLevel lc mk rest (cid + 2)).2.1 i from rfl]
          rw [ih (cid + 2) i (fun x hx => hint x (List.mem_cons_of_mem _ hx))]
          rw [List.map_cons, List.mem_cons]
          constructor
          · intro h
            have ha : pid = i ∨ i ∈ List.map (fun q => q.1) rest := by tauto
            rcases ha with h' | h'
            · exact Or.inl h'.symm
            · exact Or.inr h'
          · intro h
            rcases h with h' | h'
            · have hpi : pid = i := h'.symm
              tauto
            · tauto

lemma levLevel_trueIds (lc : List Int) (mk : List String) :
    ∀ (ps : List (Nat × GTree)) (cid : Nat),
      ((levLevel lc mk ps cid).1.filter (fun q => q.1)).map (fun q => q.2.id) =
        (levLevel lc mk ps cid).2.2.map (fun q => q.1) := by
  intro ps
  induction ps with
  | nil => intro cid; rw [levLevel]; rfl
  | cons q rest ih =>
      intro cid
      obtain ⟨pid, t⟩ := q
      cases t with
      | leaf p => rw [levLevel]; rfl
      | node m thr l u =>
          rw [levLevel]
          dsimp only
          rw [List.filter_cons, List.filter_cons]
          rw [List.map_append, List.map_append]
          cases l <;> cases u <;>
            simp [levChildNode, GTree.isNodeB, ih (cid + 2)]


lemma levAll_nil (lc : List Int) (mk : List String) (cid : Nat) :
    levAll lc mk [] cid = ([], []) := by
  rw [levAll]
  rfl

lemma levAll_unfold (lc : List Int) (mk : List String) (ps : List (Nat × GTree))
    (cid : Nat) (hne : ps ≠ []) :
    levAll lc mk ps cid =
      ((levLevel lc mk ps cid).1 ++
         (levAll lc mk (levLevel lc mk ps cid).2.2 (cid + 2 * ps.length)).1,
       (levLevel lc mk ps cid).2.1 ++
         (levAll lc mk (levLevel lc mk ps cid).2.2 (cid + 2 * ps.length)).2) := by
  have hemp : ps.isEmpty = false := by
    cases ps with
    | nil => exact absurd rfl hne
    | cons a b => rfl
  rw [levAll, hemp]
  rfl

lemma levAll_fr_bound (lc : List Int) (mk : List String) (q : Nat × GTree)
    (rest : List (Nat × GTree)) (cid : Nat) (n : Nat)
    (hn : (((q :: rest).map (fun x => GTree.size x.2)).sum) ≤ n + 1) :
    (((levLevel lc mk (q :: rest) cid).2.2).map (fun x => GTree.size x.2)).sum ≤ n := by
  have h1 := levLevel_fr_sizes lc mk (q :: rest) cid
  rw [List.length_cons] at h1
  omega

lemma levAll_ids (lc : List Int) (mk : List String) :
    ∀ (n : Nat) (ps : List (Nat × GTree)) (cid : Nat),
      ((ps.map (fun q => GTree.size q.2)).sum) ≤ n →
      (∀ q ∈ ps, q.2.isNodeB = true) →
      (levAll lc mk ps cid).1.map (fun q => q.2.id) = List.range' cid (levDesc ps) := by
  intro n
  induction n with
  | zero =>
      intro ps cid hn hint
      cases ps with
      | nil => rw [levAll_nil]; rfl
      | cons q rest =>
          exfalso
          have h1 := plength_le_psum (q :: rest)
          rw [List.length_cons] at h1
          omega
  | succ n ih =>
      intro ps cid hn hint
      cases ps with
      | nil => rw [levAll_nil]; rfl
      | cons q rest =>
          rw [levAll_unfold lc mk _ _ (List.cons_ne_nil _ _)]
          dsimp only
          rw [List.map_append, levLevel_ids lc mk _ _ hint]
          rw [ih _ _ (levAll_fr_bound lc mk q rest cid n hn)
            (levLevel_fr_internal lc mk _ _)]
          rw [show cid + 2 * (q :: rest).length = cid + 2 * (q :: rest).length from rfl]
          rw [range'_glue]
          rw [← levDesc_step lc mk (q :: rest) cid hint]


lemma levAll_source_iff (lc : List Int) (mk : List String) :
    ∀ (n : Nat) (ps : List (Nat × GTree)) (cid : Nat) (i : Nat),
      ((ps.map (fun q => GTree.size q.2)).sum) ≤ n →
      (∀ q ∈ ps, q.2.isNodeB = true) →
      (isSourceIn (levAll lc mk ps cid).2 i = true ↔
        (i ∈ ps.map (fun q => q.1) ∨
          i ∈ ((levAll lc mk ps cid).1.filter (fun q => q.1)).map (fun q => q.2.id))) := by
  intro n
  induction n with
  | zero =>
      intro ps cid i hn hint
      cases ps with
      | nil => rw [levAll_nil]; simp [isSourceIn]
      | cons q rest =>
          exfalso
          have h1 := plength_le_psum (q :: rest)
          rw [List.length_cons] at h1
          omega
  | succ n ih =>
      intro ps cid i hn hint
      cases ps with
      | nil => rw [levAll_nil]; simp [isSourceIn]
      | cons q rest =>
          rw [levAll_unfold lc mk _ _ (List.cons_ne_nil _ _)]
          dsimp only
          rw [isSourceIn, List.any_append]
          rw [show ((levLevel lc mk (q :: rest) cid).2.1.any (fun lk => lk.source == i)) =
            isSourceIn (levLevel lc mk (q :: rest) cid).2.1 i from rfl]
          rw [show ((levAll lc mk (levLevel lc mk (q :: rest) cid).2.2
              (cid + 2 * (q :: rest).length)).2.any (fun lk => lk.source == i)) =
            isSourceIn (levAll lc mk (levLevel lc mk (q :: rest) cid).2.2
              (cid + 2 * (q :: rest).length)).2 i from rfl]
          rw [List.filter_append, List.map_append]
          have h1 := levLevel_source lc mk (q :: rest) cid i hint
          have h2 := ih _ (cid + 2 * (q :: rest).length) i
            (levAll_fr_bound lc mk q rest cid n hn)
            (levLevel_fr_internal lc mk _ _)
          have h3 := levLevel_trueIds lc mk (q :: rest) cid
          rw [Bool.or_eq_true, h1, h2, List.mem_append]
          rw [h3]


lemma levLevel_false_cells (lc : List Int) (mk : List String) :
    ∀ (ps : List (Nat × GTree)) (cid : Nat),
      (∀ q ∈ ps, q.2.isNodeB = true) →
      ((levLevel lc mk ps cid).1.filter (fun q => !q.1)).map (fun q => q.2.cells) =
        (ps.flatMap (fun q => GTree.leafKids q.2)).map
          (fun p => if p ≤ lc.length then rIndexInt lc (p : Int) else none) := by
  intro ps
  induction ps with
  | nil => intro cid _; rw [levLevel]; rfl
  | cons q rest ih =>
      intro cid hint
      obtain ⟨pid, t⟩ := q
      have hq := hint _ (List.mem_cons_self _ _)
      cases t with
      | leaf p => exact absurd hq (by rw [GTree.isNodeB]; exact Bool.false_ne_true)
      | node m thr l u =>
          rw [levLevel, List.flatMap_cons]
          dsimp only
          have ihr := ih (cid + 2) (fun x hx => hint x (List.mem_cons_of_mem _ hx))
          cases l <;> cases u <;>
            simp [levChildNode, GTree.leafKids, kidPop, ihr]

lemma levLevel_true_pairs (lc : List Int) (mk : List String) :
    ∀ (ps : List (Nat × GTree)) (cid : Nat),
      (∀ q ∈ ps, q.2.isNodeB = true) →
      ((levLevel lc mk ps cid).1.filter (fun q => q.1)).map
          (fun q => (q.2.marker, q.2.threshold)) =
        (ps.flatMap (fun q => GTree.intKidMarks q.2)).map
          (fun m' => (some (marker_from_label (mstr mk m')), (none : Option ℚ))) := by
  intro ps
  induction ps with
  | nil => intro cid _; rw [levLevel]; rfl
  | cons q rest ih =>
      intro cid hint
      obtain ⟨pid, t⟩ := q
      have hq := hint _ (List.mem_cons_self _ _)
      cases t with
      | leaf p => exact absurd hq (by rw [GTree.isNodeB]; exact Bool.false_ne_true)
      | node m thr l u =>
          rw [levLevel, List.flatMap_cons]
          dsimp only
          have ihr := ih (cid + 2) (fun x hx => hint x (List.mem_cons_of_mem _ hx))
          cases l <;> cases u <;>
            simp [levChildNode, GTree.intKidMarks, kidMark, ihr]

lemma pops_split (ps : List (Nat × GTree))
    (hint : ∀ q ∈ ps, q.2.isNodeB = true) :
    (↑(ps.flatMap (fun q => GTree.pops q.2)) : Multiset Nat) =
      ↑(ps.flatMap (fun q => GTree.leafKids q.2)) +
      ↑(((ps.flatMap (fun q => GTree.childrenOf q.2)).filter GTree.isNodeB).flatMap
        GTree.pops) := by
  induction ps with
  | nil => rfl
  | cons q rest ih =>
      obtain ⟨pid, t⟩ := q
      have hq := hint _ (List.mem_cons_self _ _)
      have ihr := ih (fun x hx => hint x (List.mem_cons_of_mem _ hx))
      cases t with
      | leaf p => exact absurd hq (by rw [GTree.isNodeB]; exact Bool.false_ne_true)
      | node m thr l u =>
          rw [List.flatMap_cons, List.flatMap_cons, List.flatMap_cons]
          dsimp only
          rw [show GTree.pops (.node m thr l u) = l.pops ++ u.pops from rfl]
          rw [show GTree.childrenOf (.node m thr l u) = [l, u] from rfl]
          rw [show GTree.leafKids (.node m thr l u) = kidPop l ++ kidPop u from rfl]
          rw [List.filter_append]
          cases l <;> cases u <;>
            · simp only [kidPop, List.filter_cons, List.filter_nil, GTree.isNodeB,
                Bool.false_eq_true, if_false, if_true, List.nil_append, List.append_nil,
                List.flatMap_cons, List.flatMap_append, List.flatMap_nil,
                show GTree.pops (.leaf _) = [_] from rfl]
              push_cast [← Multiset.coe_add] at ihr ⊢
              rw [ihr]
              abel


lemma coe_cons_ms {α : Type} (a : α) (l : List α) :
    (↑(a :: l) : Multiset α) = {a} + ↑l := by
  rw [← Multiset.cons_coe, ← Multiset.singleton_add]

lemma marks_split (ps : List (Nat × GTree))
    (hint : ∀ q ∈ ps, q.2.isNodeB = true) :
    (↑(ps.flatMap (fun q => GTree.cimarks q.2)) : Multiset Nat) =
      ↑(ps.flatMap (fun q => GTree.intKidMarks q.2)) +
      ↑(((ps.flatMap (fun q => GTree.childrenOf q.2)).filter GTree.isNodeB).flatMap
        GTree.cimarks) := by
  induction ps with
  | nil => rfl
  | cons q rest ih =>
      obtain ⟨pid, t⟩ := q
      have hq := hint _ (List.mem_cons_self _ _)
      have ihr := ih (fun x hx => hint x (List.mem_cons_of_mem _ hx))
      cases t with
      | leaf p => exact absurd hq (by rw [GTree.isNodeB]; exact Bool.false_ne_true)
      | node m thr l u =>
          rw [List.flatMap_cons, List.flatMap_cons, List.flatMap_cons]
          dsimp only
          rw [show GTree.cimarks (.node m thr l u) = l.imarks ++ u.imarks from rfl]
          rw [show GTree.childrenOf (.node m thr l u) = [l, u] from rfl]
          rw [show GTree.intKidMarks (.node m thr l u) = kidMark l ++ kidMark u from rfl]
          rw [List.filter_append]
          cases l <;> cases u <;>
            · simp only [kidMark, List.filter_cons, List.filter_nil, GTree.isNodeB,
                Bool.false_eq_true, if_false, if_true, List.nil_append, List.append_nil,
                List.flatMap_cons, List.flatMap_append, List.flatMap_nil,
                show ∀ p', GTree.imarks (.leaf p') = [] from fun p' => rfl,
                show ∀ m' thr' l' u', GTree.imarks (.node m' thr' l' u') =
                  m' :: (GTree.imarks l' ++ GTree.imarks u') from fun m' thr' l' u' => rfl,
                show ∀ m' thr' l' u', GTree.cimarks (.node m' thr' l' u') =
                  GTree.imarks l' ++ GTree.imarks u' from fun m' thr' l' u' => rfl]
              push_cast [← Multiset.coe_add, coe_cons_ms] at ihr ⊢
              rw [ihr]
              try abel


lemma levAll_false_cells (lc : List Int) (mk : List String) :
    ∀ (n : Nat) (ps : List (Nat × GTree)) (cid : Nat),
      ((ps.map (fun q => GTree.size q.2)).sum) ≤ n →
      (∀ q ∈ ps, q.2.isNodeB = true) →
      (↑(((levAll lc mk ps cid).1.filter (fun q => !q.1)).map (fun q => q.2.cells)) :
          Multiset (Option Int)) =
        ↑((ps.flatMap (fun q => GTree.pops q.2)).map
          (fun p => if p ≤ lc.length then rIndexInt lc (p : Int) else none)) := by
  intro n
  induction n with
  | zero =>
      intro ps cid hn hint
      cases ps with
      | nil => rw [levAll_nil]; rfl
      | cons q rest =>
          exfalso
          have h1 := plength_le_psum (q :: rest)
          rw [List.length_cons] at h1
          omega
  | succ n ih =>
      intro ps cid hn hint
      cases ps with
      | nil => rw [levAll_nil]; rfl
      | cons q rest =>
          rw [levAll_unfold lc mk _ _ (List.cons_ne_nil _ _)]
          dsimp only
          rw [List.filter_append, List.map_append, ← Multiset.coe_add]
          rw [levLevel_false_cells lc mk _ _ hint]
          rw [ih _ (cid + 2 * (q :: rest).length)
            (levAll_fr_bound lc mk q rest cid n hn)
            (levLevel_fr_internal lc mk _ _)]
          have hfr2 : ((levLevel lc mk (q :: rest) cid).2.2).flatMap
              (fun x => GTree.pops x.2) =
              (((q :: rest).flatMap (fun x => GTree.childrenOf x.2)).filter
                GTree.isNodeB).flatMap GTree.pops := by
            have h1 : ((levLevel lc mk (q :: rest) cid).2.2).flatMap
                (fun x => GTree.pops x.2) =
                (((levLevel lc mk (q :: rest) cid).2.2).map (fun x => x.2)).flatMap
                  GTree.pops := by
              rw [List.flatMap_map]
            rw [h1, levLevel_fr_trees lc mk _ _ hint]
          rw [hfr2]
          have hsplit := pops_split (q :: rest) hint
          have hfin : (↑(((q :: rest).flatMap (fun x => GTree.pops x.2)).map
              (fun p => if p ≤ lc.length then rIndexInt lc (p : Int) else none)) :
                Multiset (Option Int)) =
              ↑(((q :: rest).flatMap (fun x => GTree.leafKids x.2)).map
                (fun p => if p ≤ lc.length then rIndexInt lc (p : Int) else none)) +
              ↑(((((q :: rest).flatMap (fun x => GTree.childrenOf x.2)).filter
                  GTree.isNodeB).flatMap GTree.pops).map
                (fun p => if p ≤ lc.length then rIndexInt lc (p : Int) else none)) := by
            rw [← Multiset.map_coe, ← Multiset.map_coe, ← Multiset.map_coe, hsplit,
              Multiset.map_add]
          rw [hfin]

lemma levAll_true_pairs (lc : List Int) (mk : List String) :
    ∀ (n : Nat) (ps : List (Nat × GTree)) (cid : Nat),
      ((ps.map (fun q => GTree.size q.2)).sum) ≤ n →
      (∀ q ∈ ps, q.2.isNodeB = true) →
      (↑(((levAll lc mk ps cid).1.filter (fun q => q.1)).map
          (fun q => (q.2.marker, q.2.threshold))) :
            Multiset (Option String × Option ℚ)) =
        ↑((ps.flatMap (fun q => GTree.cimarks q.2)).map
          (fun m' => (some (marker_from_label (mstr mk m')), (none : Option ℚ)))) := by
  intro n
  induction n with
  | zero =>
      intro ps cid hn hint
      cases ps with
      | nil => rw [levAll_nil]; rfl
      | cons q rest =>
          exfalso
          have h1 := plength_le_psum (q :: rest)
          rw [List.length_cons] at h1
          omega
  | succ n ih =>
      intro ps cid hn hint
      cases ps with
      | nil => rw [levAll_nil]; rfl
      | cons q rest =>
          rw [levAll_unfold lc mk _ _ (List.cons_ne_nil _ _)]
          dsimp only
          rw [List.filter_append, List.map_append, ← Multiset.coe_add]
          rw [levLevel_true_pairs lc mk _ _ hint]
          rw [ih _ (cid + 2 * (q :: rest).length)
            (levAll_fr_bound lc mk q rest cid n hn)
            (levLevel_fr_internal lc mk _ _)]
          have hfr2 : ((levLevel lc mk (q :: rest) cid).2.2).flatMap
              (fun x => GTree.cimarks x.2) =
              (((q :: rest).flatMap (fun x => GTree.childrenOf x.2)).filter
                GTree.isNodeB).flatMap GTree.cimarks := by
            have h1 : ((levLevel lc mk (q :: rest) cid).2.2).flatMap
                (fun x => GTree.cimarks x.2) =
                (((levLevel lc mk (q :: rest) cid).2.2).map (fun x => x.2)).flatMap
                  GTree.cimarks := by
              rw [List.flatMap_map]
            rw [h1, levLevel_fr_trees lc mk _ _ hint]
          rw [hfr2]
          have hsplit := marks_split (q :: rest) hint
          have hfin : (↑(((q :: rest).flatMap (fun x => GTree.cimarks x.2)).map
              (fun m' => (some (marker_from_label (mstr mk m')), (none : Option ℚ)))) :
                Multiset (Option String × Option ℚ)) =
              ↑(((q :: rest).flatMap (fun x => GTree.intKidMarks x.2)).map
                (fun m' => (some (marker_from_label (mstr mk m')), (none : Option ℚ)))) +
              ↑(((((q :: rest).flatMap (fun x => GTree.childrenOf x.2)).filter
                  GTree.isNodeB).flatMap GTree.cimarks).map
                (fun m' => (some (marker_from_label (mstr mk m')), (none : Option ℚ)))) := by
            rw [← Multiset.map_coe, ← Multiset.map_coe, ← Multiset.map_coe, hsplit,
              Multiset.map_add]
          rw [hfin]


lemma GTree.leafCells_eq (lc : List Int) (t : GTree) :
    t.leafCells lc = t.pops.map (fun p : Nat => rIndexInt lc (p : Int)) := by
  induction t with
  | leaf p => rfl
  | node m thr l u ihl ihu =>
      simp [GTree.leafCells, GTree.pops, ihl, ihu]

lemma GTree.markerStrs_eq (mk : List String) (t : GTree) :
    t.markerStrs mk = t.imarks.map (fun m' : Nat => rIndexStr mk (m' : Int)) := by
  induction t with
  | leaf p => rfl
  | node m thr l u ihl ihu =>
      simp [GTree.markerStrs, GTree.imarks, ihl, ihu]


lemma gate_eq (lc : List Int) (p : Nat) :
    (if p ≤ lc.length then rIndexInt lc (p : Int) else none) = rIndexInt lc (p : Int) := by
  by_cases h : p ≤ lc.length
  · rw [if_pos h]
  · rw [if_neg h, rIndexInt, if_neg]
    intro hc
    have h2 := hc.2
    have : p ≤ lc.length := by exact_mod_cast h2
    exact h this

lemma internalMarkersOf_eq_map_fst (out : List CanonicalNode × List CanonicalLink) :
    internalMarkersOf out = (internalPairsOf out).map Prod.fst := by
  rw [internalMarkersOf, internalPairsOf, Multiset.map_coe, List.map_map]
  rfl

lemma map_fst_pairs_strs (mk : List String) (t : GTree) :
    ((t.markerStrs mk).map (fun s => (s, (none : Option ℚ)))).map Prod.fst =
      t.markerStrs mk := by
  rw [List.map_map]
  have : (Prod.fst ∘ fun s => (s, (none : Option ℚ))) = fun s : Option String => s := rfl
  rw [this, List.map_id'']
  intro x
  rfl


/-- Observables of the level-list strategy on the level encoding: same leaf
count, leaf cells and markers as the matrix strategy, but every internal
threshold is `none`. -/
lemma level_strategy_obs (lc : List Int) (mk : List String) (m : Nat) (thr : ℚ)
    (l u : GTree)
    (hp : ∀ p' ∈ (GTree.node m thr l u).pops, 1 ≤ p')
    (hm : ∀ m' ∈ (GTree.node m thr l u).imarks, 1 ≤ m' ∧ m' ≤ mk.length)
    (hlab : ∀ m' ∈ (GTree.node m thr l u).imarks,
      is_leaf_label (mstr mk m') = false ∧
      marker_from_label (mstr mk m') = mstr mk m') :
    ∃ out, level_strategy (.levels (frontierLevels mk [GTree.node m thr l u])) lc =
        some out ∧
      out.1.length = (GTree.node m thr l u).size ∧
      (leafNodesOf out).length = (GTree.node m thr l u).lcount ∧
      leafCellsOf out =
        ((GTree.node m thr l u).leafCells lc : Multiset (Option Int)) ∧
      internalMarkersOf out =
        ((GTree.node m thr l u).markerStrs mk : Multiset (Option String)) ∧
      internalPairsOf out =
        (↑(((GTree.node m thr l u).markerStrs mk).map
          (fun s => (s, (none : Option ℚ)))) : Multiset (Option String × Option ℚ)) := by
  have hlab1 : ∀ m' ∈ (GTree.node m thr l u).imarks,
      is_leaf_label (mstr mk m') = false := fun m' hm' => (hlab m' hm').1
  have hint0 : ∀ q ∈ ([(1, GTree.node m thr l u)] : List (Nat × GTree)),
      q.2.isNodeB = true := by
    intro q hq
    rw [List.mem_singleton.mp hq]
    rfl
  have hids : ((levChildNode lc mk 1 (GTree.node m thr l u) ::
      (levAll lc mk [(1, GTree.node m thr l u)] 2).1).map (fun q => q.2.id)) =
      1 :: List.range' 2 (levDesc [(1, GTree.node m thr l u)]) := by
    rw [List.map_cons, levAll_ids lc mk
      (([(1, GTree.node m thr l u)].map (fun q => GTree.size q.2)).sum)
      [(1, GTree.node m thr l u)] 2 (le_refl _) hint0]
    rfl
  have hnd : ((levChildNode lc mk 1 (GTree.node m thr l u) ::
      (levAll lc mk [(1, GTree.node m thr l u)] 2).1).map (fun q => q.2.id)).Nodup := by
    rw [hids, List.nodup_cons]
    constructor
    · intro hmem
      have := List.mem_range'_1.mp hmem
      omega
    · exact List.nodup_range' _ _
  have hsrc : ∀ i, isSourceIn (levAll lc mk [(1, GTree.node m thr l u)] 2).2 i = true ↔
      i ∈ ((levChildNode lc mk 1 (GTree.node m thr l u) ::
        (levAll lc mk [(1, GTree.node m thr l u)] 2).1).filter
        (fun q => q.1)).map (fun q => q.2.id) := by
    intro i
    rw [levAll_source_iff lc mk
      (([(1, GTree.node m thr l u)].map (fun q => GTree.size q.2)).sum)
      [(1, GTree.node m thr l u)] 2 i (le_refl _) hint0]
    rw [List.filter_cons]
    rw [show (levChildNode lc mk 1 (GTree.node m thr l u)).1 = true from rfl]
    simp only [if_true, List.map_cons, List.mem_cons]
    rw [show (levChildNode lc mk 1 (GTree.node m thr l u)).2.id = 1 from rfl]
    simp
  have hcorr := tag_correlation (levAll lc mk [(1, GTree.node m thr l u)] 2).2
    (levChildNode lc mk 1 (GTree.node m thr l u) ::
      (levAll lc mk [(1, GTree.node m thr l u)] 2).1) hnd hsrc
  have hft := filter_by_tag (levAll lc mk [(1, GTree.node m thr l u)] 2).2
    (levChildNode lc mk 1 (GTree.node m thr l u) ::
      (levAll lc mk [(1, GTree.node m thr l u)] 2).1) hcorr
  have hout : level_strategy (.levels (frontierLevels mk [GTree.node m thr l u])) lc =
      some (((levChildNode lc mk 1 (GTree.node m thr l u) ::
        (levAll lc mk [(1, GTree.node m thr l u)] 2).1).map (fun q => q.2)),
        (levAll lc mk [(1, GTree.node m thr l u)] 2).2) := by
    rw [level_strategy_run lc mk m thr l u hp hlab1]
    rw [List.map_cons]
  have hpairs : internalPairsOf
      (((levChildNode lc mk 1 (GTree.node m thr l u) ::
        (levAll lc mk [(1, GTree.node m thr l u)] 2).1).map (fun q => q.2)),
        (levAll lc mk [(1, GTree.node m thr l u)] 2).2) =
      (↑(((GTree.node m thr l u).markerStrs mk).map
        (fun s => (s, (none : Option ℚ)))) : Multiset (Option String × Option ℚ)) := by
    rw [internalPairsOf, internalNodesOf]
    dsimp only
    rw [hft.1, List.map_map]
    rw [List.filter_cons]
    rw [show (levChildNode lc mk 1 (GTree.node m thr l u)).1 = true from rfl]
    simp only [if_true, List.map_cons]
    rw [show ((fun n : CanonicalNode => (n.marker, n.threshold)) ∘ (fun q :
        Bool × CanonicalNode => q.2)) (levChildNode lc mk 1 (GTree.node m thr l u)) =
      (some (marker_from_label (mstr mk m)), (none : Option ℚ)) from rfl]
    rw [coe_cons_ms]
    have htp := levAll_true_pairs lc mk
      (([(1, GTree.node m thr l u)].map (fun q => GTree.size q.2)).sum)
      [(1, GTree.node m thr l u)] 2 (le_refl _) hint0
    rw [show ((levAll lc mk [(1, GTree.node m thr l u)] 2).1.filter
        (fun q => q.1)).map ((fun n : CanonicalNode => (n.marker, n.threshold)) ∘
          (fun q : Bool × CanonicalNode => q.2)) =
      ((levAll lc mk [(1, GTree.node m thr l u)] 2).1.filter (fun q => q.1)).map
        (fun q => (q.2.marker, q.2.threshold)) from rfl]
    rw [htp]
    rw [show (([(1, GTree.node m thr l u)] : List (Nat × GTree)).flatMap
        (fun q => GTree.cimarks q.2)) =
      (GTree.node m thr l u).cimarks from by
        rw [List.flatMap_cons, List.flatMap_nil, List.append_nil]]
    rw [show ({((some (marker_from_label (mstr mk m)), (none : Option ℚ)))} :
        Multiset (Option String × Option ℚ)) +
        ↑(((GTree.node m thr l u).cimarks).map
          (fun m' => (some (marker_from_label (mstr mk m')), (none : Option ℚ)))) =
      ↑((m :: (GTree.node m thr l u).cimarks).map
        (fun m' => (some (marker_from_label (mstr mk m')), (none : Option ℚ)))) from by
        rw [List.map_cons, coe_cons_ms]]
    rw [show (m :: (GTree.node m thr l u).cimarks) = (GTree.node m thr l u).imarks
      from rfl]
    have hlist : ((GTree.node m thr l u).imarks).map
        (fun m' => (some (marker_from_label (mstr mk m')), (none : Option ℚ))) =
        ((GTree.node m thr l u).markerStrs mk).map (fun s => (s, (none : Option ℚ))) := by
      rw [GTree.markerStrs_eq, List.map_map]
      apply List.map_congr_left
      intro m' hm'
      show (some (marker_from_label (mstr mk m')), (none : Option ℚ)) =
        (rIndexStr mk (m' : Int), (none : Option ℚ))
      rw [(hlab m' hm').2, rIndexStr_eq_mstr mk m' (hm m' hm').1 (hm m' hm').2]
    rw [hlist]
  refine ⟨_, hout, ?_, ?_, ?_, ?_, hpairs⟩
  · show ((levChildNode lc mk 1 (GTree.node m thr l u) ::
      (levAll lc mk [(1, GTree.node m thr l u)] 2).1).map (fun q => q.2)).length =
      (GTree.node m thr l u).size
    rw [List.length_map, List.length_cons]
    have h1 := congrArg List.length hids
    simp only [List.length_map, List.length_cons, List.length_range'] at h1
    have h2 : levDesc [(1, GTree.node m thr l u)] = (GTree.node m thr l u).size - 1 := by
      simp [levDesc]
    have h3 := GTree.size_pos (GTree.node m thr l u)
    omega
  · show (leafNodesOf _).length = (GTree.node m thr l u).lcount
    rw [leafNodesOf]
    dsimp only
    rw [hft.2, List.length_map]
    rw [List.filter_cons]
    rw [show ((!(levChildNode lc mk 1 (GTree.node m thr l u)).1)) = false from rfl]
    simp only [Bool.false_eq_true, if_false]
    have hcells := levAll_false_cells lc mk
      (([(1, GTree.node m thr l u)].map (fun q => GTree.size q.2)).sum)
      [(1, GTree.node m thr l u)] 2 (le_refl _) hint0
    have hcard := congrArg Multiset.card hcells
    rw [Multiset.coe_card, Multiset.coe_card, List.length_map, List.length_map] at hcard
    rw [hcard]
    rw [List.flatMap_cons, List.flatMap_nil, List.append_nil, GTree.pops_length]
  · show leafCellsOf _ = _
    rw [leafCellsOf, leafNodesOf]
    dsimp only
    rw [hft.2, List.map_map]
    rw [List.filter_cons]
    rw [show ((!(levChildNode lc mk 1 (GTree.node m thr l u)).1)) = false from rfl]
    simp only [Bool.false_eq_true, if_false]
    rw [show ((levAll lc mk [(1, GTree.node m thr l u)] 2).1.filter
        (fun q => !q.1)).map ((fun n : CanonicalNode => n.cells) ∘
          (fun q : Bool × CanonicalNode => q.2)) =
      ((levAll lc mk [(1, GTree.node m thr l u)] 2).1.filter (fun q => !q.1)).map
        (fun q => q.2.cells) from rfl]
    have hcells := levAll_false_cells lc mk
      (([(1, GTree.node m thr l u)].map (fun q => GTree.size q.2)).sum)
      [(1, GTree.node m thr l u)] 2 (le_refl _) hint0
    rw [hcells]
    rw [List.flatMap_cons, List.flatMap_nil, List.append_nil]
    have hmap : ((GTree.node m thr l u).pops).map
        (fun p => if p ≤ lc.length then rIndexInt lc (p : Int) else none) =
        ((GTree.node m thr l u).pops).map (fun p : Nat => rIndexInt lc (p : Int)) := by
      apply List.map_congr_left
      intro p hpm
      exact gate_eq lc p
    rw [hmap, ← GTree.leafCells_eq]
  · show internalMarkersOf _ = _
    rw [internalMarkersOf_eq_map_fst, hpairs, Multiset.map_coe, map_fst_pairs_strs]


lemma normalize_mat_run (lc : List Int) (mk : List String) (fuel : Nat)
    (rows : List MatRow) (out : List CanonicalNode × List CanonicalLink)
    (h : matrix_strategy (.mat rows) lc mk fuel = some out)
    (hlen : 2 ≤ out.1.length) :
    normalize (.mat rows) lc mk fuel = some out := by
  have hne : out.1.isEmpty = false := by
    cases ho : out.1 with
    | nil => rw [ho] at hlen; simp at hlen
    | cons a b => rfl
  rw [normalize]
  simp only [h, hne, Bool.false_eq_true, if_false]
  rw [if_neg (by omega)]
  simp only [List.length_nil]
  rw [if_neg (by omega)]

lemma normalize_keyed_run (lc : List Int) (mk : List String) (fuel : Nat)
    (entries : List (String × KEntry)) (out : List CanonicalNode × List CanonicalLink)
    (h : keyed_strategy (.keyed entries) mk = some out)
    (hlen : 2 ≤ out.1.length) :
    normalize (.keyed entries) lc mk fuel = some out := by
  rw [normalize]
  rw [show matrix_strategy (.keyed entries) lc mk fuel = some ([], []) from rfl]
  simp only [List.isEmpty_nil, if_true, h]
  rw [if_neg (by omega)]
  simp only [List.length_nil]
  rw [if_neg (by omega)]

lemma normalize_levels_run (lc : List Int) (mk : List String) (fuel : Nat)
    (lv : List (List String)) (out : List CanonicalNode × List CanonicalLink)
    (h : level_strategy (.levels lv) lc = some out)
    (hlen : 1 ≤ out.1.length) :
    normalize (.levels lv) lc mk fuel = some out := by
  rw [normalize]
  rw [show matrix_strategy (.levels lv) lc mk fuel = some ([], []) from rfl]
  simp only [List.isEmpty_nil, if_true]
  rw [show keyed_strategy (.levels lv) mk = some ([], []) from rfl]
  simp only [List.length_nil]
  rw [if_pos (by omega), h]
  show some (if 0 < out.1.length then out else ([], [])) = some out
  rw [if_pos (by omega)]


/-- **C1** (corrected): for a gating tree encoded in all three
`RawTreeDescription` shapes (matrix rows, name-keyed map, level-list) with
the same `labelCounts` and `markerNames`, `normalize` accepts all three and
the results agree on the leaf count and on the multiset of internal markers;
but the full isomorphism claimed by the spec fails by construction: the
keyed strategy emits no leaf cell counts (every leaf `cells` is `null`),
and the level-list strategy emits no thresholds (every internal `threshold`
is `null`).  The leaf-cells multiset agrees between matrix and level-list,
and the (marker, threshold) multiset agrees between matrix and keyed. -/
theorem c1_three_strategies (lc : List Int) (mk : List String)
    (m : Nat) (thr : ℚ) (l u : GTree)
    (hpops : ∀ p ∈ (GTree.node m thr l u).pops, (GTree.node m thr l u).icount < p)
    (hm : ∀ m' ∈ (GTree.node m thr l u).imarks, 1 ≤ m' ∧ m' ≤ mk.length)
    (hlab : ∀ m' ∈ (GTree.node m thr l u).imarks,
      is_leaf_label (mstr mk m') = false ∧
      marker_from_label (mstr mk m') = mstr mk m')
    (hnc : ∀ m' ∈ (GTree.node m thr l u).imarks,
      ((GTree.node m thr l u).keyNames []).contains (mstr mk m' ++ ".0") = false ∧
      ((GTree.node m thr l u).keyNames []).contains (mstr mk m' ++ ".1") = false) :
    ∃ M K L,
      normalize (.mat (toRows (GTree.node m thr l u))) lc mk
        ((GTree.node m thr l u).size + 1) = some M ∧
      normalize (.keyed (toKeyed mk (GTree.node m thr l u) [])) lc mk
        ((GTree.node m thr l u).size + 1) = some K ∧
      normalize (.levels (frontierLevels mk [GTree.node m thr l u])) lc mk
        ((GTree.node m thr l u).size + 1) = some L ∧
      ((leafNodesOf M).length = (GTree.node m thr l u).lcount ∧
        (leafNodesOf K).length = (GTree.node m thr l u).lcount ∧
        (leafNodesOf L).length = (GTree.node m thr l u).lcount) ∧
      (internalMarkersOf M = ((GTree.node m thr l u).markerStrs mk :
          Multiset (Option String)) ∧
        internalMarkersOf K = ((GTree.node m thr l u).markerStrs mk :
          Multiset (Option String)) ∧
        internalMarkersOf L = ((GTree.node m thr l u).markerStrs mk :
          Multiset (Option String))) ∧
      (leafCellsOf M = ((GTree.node m thr l u).leafCells lc :
          Multiset (Option Int)) ∧
        leafCellsOf L = ((GTree.node m thr l u).leafCells lc :
          Multiset (Option Int)) ∧
        leafCellsOf K = Multiset.replicate (GTree.node m thr l u).lcount
          (none : Option Int)) ∧
      (internalPairsOf M = ((GTree.node m thr l u).markerThrs mk :
          Multiset (Option String × Option ℚ)) ∧
        internalPairsOf K = ((GTree.node m thr l u).markerThrs mk :
          Multiset (Option String × Option ℚ)) ∧
        internalPairsOf L = (↑(((GTree.node m thr l u).markerStrs mk).map
          (fun s => (s, (none : Option ℚ)))) :
            Multiset (Option String × Option ℚ))) := by
  have hszbig : 3 ≤ (GTree.node m thr l u).size := by
    rw [GTree.size]
    have := GTree.size_pos l
    have := GTree.size_pos u
    omega
  have hp1 : ∀ p ∈ (GTree.node m thr l u).pops, 1 ≤ p := by
    intro p hp
    have := hpops p hp
    omega
  obtain ⟨M, hM, hMlen, hMleaf, hMcells, hMmark, hMpairs⟩ :=
    matrix_strategy_obs lc mk (GTree.node m thr l u) rfl hpops hm
  obtain ⟨K, hK, hKlen, hKleaf, hKcells, hKmark, hKpairs⟩ :=
    keyed_strategy_obs mk (GTree.node m thr l u) hm hnc
  obtain ⟨L, hL, hLlen, hLleaf, hLcells, hLmark, hLpairs⟩ :=
    level_strategy_obs lc mk m thr l u hp1 hm hlab
  refine ⟨M, K, L,
    normalize_mat_run lc mk _ _ M hM (by omega),
    normalize_keyed_run lc mk _ _ K hK (by omega),
    normalize_levels_run lc mk _ _ L hL (by omega),
    ⟨hMleaf, hKleaf, hLleaf⟩,
    ⟨hMmark, hKmark, hLmark⟩,
    ⟨hMcells, hLcells, hKcells⟩,
    ⟨hMpairs, hKpairs, hLpairs⟩⟩


/-- **C1 counterexample**: the three shapes below carry the same split
information (one CD3 split at 0.5 into populations 2 and 3, the inputs of
the spec's Scenario A), yet the keyed result's leaf-cells multiset differs
from the matrix result's, and the level-list result's (marker, threshold)
multiset differs from the matrix result's — the claimed isomorphism fails. -/
theorem c1_counterexample :
    ((normalize (.keyed [("root", [("marker", KVal.str "CD3"),
          ("cut", KVal.num (mkRat 1 2))]), ("root.0", []), ("root.1", [])])
        [1, 5, 7] ["CD3"] 5).map leafCellsOf ≠
      (normalize (.mat [⟨1, 1, mkRat 1 2, 2, 3⟩]) [1, 5, 7] ["CD3"] 5).map
        leafCellsOf) ∧
    ((normalize (.levels [["CD3"], ["2", "3"]]) [1, 5, 7] ["CD3"] 5).map
        internalPairsOf ≠
      (normalize (.mat [⟨1, 1, mkRat 1 2, 2, 3⟩]) [1, 5, 7] ["CD3"] 5).map
        internalPairsOf) := by
  constructor
  · decide
  · decide


/-- Witness for `c1_three_strategies` at the Scenario-A tree: all four
side conditions hold for the concrete tree, and the theorem applies. -/
theorem c1_three_strategies_witness :
    ((∀ p ∈ (GTree.node 1 (mkRat 1 2) (.leaf 2) (.leaf 3)).pops,
        (GTree.node 1 (mkRat 1 2) (.leaf 2) (.leaf 3)).icount < p) ∧
      (∀ m' ∈ (GTree.node 1 (mkRat 1 2) (.leaf 2) (.leaf 3)).imarks,
        1 ≤ m' ∧ m' ≤ (["CD3"] : List String).length) ∧
      (∀ m' ∈ (GTree.node 1 (mkRat 1 2) (.leaf 2) (.leaf 3)).imarks,
        is_leaf_label (mstr ["CD3"] m') = false ∧
        marker_from_label (mstr ["CD3"] m') = mstr ["CD3"] m') ∧
      (∀ m' ∈ (GTree.node 1 (mkRat 1 2) (.leaf 2) (.leaf 3)).imarks,
        ((GTree.node 1 (mkRat 1 2) (.leaf 2) (.leaf 3)).keyNames []).contains
          (mstr ["CD3"] m' ++ ".0") = false ∧
        ((GTree.node 1 (mkRat 1 2) (.leaf 2) (.leaf 3)).keyNames []).contains
          (mstr ["CD3"] m' ++ ".1") = false)) ∧
    (∃ M K L,
      normalize (.mat (toRows (GTree.node 1 (mkRat 1 2) (.leaf 2) (.leaf 3))))
        [1, 5, 7] ["CD3"]
        ((GTree.node 1 (mkRat 1 2) (.leaf 2) (.leaf 3)).size + 1) = some M ∧
      normalize (.keyed (toKeyed ["CD3"] (GTree.node 1 (mkRat 1 2) (.leaf 2)
        (.leaf 3)) [])) [1, 5, 7] ["CD3"]
        ((GTree.node 1 (mkRat 1 2) (.leaf 2) (.leaf 3)).size + 1) = some K ∧
      normalize (.levels (frontierLevels ["CD3"]
        [GTree.node 1 (mkRat 1 2) (.leaf 2) (.leaf 3)])) [1, 5, 7] ["CD3"]
        ((GTree.node 1 (mkRat 1 2) (.leaf 2) (.leaf 3)).size + 1) = some L ∧
      ((leafNodesOf M).length = (GTree.node 1 (mkRat 1 2) (.leaf 2) (.leaf 3)).lcount ∧
        (leafNodesOf K).length = (GTree.node 1 (mkRat 1 2) (.leaf 2) (.leaf 3)).lcount ∧
        (leafNodesOf L).length = (GTree.node 1 (mkRat 1 2) (.leaf 2) (.leaf 3)).lcount) ∧
      (internalMarkersOf M = ((GTree.node 1 (mkRat 1 2) (.leaf 2) (.leaf 3)).markerStrs
          ["CD3"] : Multiset (Option String)) ∧
        internalMarkersOf K = ((GTree.node 1 (mkRat 1 2) (.leaf 2) (.leaf 3)).markerStrs
          ["CD3"] : Multiset (Option String)) ∧
        internalMarkersOf L = ((GTree.node 1 (mkRat 1 2) (.leaf 2) (.leaf 3)).markerStrs
          ["CD3"] : Multiset (Option String))) ∧
      (leafCellsOf M = ((GTree.node 1 (mkRat 1 2) (.leaf 2) (.leaf 3)).leafCells
          [1, 5, 7] : Multiset (Option Int)) ∧
        leafCellsOf L = ((GTree.node 1 (mkRat 1 2) (.leaf 2) (.leaf 3)).leafCells
          [1, 5, 7] : Multiset (Option Int)) ∧
        leafCellsOf K = Multiset.replicate
          (GTree.node 1 (mkRat 1 2) (.leaf 2) (.leaf 3)).lcount (none : Option Int)) ∧
      (internalPairsOf M = ((GTree.node 1 (mkRat 1 2) (.leaf 2) (.leaf 3)).markerThrs
          ["CD3"] : Multiset (Option String × Option ℚ)) ∧
        internalPairsOf K = ((GTree.node 1 (mkRat 1 2) (.leaf 2) (.leaf 3)).markerThrs
          ["CD3"] : Multiset (Option String × Option ℚ)) ∧
        internalPairsOf L = (↑(((GTree.node 1 (mkRat 1 2) (.leaf 2)
          (.leaf 3)).markerStrs ["CD3"]).map (fun s => (s, (none : Option ℚ)))) :
            Multiset (Option String × Option ℚ)))) :=
  ⟨⟨by decide, by decide, by decide, by decide⟩,
    c1_three_strategies [1, 5, 7] ["CD3"] 1 (mkRat 1 2) (.leaf 2) (.leaf 3)
      (by decide) (by decide) (by decide) (by decide)⟩

end Cyto
